import Mathlib

/-!
Verification of the generalized suffix tree library (`suffix_tree` package).

We shallowly embed the data model (`util.Path`, `node.Node` / `Internal` /
`Leaf`), the naive builder (`naive.Builder.build`), the query layer
(`Tree.find`, `Tree.find_all`), the analysis passes (`compute_C`,
`common_substrings`) and the LCA subsystem (`lca_mixin`) as executable Lean
definitions, and prove the specification claims about them.

Modelling conventions:

* Symbols are `GSym`: either an ordinary symbol `sym a` or a terminator
  `term i` (the `UniqueEndChar` sentinel appended by `Tree.add`; each call of
  `add` creates a fresh object that compares equal only to itself, which we
  model by numbering the `add` calls).
* Python lists indexed in bounds are modelled with `List.getD`; all uses are
  guarded by the same bounds the Python code maintains.
* Code paths that raise (assertion failures, `IndexError`, negative shift
  counts, attribute errors) are modelled by `Option`, with `none` meaning the
  Python exception.
* The mutable tree is modelled as an inductive value; re-assignments of a
  `children` dict entry become functional updates that keep the dict's
  insertion order, exactly as Python dicts do.
-/

set_option maxHeartbeats 1000000
set_option maxRecDepth 100000

namespace SuffixTreeProof

/-- A symbol of a generalized suffix tree: an ordinary hashable symbol
(modelled by a natural number) or the unique terminator appended by the n-th
call of `Tree.add` (`util.UniqueEndChar`). -/
inductive GSym where
  | sym (a : Nat)
  | term (i : Nat)
deriving DecidableEq, Repr

/-- A node of the suffix tree (`node.Internal` / `node.Leaf`).

An internal node stores the sequence `S`, the span `[start, stop)` of its
path-label inside `S`, its suffix link (`None` after `Internal.__init__` and
after `split_edge`; builders set it explicitly — we identify the target node
by its path-label span) and the children dict as an insertion-ordered
association list keyed by the first symbol of the child's edge.

A leaf stores the id of the sequence that created it (`str_id`) and its
path-label span.  `depth` is `stop - start` in both cases. -/
inductive NodeT where
  | internal (S : List GSym) (start stop : Nat)
      (slink : Option (List GSym × Nat × Nat)) (children : List (GSym × NodeT))
  | leaf (strId : Nat) (S : List GSym) (start stop : Nat)

namespace NodeT

/-- The sequence a node's path-label lives in (`Node.S`). -/
def seq : NodeT → List GSym
  | internal S _ _ _ _ => S
  | leaf _ S _ _ => S

/-- Start of the path-label (`Node.start`). -/
def start : NodeT → Nat
  | internal _ s _ _ _ => s
  | leaf _ _ s _ => s

/-- End of the path-label (`Node.end`; for Ukkonen leaves the property
returns the current length of `S`, which for a completed build equals the
stored fixed end). -/
def stop : NodeT → Nat
  | internal _ _ e _ _ => e
  | leaf _ _ _ e => e

/-- String-depth of a node (`Node.depth = end - start`). -/
def depth (n : NodeT) : Nat := n.stop - n.start

/-- True for leaves. -/
def isLeaf : NodeT → Bool
  | internal _ _ _ _ _ => false
  | leaf _ _ _ _ => true

/-- Path-label of a node: `S[start:end]`. -/
def label (n : NodeT) : List GSym := (n.seq.drop n.start).take (n.stop - n.start)

end NodeT

/-- The children dict of a node (`Internal.children`; leaves have none). -/
def NodeT.children : NodeT → List (GSym × NodeT)
  | internal _ _ _ _ ch => ch
  | leaf _ _ _ _ => []

/-- The suffix link of a node (`Internal.suffix_link`). -/
def NodeT.slink : NodeT → Option (List GSym × Nat × Nat)
  | internal _ _ _ sl _ => sl
  | leaf _ _ _ _ => none

/-- Indexing `S[i]` for an index that the source keeps in bounds. -/
def symAt (S : List GSym) (i : Nat) : GSym := S.getD i (GSym.sym 0)

/-- Lookup in the children dict (`node.children.get(key)`). -/
def lookupChild : List (GSym × NodeT) → GSym → Option NodeT
  | [], _ => none
  | (k, c) :: rest, a => if k = a then some c else lookupChild rest a

/-- Assignment `node.children[key] = v` on a Python dict: replace in place if
the key exists, append otherwise. -/
def replaceChild : List (GSym × NodeT) → GSym → NodeT → List (GSym × NodeT)
  | [], k, v => [(k, v)]
  | (k', c) :: rest, k, v =>
      if k' = k then (k, v) :: rest else (k', c) :: replaceChild rest k v

theorem lookupChild_mem {ch : List (GSym × NodeT)} {a : GSym} {c : NodeT}
    (h : lookupChild ch a = some c) : ∃ k, (k, c) ∈ ch := by
  induction ch with
  | nil => simp [lookupChild] at h
  | cons kc rest ih =>
    obtain ⟨k, c'⟩ := kc
    simp only [lookupChild] at h
    by_cases hk : k = a
    · rw [if_pos hk] at h
      injection h with h
      exact ⟨k, by simp [h]⟩
    · rw [if_neg hk] at h
      obtain ⟨k', hk'⟩ := ih h
      exact ⟨k', List.mem_cons_of_mem _ hk'⟩

theorem sizeOf_lookupChild {ch : List (GSym × NodeT)} {a : GSym} {c : NodeT}
    (h : lookupChild ch a = some c) : sizeOf c < sizeOf ch := by
  obtain ⟨k, hk⟩ := lookupChild_mem h
  have h1 : sizeOf (k, c) ≤ sizeOf ch := le_of_lt (List.sizeOf_lt_of_mem hk)
  have h2 : sizeOf c < sizeOf (k, c) := by simp
  omega

/-- The body of the inner `while` loop of `Internal.find_path`, with the
remaining iteration count `stop - matched` as a structural argument:
advance `matched` while `child.S[child.start + matched] == S[start +
matched]`. -/
def matchEdgeGo (cS : List GSym) (cstart : Nat) (S : List GSym)
    (start : Nat) : Nat → Nat → Nat
  | matched, 0 => matched
  | matched, fuel + 1 =>
      if symAt cS (cstart + matched) = symAt S (start + matched) then
        matchEdgeGo cS cstart S start (matched + 1) fuel
      else matched

/-- The inner `while` loop of `Internal.find_path`: starting at offset
`matched` (an absolute string-depth), advance while `matched < stop` and
`child.S[child.start + matched] == S[start + matched]`; return the final
`matched_len`.  The loop runs exactly `stop - matched` times unless a
mismatch stops it. -/
def matchEdge (cS : List GSym) (cstart : Nat) (S : List GSym) (start : Nat)
    (matched stop : Nat) : Nat :=
  matchEdgeGo cS cstart S start matched (stop - matched)

mutual

/-- `Internal.find_path(S, start, end)`: find the longest path from this node
matching `S[start:end]` (the query is absolute: `matched_len` starts at the
node's own string-depth).  Returns the deepest node on the path, the matched
length, and the child into whose edge the match descended, if any.  `none`
models the `assert isinstance(node, Internal)` failure that occurs when the
loop re-enters at a leaf.  The children dict lookup
`node.children.get(S[start + matched_len])` is fused into the recursion
(`findPathScan`) so that the definition is structurally recursive. -/
def findPath (node : NodeT) (S : List GSym) (start stop : Nat) :
    Option (NodeT × Nat × Option NodeT) :=
  if node.depth < stop - start then
    match node with
    | .leaf _ _ _ _ => none
    | .internal nS ns ne sl children =>
        findPathScan children (symAt S (start + (ne - ns)))
          (.internal nS ns ne sl children) S start stop
  else some (node, node.depth, none)

/-- Scan the children dict for `key`; on a hit, compare the edge label and
either stop inside the edge or loop into the child; on a miss, return
`(node, matched_len, None)` ("no edge to follow"). -/
def findPathScan (ch : List (GSym × NodeT)) (key : GSym) (self : NodeT)
    (S : List GSym) (start stop : Nat) : Option (NodeT × Nat × Option NodeT) :=
  match ch with
  | [] => some (self, self.depth, none)
  | (k, c) :: rest =>
      if k = key then
        let m := matchEdge c.seq c.start S start self.depth
          (min c.depth (stop - start))
        if m < c.depth then some (self, m, some c)
        else findPath c S start stop
      else findPathScan rest key self S start stop

end

/-! ### Bit helpers of the LCA subsystem (`lca_mixin.nlz`, `msb`, `h`)

Python integers are arbitrary precision and `>>` is an arithmetic (floor)
shift, so these functions are embedded over `Int`. -/

/-- Python `x >> n` for a nonnegative shift: arithmetic shift, i.e. floor
division by `2 ^ n`. -/
def pyShr (x : Int) (n : Nat) : Int := Int.fdiv x (Int.ofNat (2 ^ n))

/-- Python `x << n`: `none` models `ValueError: negative shift count`. -/
def pyShl (x : Int) (n : Int) : Option Int :=
  if n < 0 then none else some (x * Int.ofNat (2 ^ n.toNat))

/-- Python `~x = -x - 1`. -/
def pyNot (x : Int) : Int := -x - 1

/-- Bitwise combination of two natural numbers by binary recursion, with
explicit fuel so that the kernel can evaluate it (the first argument halves
on every step, so fuel `n + 1` is always enough). -/
def natBitwiseGo (f : Bool → Bool → Bool) : Nat → Nat → Nat → Nat
  | 0, _, _ => 0
  | fuel + 1, n, m =>
      if n = 0 then (if f false true then m else 0)
      else if m = 0 then (if f true false then n else 0)
      else
        2 * natBitwiseGo f fuel (n / 2) (m / 2) +
          (if f (decide (n % 2 = 1)) (decide (m % 2 = 1)) then 1 else 0)

/-- Bitwise combination of two natural numbers (`Nat.bitwise`, in a
kernel-evaluable form). -/
def natBitwise (f : Bool → Bool → Bool) (n m : Nat) : Nat :=
  natBitwiseGo f (n + 1) n m

/-- Python `x & y` on arbitrary integers: two's-complement bitwise *and*
(the same case split as `Int.land`). -/
def pyAnd : Int → Int → Int
  | .ofNat m, .ofNat n => .ofNat (natBitwise (fun a b => a && b) m n)
  | .ofNat m, .negSucc n => .ofNat (natBitwise (fun a b => a && !b) m n)
  | .negSucc m, .ofNat n => .ofNat (natBitwise (fun a b => a && !b) n m)
  | .negSucc m, .negSucc n => .negSucc (natBitwise (fun a b => a || b) m n)

/-- Python `x | y` on arbitrary integers: two's-complement bitwise *or*
(the same case split as `Int.lor`). -/
def pyOr : Int → Int → Int
  | .ofNat m, .ofNat n => .ofNat (natBitwise (fun a b => a || b) m n)
  | .ofNat m, .negSucc n => .negSucc (natBitwise (fun a b => a && !b) n m)
  | .negSucc m, .ofNat n => .negSucc (natBitwise (fun a b => a && !b) m n)
  | .negSucc m, .negSucc n => .negSucc (natBitwise (fun a b => a && b) m n)

/-- Python `x ^ y` on arbitrary integers: two's-complement bitwise *xor*
(the same case split as `Int.xor`). -/
def pyXor : Int → Int → Int
  | .ofNat m, .ofNat n => .ofNat (natBitwise (fun a b => a != b) m n)
  | .ofNat m, .negSucc n => .negSucc (natBitwise (fun a b => a == b) m n)
  | .negSucc m, .ofNat n => .negSucc (natBitwise (fun a b => a == b) m n)
  | .negSucc m, .negSucc n => .ofNat (natBitwise (fun a b => a != b) m n)

/-- One iteration of the loop in `nlz`: given `shift`, if `y = x >> shift` is
nonzero then `n = n - shift; x = y`. -/
def nlzStep (p : Int × Int) (shift : Nat) : Int × Int :=
  let y := pyShr p.2 shift
  if y ≠ 0 then (p.1 - shift, y) else p

/-- `lca_mixin.nlz(x)`: the number of leading zeros in the 32-bit
representation of `x`, computed by the shift cascade over
`(16, 8, 4, 2, 1)` followed by `return n - x`. -/
def nlz (x : Int) : Int :=
  let p := [16, 8, 4, 2, 1].foldl nlzStep (32, x)
  p.1 - p.2

/-- `lca_mixin.msb(x) = 31 - nlz(x)`: position of the most significant set
bit, `-1` for `x = 0`. -/
def msb (x : Int) : Int := 31 - nlz x

/-- `lca_mixin.h(k) = 32 - nlz(~k & (k - 1))`: position of the
least-significant set bit of `k` (named `hBit` here because `h` is
conventionally a hypothesis name). -/
def hBit (k : Int) : Int := 32 - nlz (pyAnd (pyNot k) (k - 1))

/-! ### Path spans (`util.Path`) -/

/-- `util.Path`: a path-span `(S, start, end)` over a sequence of symbols.
`start` and `stop` are `Int` so that the constructor's precondition on
negative input can be stated. -/
structure PyPath where
  S : List GSym
  start : Int
  stop : Int
deriving DecidableEq

/-- `Path.__init__(S, start, end)` for a symbol sequence and a fixed integer
end: the constructor runs
`assert 0 <= start <= self.end <= len(self.S)` and `none` models the
`AssertionError`; otherwise the fields are stored unchanged. -/
def mkPath (S : List GSym) (start stop : Int) : Option PyPath :=
  if 0 ≤ start ∧ start ≤ stop ∧ stop ≤ (S.length : Int) then
    some ⟨S, start, stop⟩
  else none

/-! ### Edge splitting (`Internal.split_edge`) -/

/-- `Internal.split_edge(new_len, child)`: split *p --> child* into
*p --> new_node --> child*.  Returns the rewritten parent and the new node;
`none` models the `assert self.depth < new_len < child.depth` failure (and
calling the method on a leaf, which has no `split_edge`).

The new node's path-span is `(child.S, child.start, child.start + new_len)`,
its suffix link is unset, it holds `child` under key
`child.S[new_edge_end]`, and it replaces `child` in the parent's children
dict under key `child.S[child.start + self.depth]`.  `child.parent = new_node`
is implicit in the functional representation. -/
def splitEdge (p : NodeT) (newLen : Nat) (child : NodeT) :
    Option (NodeT × NodeT) :=
  match p with
  | .leaf _ _ _ _ => none
  | .internal pS ps pe sl ch =>
    if (pe - ps) < newLen ∧ newLen < child.depth then
      let newEdgeEnd := child.start + newLen
      let newNode : NodeT := .internal child.seq child.start newEdgeEnd none
        [(symAt child.seq newEdgeEnd, child)]
      some (.internal pS ps pe sl
        (replaceChild ch (symAt child.seq (child.start + (pe - ps))) newNode),
        newNode)
    else none

/-! ### The naive builder (`naive.Builder.build`)

One iteration of the builder's loop — `find_path` from the root, a
`split_edge` if the match ended mid-edge, then attaching a leaf — becomes the
functional insertion `insertSuffix`, which performs the same descent as
`find_path` but rebuilds the tree on the way back up.  The branch structure
mirrors `find_path` exactly; the `split_edge` call is inlined because the
leaf must be attached below the freshly created node.  `none` models the
assertion failures of the source (`split length`, `matched_len < end - start`
and the `isinstance` assert of `find_path`). -/

mutual

/-- Insert the suffix `S[start:stop]` of sequence `id` below `node`
(one iteration of `naive.Builder.build`).  The children dict lookup is fused
into the recursion (`insertScan`), as in `findPath`. -/
def insertSuffix (node : NodeT) (id : Nat) (S : List GSym) (start stop : Nat) :
    Option NodeT :=
  match node with
  | .leaf _ _ _ _ => none  -- find_path: assert isinstance(node, Internal)
  | .internal nS ns ne sl children =>
    if ne - ns < stop - start then
      (insertScan children (symAt S (start + (ne - ns))) (ne - ns)
        id S start stop).map
        (fun ch' => .internal nS ns ne sl ch')
    else
      -- find_path returns (node, node.depth, None) with matched_len =
      -- end - start; assert matched_len < (end - start) fails
      none

/-- Scan the children dict of a node of depth `d` for `key` and rebuild it:

* key absent: `find_path` returned `(node, d, None)`; attach the new leaf
  under key `S[start + matched_len]` (dict insertion appends);
* key hit, mismatch strictly inside the edge: `split_edge(m, child)` (which
  asserts `d < m < child.depth` and re-keys the entry under
  `child.S[child.start + d]`, in place for a well-formed dict), then attach
  the new leaf below the new node (`assert matched_len < end - start`);
* key hit, edge label fully matched: `find_path` loops into the child, which
  is rebuilt in place. -/
def insertScan (ch : List (GSym × NodeT)) (key : GSym) (d : Nat)
    (id : Nat) (S : List GSym) (start stop : Nat) :
    Option (List (GSym × NodeT)) :=
  match ch with
  | [] => some [(key, .leaf id S start stop)]
  | (k, c) :: rest =>
      if k = key then
        let m := matchEdge c.seq c.start S start d (min c.depth (stop - start))
        if m < c.depth then
          if d < m then
            if m < stop - start then
              some ((symAt c.seq (c.start + d), .internal c.seq c.start
                  (c.start + m) none
                  [(symAt c.seq (c.start + m), c),
                   (symAt S (start + m), .leaf id S start stop)]) :: rest)
            else none  -- assert matched_len < (end - start) fails
          else none  -- split_edge: assert self.depth < new_len fails
        else
          (insertSuffix c id S start stop).map (fun c' => (k, c') :: rest)
      else
        (insertScan rest key d id S start stop).map (fun rest' => (k, c) :: rest')

end

/-- `naive.Builder.build(root, id, S)`: the loop `for start in range(end)`
inserting every suffix of `S`. -/
def buildNaive (root : NodeT) (id : Nat) (S : List GSym) : Option NodeT :=
  (List.range S.length).foldl
    (fun acc start => acc.bind (fun t => insertSuffix t id S start S.length))
    (some root)

/-- `Tree.add(id, S)` with the naive builder: append the fresh terminator
`UniqueEndChar` (modelled by the per-call tag `tag`) and run the builder on
every suffix. -/
def addSequence (t : NodeT) (id tag : Nat) (w : List Nat) : Option NodeT :=
  buildNaive t id (w.map GSym.sym ++ [GSym.term tag])

/-- The root created by `Tree.__init__`: an internal node with empty
path-span and no children. -/
def root0 : NodeT := .internal [] 0 0 none []

/-- Add the numbered sequences of a dictionary in order
(`Tree.__init__` / repeated `Tree.add`), terminator tags counting from
`tag`. -/
def addAll (t : NodeT) (tag : Nat) : List (Nat × List Nat) → Option NodeT
  | [] => some t
  | (id, w) :: rest =>
    match addSequence t id tag w with
    | none => none
    | some t' => addAll t' (tag + 1) rest

/-- Build a tree from a dictionary of sequences with the naive builder. -/
def buildTree (d : List (Nat × List Nat)) : Option NodeT := addAll root0 0 d

/-! ### Traversals, queries and analyses -/

mutual

/-- All nodes of the subtree rooted at a node, in pre-order
(`Node.pre_order`). -/
def allNodes : NodeT → List NodeT
  | .leaf id S s e => [.leaf id S s e]
  | .internal S s e sl ch => .internal S s e sl ch :: allNodesList ch

/-- Pre-order concatenation of `allNodes` over a children dict. -/
def allNodesList : List (GSym × NodeT) → List NodeT
  | [] => []
  | (_, c) :: rest => allNodes c ++ allNodesList rest

end

mutual

/-- Number of leaves in the subtree rooted at a node. -/
def leafCount : NodeT → Nat
  | .leaf _ _ _ _ => 1
  | .internal _ _ _ _ ch => leafCountList ch

/-- Number of leaves below a children dict. -/
def leafCountList : List (GSym × NodeT) → Nat
  | [] => 0
  | (_, c) :: rest => leafCount c + leafCountList rest

end

mutual

/-- `Node.get_positions()`: the `(str_id, path)` pairs of all leaves of the
subtree, in pre-order (`Leaf.add_position` appends
`(str_id, Path(S, start, end))`). -/
def getPositions : NodeT → List (Nat × List GSym × Nat × Nat)
  | .leaf id S s e => [(id, S, s, e)]
  | .internal _ _ _ _ ch => getPositionsList ch

/-- `get_positions` over a children dict. -/
def getPositionsList : List (GSym × NodeT) → List (Nat × List GSym × Nat × Nat)
  | [] => []
  | (_, c) :: rest => getPositions c ++ getPositionsList rest

end

/-- `Tree.find(S)`: run `find_path` on the root for the query `S` (queries
are sequences of ordinary symbols; users cannot name terminators) and test
`matched_len == len(path)`.  `none` propagates a `find_path` assertion
failure. -/
def find (t : NodeT) (w : List Nat) : Option Bool :=
  let q := w.map GSym.sym
  (findPath t q 0 q.length).map (fun r => decide (r.2.1 = q.length))

/-- `Tree.find_all(S)`: all occurrences of the query, one `(id, path)` entry
per leaf below the match's end (`(child or node).get_positions()`). -/
def findAll (t : NodeT) (w : List Nat) :
    Option (List (Nat × List GSym × Nat × Nat)) :=
  let q := w.map GSym.sym
  match findPath t q 0 q.length with
  | none => none
  | some (node, m, child) =>
    if m < q.length then some []
    else some (getPositions (child.getD node))

mutual

/-- `compute_C`: the set of distinct sequence ids at the leaves of the
subtree.  A leaf returns `{str_id}`; an internal node returns the union over
its children (the source then stores the set's size in `self.C`). -/
def computeCset : NodeT → Finset Nat
  | .leaf id _ _ _ => {id}
  | .internal _ _ _ _ ch => computeCsetList ch

/-- Union of `computeCset` over a children dict (`id_set.update(...)`). -/
def computeCsetList : List (GSym × NodeT) → Finset Nat
  | [] => ∅
  | (_, c) :: rest => computeCset c ∪ computeCsetList rest

end

/-- The `C(v)` value stored by `compute_C`: the cardinality of the id set. -/
def computeCval (v : NodeT) : Nat := (computeCset v).card

/-! ### `Tree.common_substrings` -/

/-- A path-span as stored in the `V` dict and the result rows. -/
abbrev Span := List GSym × Nat × Nat

/-- An entry of the `V` dict: `(string_depth, id, path)`.  The id is `none`
for the defaultdict default `"no_id"` and the path is `none` for the default
`None`. -/
abbrev VEntry := Nat × Option Nat × Option Span

/-- The defaultdict default `(0, "no_id", None)`. -/
def vDefault : VEntry := (0, none, none)

/-- The `V` defaultdict as an insertion-ordered association list. -/
abbrev VMap := List (Nat × VEntry)

/-- Read `V[k]`, returning the default when the key is missing. -/
def vGet (V : VMap) (k : Nat) : VEntry :=
  match V.find? (fun kv => kv.1 = k) with
  | some kv => kv.2
  | none => vDefault

/-- Reading `V[k]` on a defaultdict also inserts the default when the key is
missing (this makes the key show up in `V.keys()`). -/
def vTouch (V : VMap) (k : Nat) : VMap :=
  if (V.find? (fun kv => kv.1 = k)).isSome then V else V ++ [(k, vDefault)]

/-- Assignment `V[k] = e`. -/
def vSet : VMap → Nat → VEntry → VMap
  | [], k, e => [(k, e)]
  | kv :: rest, k, e =>
      if kv.1 = k then (k, e) :: rest else kv :: vSet rest k e

mutual

/-- `Internal.common_substrings(V)` (a no-op on leaves, `Node.common_substrings`):
if this node's depth beats `V[C(v)]`, store
`(depth, first_leaf_id, Path(path.S, path.start, path.start + depth))` for
the first `(id, path)` of `get_positions()`; then recurse into the
children. -/
def csVisit : NodeT → VMap → VMap
  | .leaf _ _ _ _, V => V
  | .internal S s e sl ch, V =>
      let v : NodeT := .internal S s e sl ch
      let k := computeCval v
      let depth := e - s
      let V1 := vTouch V k
      let V2 :=
        if depth > (vGet V1 k).1 then
          match getPositions v with
          | [] => V1
          | (id, pS, pstart, _) :: _ =>
              vSet V1 k (depth, some id, some (pS, pstart, pstart + depth))
        else V1
      csVisitList ch V2

/-- `common_substrings` recursion over a children dict. -/
def csVisitList : List (GSym × NodeT) → VMap → VMap
  | [], V => V
  | (_, c) :: rest, V => csVisitList rest (csVisit c V)

end

/-- `max(V.keys())` (the dict is never empty: the root always touches its
key). -/
def vKeysMax (V : VMap) : Nat := (V.map Prod.fst).foldr max 0

/-- A result row `(k, l(k), path)`. -/
abbrev Row := Nat × Nat × Option Span

/-- The loop `for k in range(max(V.keys()), 1, -1)` of
`Tree.common_substrings`, threading the running maximum length and its
path; the iteration stops after `k = 2`. -/
def rowsLoop (V : VMap) : Nat → Nat → Option Span → List Row
  | 0, _, _ => []
  | 1, _, _ => []
  | m + 2, maxLen, maxPath =>
      let k := m + 2
      let length := (vGet V k).1
      let p := if length > maxLen then (length, (vGet V k).2.2)
               else (maxLen, maxPath)
      (k, p.1, p.2) :: rowsLoop V (m + 1) p.1 p.2

/-- Insert a row into a list sorted ascending by `k` (rows have pairwise
distinct `k`, so Python's tuple sort only ever compares the `k`
components). -/
def insertRow (r : Row) : List Row → List Row
  | [] => [r]
  | x :: xs => if r.1 ≤ x.1 then r :: x :: xs else x :: insertRow r xs

/-- `sorted(l)` on the rows. -/
def sortRows : List Row → List Row
  | [] => []
  | x :: xs => insertRow x (sortRows xs)

/-- `Tree.common_substrings()`: compute `C`, fill the `V` dict in pre-order,
then build and sort the rows. -/
def commonSubstrings (t : NodeT) : List Row :=
  let V := csVisit t []
  sortRows (rowsLoop V (vKeysMax V) 0 none)

/-! ### The LCA subsystem (`lca_mixin`)

`prepare_lca` numbers the nodes in DFS pre-order starting at 1, then
computes the `I` values and the `L` map bottom-up and the `A` values
top-down.  We mirror the three passes; node identity is the unique
`lca_id`. -/

/-- A node annotated with its `lca_id` (pass 1). -/
inductive LTree where
  | leaf (lcaId : Nat)
  | internal (lcaId : Nat) (children : List LTree)

/-- A node annotated with `lca_id` and `I` (pass 2). -/
inductive ILTree where
  | leaf (lcaId I : Nat)
  | internal (lcaId I : Nat) (children : List ILTree)

mutual

/-- `Node.prepare_lca(counter)`: assign DFS pre-order numbers. -/
def prepareLca : NodeT → Nat → LTree × Nat
  | .leaf _ _ _ _, c => (.leaf c, c + 1)
  | .internal _ _ _ _ ch, c =>
      let p := prepareLcaList ch (c + 1)
      (.internal c p.1, p.2)

/-- `prepare_lca` over a children dict. -/
def prepareLcaList : List (GSym × NodeT) → Nat → List LTree × Nat
  | [], c => ([], c)
  | (_, ch) :: rest, c =>
      let p := prepareLca ch c
      let q := prepareLcaList rest p.2
      (p.1 :: q.1, q.2)

end

/-- The `I` value of an annotated node. -/
def ILTree.I : ILTree → Nat
  | .leaf _ I => I
  | .internal _ I _ => I

/-- The `lca_id` of an annotated node. -/
def ILTree.lcaId : ILTree → Nat
  | .leaf c _ => c
  | .internal c _ _ => c

/-- Dict assignment `L[i] = v` on an association list. -/
def updAssoc : List (Nat × Nat) → Nat → Nat → List (Nat × Nat)
  | [], i, v => [(i, v)]
  | kv :: rest, i, v =>
      if kv.1 = i then (i, v) :: rest else kv :: updAssoc rest i v

mutual

/-- `Node.compute_I_and_L(L)`: post-order.  A leaf's `I` is its own
`lca_id`; an internal node's `I` is the child `I` maximising `h`, compared
against its own `lca_id`.  Each node then writes `L[I] = self` (so the
topmost node of a run wins). -/
def computeIL : LTree → List (Nat × Nat) → ILTree × List (Nat × Nat)
  | .leaf c, L => (.leaf c c, updAssoc L c c)
  | .internal c ch, L =>
      let p := computeILList ch L c
      (.internal c p.2.1 p.2.2, updAssoc p.1 p.2.1 c)

/-- `compute_I_and_L` over the children, threading `L` and the running
maximal `I` (`imax` starts at the parent's own `lca_id`). -/
def computeILList : List LTree → List (Nat × Nat) → Nat →
    (List (Nat × Nat) × Nat × List ILTree)
  | [], L, imax => (L, imax, [])
  | t :: rest, L, imax =>
      let p := computeIL t L
      let ival : Nat := p.1.I
      let imax' : Nat := if hBit (ival : Int) > hBit (imax : Int) then ival else imax
      let q := computeILList rest p.2 imax'
      (q.1, q.2.1, p.1 :: q.2.2)

end

/-- A fully annotated node record, as used by `Tree.lca`. -/
structure LcaEntry where
  lcaId : Nat
  parent : Option Nat
  I : Nat
  A : Int
deriving DecidableEq, Repr

/-- Python `x << n` for a shift that is known to be nonnegative (the theorem
`hBit_int_nonneg` below shows `h` applied to a DFS id never is negative, so
`1 << h(self.I)` in `compute_A` never raises). -/
def pyShlT (x : Int) (n : Int) : Int := x * Int.ofNat (2 ^ n.toNat)

mutual

/-- `Node.compute_A(A)` fused with flattening: pre-order, computing
`A = A_parent | (1 << h(I))` and recording each node's parent.  The shift
count `h(I)` of a DFS id `I` is nonnegative (`hBit_int_nonneg`), so the
`1 << h(I)` of the source cannot raise and is embedded as the total
shift. -/
def computeA : ILTree → Option Nat → Int → List LcaEntry
  | .leaf c I, par, acc => [⟨c, par, I, pyOr acc (pyShlT 1 (hBit I))⟩]
  | .internal c I ch, par, acc =>
      ⟨c, par, I, pyOr acc (pyShlT 1 (hBit I))⟩ ::
        computeAList ch (some c) (pyOr acc (pyShlT 1 (hBit I)))

/-- `compute_A` over the children. -/
def computeAList : List ILTree → Option Nat → Int → List LcaEntry
  | [], _, _ => []
  | t :: rest, par, acc => computeA t par acc ++ computeAList rest par acc

end

/-- `Tree.prepare_lca()`: number the nodes, compute `I` and `L`, compute
`A`; returns the node records and the `L` map. -/
def lcaPrep (t : NodeT) : List LcaEntry × List (Nat × Nat) :=
  let p := prepareLca t 1
  let q := computeIL p.1 []
  (computeA q.1 none 0, q.2)

/-- Look up a node record by `lca_id`. -/
def lcaFind (es : List LcaEntry) (i : Nat) : Option LcaEntry :=
  es.find? (fun e => e.lcaId = i)

/-- Steps 3 and 4 of `Tree.lca` (`get_xy_bar`): recover the node `x̄`.
`none` models a `ValueError` from `1 << k` with negative `k`, a
`KeyError` from `L[Iw]` and the `AttributeError` from taking `parent` of
the root. -/
def getXYbar (es : List LcaEntry) (L : List (Nat × Nat)) (j : Int)
    (n : LcaEntry) : Option Nat :=
  let l := hBit n.A
  if l = j then some n.lcaId
  else
    match pyShl (pyNot 0) j with
    | none => none
    | some m =>
      let mask := pyNot m
      let k := msb (pyAnd n.A mask)
      match pyShl (pyNot 0) (k + 1) with
      | none => none
      | some m2 =>
        match pyShl 1 k with
        | none => none
        | some t =>
          let Iw := pyOr (pyAnd n.I m2) t
          match L.find? (fun kv => (kv.1 : Int) = Iw) with
          | none => none  -- KeyError
          | some kv =>
            match lcaFind es kv.2 with
            | none => none
            | some w =>
              match w.parent with
              | none => none  -- the root's parent is None
              | some p => some p

/-- `Tree.lca(x, y)`: the constant-time LCA query.  Returns the `lca_id` of
the answer node; `none` models a raised exception (in particular the
`ValueError` from `1 << msb(0)` when `x != y` but `I(x) == I(y)`). -/
def lca (es : List LcaEntry) (L : List (Nat × Nat)) (x y : LcaEntry) :
    Option Nat :=
  if x = y then some x.lcaId
  else
    let k := msb (pyXor x.I y.I)
    match pyShl (pyNot 0) (k + 1) with
    | none => none
    | some mask =>
      match pyShl 1 k with
      | none => none  -- ValueError: negative shift count when I(x) = I(y)
      | some t =>
        let b := pyOr (pyAnd x.I mask) t
        match pyShl (pyNot 0) (hBit b) with
        | none => none
        | some mask2 =>
          let j := hBit (pyAnd (pyAnd x.A y.A) mask2)
          match getXYbar es L j x with
          | none => none
          | some xbar =>
            match getXYbar es L j y with
            | none => none
            | some ybar =>
              if xbar < ybar then some xbar else some ybar

/-- Convenience wrapper: run `lca` on the nodes with the given `lca_id`s. -/
def lcaById (es : List LcaEntry) (L : List (Nat × Nat)) (i j : Nat) :
    Option Nat :=
  match lcaFind es i with
  | none => none
  | some x =>
    match lcaFind es j with
    | none => none
    | some y => lca es L x y

/-! ### Specification-side predicates -/

/-- A word is spelled by the tree rooted at `t`: it is a prefix of the
path-label of some node.  (Words are absolute, i.e. include the path from
the root to `t`.) -/
def SpelledIn (t : NodeT) (w : List GSym) : Prop :=
  ∃ u ∈ allNodes t, w <+: u.label

/-- Local well-formedness of a node: its span is valid, and each child is
strictly deeper, extends the node's path-label, and is keyed by the first
symbol of its edge label. -/
def localWF : NodeT → Prop
  | .leaf _ S s e => s ≤ e ∧ e ≤ S.length
  | .internal S s e _ ch =>
      s ≤ e ∧ e ≤ S.length ∧ (ch.map Prod.fst).Nodup ∧
      ∀ kc ∈ ch, (e - s) < kc.2.depth ∧
        kc.2.label.take (e - s) = (S.drop s).take (e - s) ∧
        kc.1 = symAt kc.2.seq (kc.2.start + (e - s))

/-- Well-formedness of a whole (sub)tree. -/
def WF (t : NodeT) : Prop := ∀ u ∈ allNodes t, localWF u

/-- The segment `S[a:b]` as a list. -/
def seg (S : List GSym) (a b : Nat) : List GSym := (S.drop a).take (b - a)

/-- Leaves of the tree spell complete suffixes: every leaf's path-label ends
in a terminator symbol.  This holds in every tree the naive builder
produces and is what makes a full match of a leaf label impossible for a
query that has its only terminator at the end. -/
def LeafTerm (t : NodeT) : Prop :=
  ∀ u ∈ allNodes t, u.isLeaf = true →
    ∃ i, u.label.getLast? = some (GSym.term i)

/-- The shape of every sequence `Tree.add` hands to a builder: user symbols
followed by the fresh terminator. -/
def SeqShape (S : List GSym) : Prop :=
  ∃ w tag, S = List.map GSym.sym w ++ [GSym.term tag]

/-- The root keeps its `Tree.__init__` shape (empty path-span, no suffix
link); only its children dict changes during building. -/
def RootShape (t : NodeT) : Prop :=
  ∃ ch, t = NodeT.internal [] 0 0 none ch

/-- Every proper subtree of the tree has at least one leaf (so
`get_positions` of any node reached by `find_path` is nonempty). -/
def ChildPos (t : NodeT) : Prop :=
  ∀ kc ∈ t.children, ∀ u ∈ allNodes kc.2, getPositions u ≠ []

/-- Every previously added sequence is terminated and its tag is older than
the next fresh tag. -/
def PastOf (past : List (List GSym)) (tag : Nat) : Prop :=
  ∀ T ∈ past, ∃ w τ, τ < tag ∧ T = List.map GSym.sym w ++ [GSym.term τ]

/-- Every node label of the tree is a prefix of a suffix of a previously
added (terminated) sequence. -/
def CoveredBy (t : NodeT) (past : List (List GSym)) : Prop :=
  ∀ u ∈ allNodes t, u.label = [] ∨ ∃ T ∈ past, ∃ j, u.label <+: T.drop j

/-- Mid-build label coverage: suffixes `S[j:]` of the current sequence have
been inserted for `j < start`. -/
def CoveredUpto (t : NodeT) (past : List (List GSym)) (S : List GSym)
    (start : Nat) : Prop :=
  ∀ u ∈ allNodes t, u.label = [] ∨
    (∃ T ∈ past, ∃ j, u.label <+: T.drop j) ∨
    ∃ j, j < start ∧ u.label <+: S.drop j

/-- Maximum of a list of naturals (`0` for the empty list). -/
def natListMax (l : List Nat) : Nat := l.foldr max 0

mutual

/-- The greatest string-depth among the internal nodes of the subtree whose
`C` value (number of distinct sequence ids at their leaves) is `k`; `0` if
there is none. -/
def bestDepth : NodeT → Nat → Nat
  | .leaf _ _ _ _, _ => 0
  | .internal S s e sl ch, k =>
      max (if computeCval (.internal S s e sl ch) = k then e - s else 0)
        (bestDepthList ch k)

/-- `bestDepth` over a children dict. -/
def bestDepthList : List (GSym × NodeT) → Nat → Nat
  | [], _ => 0
  | (_, c) :: rest, k => max (bestDepth c k) (bestDepthList rest k)

end

/-- A well-witnessed `V` entry for key `k`: a positive stored depth comes
from an internal node of `t` with `C = k` whose first stored position
yields exactly the stored id and path, and a stored path implies a
positive stored depth. -/
def EntryWit (t : NodeT) (k : Nat) (e : VEntry) : Prop :=
  (0 < e.1 → ∃ u ∈ allNodes t, u.isLeaf = false ∧ computeCval u = k ∧
    u.depth = e.1 ∧ ∃ ido pS ps pe, e.2.1 = some ido ∧
      e.2.2 = some (pS, ps, ps + e.1) ∧ (ido, pS, ps, pe) ∈ getPositions u) ∧
  (e.2.2 ≠ none → 0 < e.1)

/-! ## Theorems

### Generic lemmas about the children dict and traversals -/

theorem lookupChild_replace_self (ch : List (GSym × NodeT)) (k : GSym)
    (v : NodeT) : lookupChild (replaceChild ch k v) k = some v := by
  induction ch with
  | nil => simp [replaceChild, lookupChild]
  | cons kc rest ih =>
    by_cases hk : kc.1 = k
    · simp [replaceChild, hk, lookupChild]
    · simpa [replaceChild, hk, lookupChild] using ih

theorem lookupChild_replace_other (ch : List (GSym × NodeT)) (k k' : GSym)
    (v : NodeT) (hne : k' ≠ k) :
    lookupChild (replaceChild ch k v) k' = lookupChild ch k' := by
  induction ch with
  | nil =>
    simp only [replaceChild, lookupChild]
    exact if_neg (fun h => hne h.symm)
  | cons kc rest ih =>
    obtain ⟨k0, c0⟩ := kc
    by_cases hk : k0 = k
    · subst hk
      simp only [replaceChild, if_pos rfl, lookupChild]
      rw [if_neg (fun h => hne h.symm), if_neg (fun h => hne h.symm)]
    · simp only [replaceChild, if_neg hk, lookupChild]
      by_cases hk' : k0 = k'
      · rw [if_pos hk', if_pos hk']
      · rw [if_neg hk', if_neg hk', ih]

theorem mem_allNodes_self (v : NodeT) : v ∈ allNodes v := by
  cases v <;> simp [allNodes]

theorem allNodes_subset_of_mem {ch : List (GSym × NodeT)} {k : GSym}
    {c : NodeT} (hm : (k, c) ∈ ch) :
    ∀ u ∈ allNodes c, u ∈ allNodesList ch := by
  induction ch with
  | nil => cases hm
  | cons kc rest ih =>
    intro u hu
    rcases List.mem_cons.mp hm with h | h
    · cases h
      simp [allNodesList]
      exact Or.inl hu
    · obtain ⟨k', c'⟩ := kc
      simp [allNodesList]
      exact Or.inr (ih h u hu)

theorem mem_allNodesList_iff {ch : List (GSym × NodeT)} {u : NodeT} :
    u ∈ allNodesList ch ↔ ∃ kc ∈ ch, u ∈ allNodes kc.2 := by
  induction ch with
  | nil => simp [allNodesList]
  | cons kc rest ih =>
    obtain ⟨k, c⟩ := kc
    simp [allNodesList, ih]

theorem mem_allNodesList_replace {ch : List (GSym × NodeT)} {k : GSym}
    {v u : NodeT} (hu : u ∈ allNodesList (replaceChild ch k v)) :
    u ∈ allNodes v ∨ u ∈ allNodesList ch := by
  induction ch with
  | nil =>
    simp [replaceChild, allNodesList] at hu
    exact Or.inl hu
  | cons kc rest ih =>
    obtain ⟨k', c⟩ := kc
    by_cases hk : k' = k
    · simp only [replaceChild, if_pos hk, allNodesList] at hu
      rcases List.mem_append.mp hu with h | h
      · exact Or.inl h
      · exact Or.inr (by simp [allNodesList]; exact Or.inr h)
    · simp only [replaceChild, if_neg hk, allNodesList] at hu
      rcases List.mem_append.mp hu with h | h
      · exact Or.inr (by simp [allNodesList]; exact Or.inl h)
      · rcases ih h with h' | h'
        · exact Or.inl h'
        · exact Or.inr (by simp [allNodesList]; exact Or.inr h')

theorem mem_allNodesList_replace_of_mem {ch : List (GSym × NodeT)} {k : GSym}
    {c v u : NodeT} (hlk : lookupChild ch k = some c)
    (hsub : ∀ x ∈ allNodes c, x ∈ allNodes v)
    (hu : u ∈ allNodesList ch) :
    u ∈ allNodesList (replaceChild ch k v) := by
  induction ch with
  | nil => cases hu
  | cons kc rest ih =>
    obtain ⟨k', c'⟩ := kc
    simp only [lookupChild] at hlk
    by_cases hk : k' = k
    · rw [if_pos hk] at hlk
      injection hlk with hlk
      subst hlk
      simp only [replaceChild, if_pos hk, allNodesList] at *
      rcases List.mem_append.mp hu with h | h
      · exact List.mem_append.mpr (Or.inl (hsub u h))
      · exact List.mem_append.mpr (Or.inr h)
    · rw [if_neg hk] at hlk
      simp only [replaceChild, if_neg hk, allNodesList] at *
      rcases List.mem_append.mp hu with h | h
      · exact List.mem_append.mpr (Or.inl h)
      · exact List.mem_append.mpr (Or.inr (ih hlk h))

theorem lookupChild_mem_allNodesList {ch : List (GSym × NodeT)} {k : GSym}
    {c : NodeT} (hlk : lookupChild ch k = some c) :
    c ∈ allNodesList ch := by
  obtain ⟨k', hk'⟩ := lookupChild_mem hlk
  exact allNodes_subset_of_mem hk' c (mem_allNodes_self c)

/-! ### `nlz` bounds (needed for the shift count in `compute_A`) -/

theorem nlzStep_bounds {p : Int × Int} (h1 : p.1 ≤ 32) (h2 : 0 ≤ p.2)
    (s : Nat) : (nlzStep p s).1 ≤ 32 ∧ 0 ≤ (nlzStep p s).2 := by
  obtain ⟨n, x⟩ := p
  simp only at h1 h2
  have hf : (0 : Int) ≤ Int.fdiv x (Int.ofNat (2 ^ s)) :=
    Int.fdiv_nonneg h2 (Int.ofNat_nonneg _)
  unfold nlzStep pyShr
  dsimp only
  split
  · exact ⟨by omega, hf⟩
  · exact ⟨h1, h2⟩

theorem nlz_le_32 (x : Int) (hx : 0 ≤ x) : nlz x ≤ 32 := by
  unfold nlz
  have step : ∀ (p : Int × Int) (s : Nat), p.1 ≤ 32 → 0 ≤ p.2 →
      (nlzStep p s).1 ≤ 32 ∧ 0 ≤ (nlzStep p s).2 :=
    fun p s h1 h2 => nlzStep_bounds h1 h2 s
  simp only [List.foldl]
  have h0 : (32 : Int) ≤ 32 ∧ (0 : Int) ≤ x := ⟨le_refl _, hx⟩
  have h1 := step (32, x) 16 h0.1 h0.2
  have h2 := step _ 8 h1.1 h1.2
  have h3 := step _ 4 h2.1 h2.2
  have h4 := step _ 2 h3.1 h3.2
  have h5 := step _ 1 h4.1 h4.2
  omega

theorem hBit_int_nonneg (n : Nat) : 0 ≤ hBit (n : Int) := by
  match n with
  | 0 => decide
  | n + 1 =>
    unfold hBit
    have harg : pyAnd (pyNot ((n + 1 : Nat) : Int)) (((n + 1 : Nat) : Int) - 1) =
        Int.ofNat (natBitwise (fun a b => a && !b) n (n + 1)) := by
      have h1 : pyNot ((n + 1 : Nat) : Int) = Int.negSucc (n + 1) := by
        unfold pyNot
        rw [Int.negSucc_eq]
        omega
      have h2 : (((n + 1 : Nat) : Int) - 1) = (n : Int) := by omega
      rw [h1, h2]
      rfl
    rw [harg]
    have := nlz_le_32 (Int.ofNat (natBitwise (fun a b => a && !b) n (n + 1)))
      (Int.ofNat_nonneg _)
    omega

/-! ### Claim C8: the bit-helper values -/

/-- Claim C8, counterexample: `h(0)` evaluates to `30`, not `32`.  In Python
`~0 & (0 - 1) = -1`, and the arithmetic shifts in `nlz` keep `-1` nonzero at
every step, so `nlz(-1) = 1 - (-1) = 2` and `h(0) = 32 - 2 = 30`. -/
theorem C8_h_zero_counterexample : hBit 0 = 30 ∧ (30 : Int) ≠ 32 := by decide

/-- Claim C8 (amended): the bit helpers satisfy
`nlz(0) = 32`, `nlz(1) = 31`, `nlz(0xFF) = 24`, `nlz(0xFFFFFFFF) = 0`,
`msb(0) = -1`, `h(5) = 0`, `h(8) = 3` — and `h(0) = 30` (not 32 as the
specification claims). -/
theorem C8_bit_helpers :
    nlz 0 = 32 ∧ nlz 1 = 31 ∧ nlz 255 = 24 ∧ nlz 4294967295 = 0 ∧
    msb 0 = -1 ∧ hBit 5 = 0 ∧ hBit 8 = 3 ∧ hBit 0 = 30 := by decide

/-! ### Claim C10: the `Path` constructor precondition -/

/-- Claim C10: constructing a `Path` with `end < start`, `start < 0` or
`end > len(S)` raises an `AssertionError` and never yields a `Path` object;
every successfully constructed `Path` satisfies
`0 ≤ start ≤ end ≤ len(S)`. -/
theorem C10_path_constructor (S : List GSym) (start stop : Int) :
    ((stop < start ∨ start < 0 ∨ (S.length : Int) < stop) →
      mkPath S start stop = none) ∧
    (∀ p, mkPath S start stop = some p →
      0 ≤ p.start ∧ p.start ≤ p.stop ∧ p.stop ≤ (p.S.length : Int)) := by
  constructor
  · intro hbad
    unfold mkPath
    rw [if_neg]
    intro ⟨h1, h2, h3⟩
    omega
  · intro p hp
    unfold mkPath at hp
    split at hp
    · cases hp
      next h => exact h
    · cases hp

/-- Claim C10, witness: `Path(S, 1, 0)` (with `end < start`) raises, and
`Path([a], 0, 1)` yields a span satisfying the invariant. -/
theorem C10_path_constructor_witness :
    mkPath [] 1 0 = none ∧
    (0 ≤ (1 : Int) ∧ (1 : Int) ≤ 1 ∧ (1 : Int) ≤ (([GSym.sym 3] : List GSym).length : Int)) := by
  constructor
  · exact (C10_path_constructor [] 1 0).1 (Or.inl (by decide))
  · have h := (C10_path_constructor [GSym.sym 3] 1 1).2 ⟨[GSym.sym 3], 1, 1⟩ (by decide)
    exact h

/-! ### Claim C2: the LCA query -/

/-- Claim C2: on the tree for `{A: "a"}` (any builder yields this tree: a
root with two leaf children, DFS ids 1, 2, 3), the nodes 1 (root) and 2
(leaf of suffix `a$`) lie in the same run — both have `I = 2` — so
`lca(root, leaf)` evaluates `1 << msb(0) = 1 << -1` and raises
`ValueError: negative shift count` (modelled by `none`) instead of returning
the root.  The `x == y` short-circuit works (`lca(x, x) = x`), and pairs
with distinct `I` values are answered correctly. -/
theorem C2_lca_code_bug :
    ((buildTree [(0, [5])]).map fun t =>
      lcaById (lcaPrep t).1 (lcaPrep t).2 1 2) = some none ∧
    ((buildTree [(0, [5])]).map fun t =>
      (lcaPrep t).1.map (fun e => (e.lcaId, e.I))) = some [(1, 2), (2, 2), (3, 3)] ∧
    ((buildTree [(0, [5])]).map fun t =>
      lcaById (lcaPrep t).1 (lcaPrep t).2 1 1) = some (some 1) ∧
    ((buildTree [(0, [5])]).map fun t =>
      lcaById (lcaPrep t).1 (lcaPrep t).2 2 3) = some (some 1) := by
  refine ⟨by decide, by decide, by decide, by decide⟩

/-! ### Claim C6: `compute_C` -/

mutual

theorem computeCset_eq : (v : NodeT) →
    computeCset v = ((getPositions v).map Prod.fst).toFinset
  | .leaf id S s e => by simp [computeCset, getPositions]
  | .internal S s e sl ch => by
      simp only [computeCset, getPositions]
      exact computeCsetList_eq ch

theorem computeCsetList_eq : (ch : List (GSym × NodeT)) →
    computeCsetList ch = ((getPositionsList ch).map Prod.fst).toFinset
  | [] => by simp [computeCsetList, getPositionsList]
  | (k, c) :: rest => by
      simp only [computeCsetList, getPositionsList, List.map_append,
        List.toFinset_append]
      rw [computeCset_eq c, computeCsetList_eq rest]

end

/-- Claim C6: after `compute_C` has run, every node `v` has `C(v)` equal to
the number of distinct sequence ids occurring at the leaves of the subtree
rooted at `v` (`get_positions` lists exactly the leaves); a leaf contributes
exactly the singleton of its own `str_id`. -/
theorem C6_compute_C :
    (∀ v : NodeT,
      computeCval v = (((getPositions v).map Prod.fst).toFinset).card) ∧
    (∀ id S s e, computeCset (NodeT.leaf id S s e) = {id}) := by
  constructor
  · intro v
    unfold computeCval
    rw [computeCset_eq]
  · intro id S s e
    rfl

/-! ### Claim C7: `split_edge` -/

theorem allNodes_single_child (S : List GSym) (s e : Nat)
    (sl : Option (List GSym × Nat × Nat)) (k : GSym) (c : NodeT) :
    allNodes (.internal S s e sl [(k, c)]) =
      NodeT.internal S s e sl [(k, c)] :: (allNodes c ++ []) := by
  simp [allNodes, allNodesList]

theorem label_internal (S : List GSym) (s e : Nat)
    (sl : Option (List GSym × Nat × Nat)) (ch : List (GSym × NodeT)) :
    (NodeT.internal S s e sl ch).label = (S.drop s).take (e - s) := rfl

/-- Claim C7: for a parent `p`, a child `c` of `p` stored under its
edge-first symbol `k`, and a depth `d` with `depth(p) < d < depth(c)`,
`split_edge(d, c)` creates a new internal node `n` with path-span
`(c.S, c.start, c.start + d)` and unset suffix link, replaces `p`'s entry
for `k` by `n`, stores `c` below `n` under key `c.S[c.start + d]`
(making `n` the parent of `c`), leaves all other entries and `c` itself
unchanged, and preserves the set of words spelled by the tree. -/
theorem C7_split_edge (pS : List GSym) (ps pe : Nat)
    (sl : Option (List GSym × Nat × Nat)) (ch : List (GSym × NodeT))
    (c : NodeT) (k : GSym) (d : Nat)
    (hlk : lookupChild ch k = some c)
    (hkey : k = symAt c.seq (c.start + (pe - ps)))
    (hd1 : pe - ps < d) (hd2 : d < c.depth) :
    ∃ p' n, splitEdge (.internal pS ps pe sl ch) d c = some (p', n) ∧
      n.seq = c.seq ∧ n.start = c.start ∧ n.stop = c.start + d ∧
      n.slink = none ∧
      lookupChild p'.children k = some n ∧
      lookupChild n.children (symAt c.seq (c.start + d)) = some c ∧
      (∀ k', k' ≠ k → lookupChild p'.children k' = lookupChild ch k') ∧
      p'.seq = pS ∧ p'.start = ps ∧ p'.stop = pe ∧ p'.slink = sl ∧
      (∀ w, SpelledIn p' w ↔ SpelledIn (.internal pS ps pe sl ch) w) := by
  set n : NodeT := .internal c.seq c.start (c.start + d) none
    [(symAt c.seq (c.start + d), c)] with hn
  set p' : NodeT := .internal pS ps pe sl (replaceChild ch k n) with hp'
  have hsplit : splitEdge (.internal pS ps pe sl ch) d c = some (p', n) := by
    unfold splitEdge
    dsimp only
    rw [if_pos ⟨hd1, hd2⟩, ← hkey]
  have hd2' : d ≤ c.stop - c.start := le_of_lt hd2
  have hnlab : n.label = c.label.take d := by
    rw [hn, label_internal]
    have hstep : c.start + d - c.start = d := by omega
    rw [hstep]
    unfold NodeT.label
    rw [List.take_take]
    have hmin : min d (c.stop - c.start) = d := by omega
    rw [hmin]
  have hnlab_pre : n.label <+: c.label := by
    rw [hnlab]
    exact List.take_prefix _ _
  have hcmem : c ∈ allNodesList ch := lookupChild_mem_allNodesList hlk
  have hsub : ∀ x ∈ allNodes c, x ∈ allNodes n := by
    intro x hx
    rw [hn, allNodes_single_child]
    exact List.mem_cons_of_mem _ (List.mem_append.mpr (Or.inl hx))
  refine ⟨p', n, hsplit, rfl, rfl, rfl, rfl, ?_, ?_, ?_, rfl, rfl, rfl, rfl, ?_⟩
  · rw [hp']
    show lookupChild (replaceChild ch k n) k = some n
    exact lookupChild_replace_self ch k n
  · rw [hn]
    show lookupChild [(symAt c.seq (c.start + d), c)] (symAt c.seq (c.start + d)) = some c
    simp [lookupChild]
  · intro k' hk'
    rw [hp']
    show lookupChild (replaceChild ch k n) k' = lookupChild ch k'
    exact lookupChild_replace_other ch k k' n hk'
  · intro w
    constructor
    · rintro ⟨u, hu, hpre⟩
      rw [hp'] at hu
      simp only [allNodes] at hu
      rcases List.mem_cons.mp hu with h | h
      · subst h
        exact ⟨.internal pS ps pe sl ch, mem_allNodes_self _, hpre⟩
      · rcases mem_allNodesList_replace h with h' | h'
        · rw [hn, allNodes_single_child] at h'
          rcases List.mem_cons.mp h' with h'' | h''
          · subst h''
            refine ⟨c, ?_, hpre.trans hnlab_pre⟩
            exact List.mem_cons_of_mem _ hcmem
          · rcases List.mem_append.mp h'' with h3 | h3
            · obtain ⟨k0, hk0⟩ := lookupChild_mem hlk
              exact ⟨u, List.mem_cons_of_mem _
                (allNodes_subset_of_mem hk0 u h3), hpre⟩
            · cases h3
        · exact ⟨u, List.mem_cons_of_mem _ h', hpre⟩
    · rintro ⟨u, hu, hpre⟩
      simp only [allNodes] at hu
      rcases List.mem_cons.mp hu with h | h
      · subst h
        refine ⟨p', mem_allNodes_self _, ?_⟩
        rw [hp']
        exact hpre
      · refine ⟨u, ?_, hpre⟩
        rw [hp']
        simp only [allNodes]
        exact List.mem_cons_of_mem _
          (mem_allNodesList_replace_of_mem hlk hsub h)

/-- Claim C7, witness: splitting the root's edge into the leaf of `a b $`
at depth 1. -/
theorem C7_split_edge_witness :
    ∃ p' n,
      splitEdge (.internal [] 0 0 none
          [(GSym.sym 1, .leaf 0 [GSym.sym 1, GSym.sym 2, GSym.term 0] 0 3)]) 1
        (.leaf 0 [GSym.sym 1, GSym.sym 2, GSym.term 0] 0 3) = some (p', n) ∧
      n.seq = [GSym.sym 1, GSym.sym 2, GSym.term 0] ∧ n.start = 0 ∧
      n.stop = 1 ∧ n.slink = none ∧
      lookupChild p'.children (GSym.sym 1) = some n ∧
      lookupChild n.children
        (symAt [GSym.sym 1, GSym.sym 2, GSym.term 0] 1) =
        some (.leaf 0 [GSym.sym 1, GSym.sym 2, GSym.term 0] 0 3) ∧
      (∀ k', k' ≠ GSym.sym 1 →
        lookupChild p'.children k' =
          lookupChild [(GSym.sym 1,
            NodeT.leaf 0 [GSym.sym 1, GSym.sym 2, GSym.term 0] 0 3)] k') ∧
      p'.seq = [] ∧ p'.start = 0 ∧ p'.stop = 0 ∧ p'.slink = none ∧
      (∀ w, SpelledIn p' w ↔ SpelledIn (.internal [] 0 0 none
        [(GSym.sym 1, .leaf 0 [GSym.sym 1, GSym.sym 2, GSym.term 0] 0 3)]) w) := by
  have h := C7_split_edge [] 0 0 none
    [(GSym.sym 1, .leaf 0 [GSym.sym 1, GSym.sym 2, GSym.term 0] 0 3)]
    (.leaf 0 [GSym.sym 1, GSym.sym 2, GSym.term 0] 0 3) (GSym.sym 1) 1
    (by rfl) (by rfl) (by decide) (by decide)
  exact h

/-! ### The edge-comparison loop -/

theorem matchEdgeGo_ge (cS : List GSym) (cstart : Nat) (S : List GSym)
    (start : Nat) : ∀ (fuel matched : Nat),
    matched ≤ matchEdgeGo cS cstart S start matched fuel := by
  intro fuel
  induction fuel with
  | zero => intro matched; simp [matchEdgeGo]
  | succ n ih =>
    intro matched
    unfold matchEdgeGo
    split
    · exact le_trans (Nat.le_succ matched) (ih (matched + 1))
    · exact le_refl _

theorem matchEdgeGo_le (cS : List GSym) (cstart : Nat) (S : List GSym)
    (start : Nat) : ∀ (fuel matched : Nat),
    matchEdgeGo cS cstart S start matched fuel ≤ matched + fuel := by
  intro fuel
  induction fuel with
  | zero => intro matched; simp [matchEdgeGo]
  | succ n ih =>
    intro matched
    unfold matchEdgeGo
    split
    · exact le_trans (ih (matched + 1)) (by omega)
    · omega

theorem matchEdgeGo_agree (cS : List GSym) (cstart : Nat) (S : List GSym)
    (start : Nat) : ∀ (fuel matched i : Nat), matched ≤ i →
    i < matchEdgeGo cS cstart S start matched fuel →
    symAt cS (cstart + i) = symAt S (start + i) := by
  intro fuel
  induction fuel with
  | zero =>
    intro matched i hle hlt
    simp [matchEdgeGo] at hlt
    omega
  | succ n ih =>
    intro matched i hle hlt
    unfold matchEdgeGo at hlt
    split at hlt
    · rcases Nat.eq_or_lt_of_le hle with heq | hlt'
      · subst heq
        assumption
      · exact ih (matched + 1) i hlt' hlt
    · omega

theorem matchEdgeGo_mismatch (cS : List GSym) (cstart : Nat) (S : List GSym)
    (start : Nat) : ∀ (fuel matched : Nat),
    matchEdgeGo cS cstart S start matched fuel < matched + fuel →
    symAt cS (cstart + matchEdgeGo cS cstart S start matched fuel) ≠
      symAt S (start + matchEdgeGo cS cstart S start matched fuel) := by
  intro fuel
  induction fuel with
  | zero =>
    intro matched h
    simp [matchEdgeGo] at h
  | succ n ih =>
    intro matched h
    unfold matchEdgeGo at h ⊢
    by_cases heq : symAt cS (cstart + matched) = symAt S (start + matched)
    · rw [if_pos heq] at h ⊢
      exact ih (matched + 1) (by omega)
    · rw [if_neg heq] at h ⊢
      exact heq

theorem matchEdge_ge (cS : List GSym) (cstart : Nat) (S : List GSym)
    (start matched stop : Nat) :
    matched ≤ matchEdge cS cstart S start matched stop :=
  matchEdgeGo_ge cS cstart S start (stop - matched) matched

theorem matchEdge_le (cS : List GSym) (cstart : Nat) (S : List GSym)
    (start matched stop : Nat) (h : matched ≤ stop) :
    matchEdge cS cstart S start matched stop ≤ stop := by
  have := matchEdgeGo_le cS cstart S start (stop - matched) matched
  unfold matchEdge
  omega

theorem matchEdge_agree (cS : List GSym) (cstart : Nat) (S : List GSym)
    (start matched stop i : Nat) (h1 : matched ≤ i)
    (h2 : i < matchEdge cS cstart S start matched stop) :
    symAt cS (cstart + i) = symAt S (start + i) :=
  matchEdgeGo_agree cS cstart S start (stop - matched) matched i h1 h2

theorem matchEdge_mismatch (cS : List GSym) (cstart : Nat) (S : List GSym)
    (start matched stop : Nat) (h0 : matched ≤ stop)
    (h : matchEdge cS cstart S start matched stop < stop) :
    symAt cS (cstart + matchEdge cS cstart S start matched stop) ≠
      symAt S (start + matchEdge cS cstart S start matched stop) := by
  apply matchEdgeGo_mismatch
  unfold matchEdge at h
  omega

theorem matchEdge_advance (cS : List GSym) (cstart : Nat) (S : List GSym)
    (start matched stop : Nat) (h1 : matched < stop)
    (h2 : symAt cS (cstart + matched) = symAt S (start + matched)) :
    matched + 1 ≤ matchEdge cS cstart S start matched stop := by
  unfold matchEdge
  obtain ⟨f, hf⟩ : ∃ f, stop - matched = f + 1 := ⟨stop - matched - 1, by omega⟩
  rw [hf]
  unfold matchEdgeGo
  rw [if_pos h2]
  exact matchEdgeGo_ge cS cstart S start f (matched + 1)

/-! ### Segments, indexing and labels -/

theorem symAt_eq_getElem (S : List GSym) (i : Nat) (h : i < S.length) :
    symAt S i = S[i] := List.getD_eq_getElem S (GSym.sym 0) h

theorem seg_length (S : List GSym) (a b : Nat) (hb : b ≤ S.length) :
    (seg S a b).length = b - a := by
  simp [seg]
  omega

theorem symAt_seg (S : List GSym) (a b i : Nat) (hi : i < b - a)
    (hb : b ≤ S.length) : symAt (seg S a b) i = symAt S (a + i) := by
  have h1 : i < (seg S a b).length := by rw [seg_length S a b hb]; omega
  have h2 : a + i < S.length := by omega
  rw [symAt_eq_getElem _ _ h1, symAt_eq_getElem _ _ h2]
  unfold seg
  rw [List.getElem_take, List.getElem_drop]

theorem seg_eq_of_agree (A B : List GSym) (a b n : Nat)
    (hA : a + n ≤ A.length) (hB : b + n ≤ B.length)
    (hag : ∀ i < n, symAt A (a + i) = symAt B (b + i)) :
    (A.drop a).take n = (B.drop b).take n := by
  apply List.ext_getElem
  · simp
    omega
  · intro i h1 h2
    have hi : i < n := by simp at h1; omega
    rw [List.getElem_take, List.getElem_drop, List.getElem_take,
      List.getElem_drop]
    have ha' : a + i < A.length := by omega
    have hb' : b + i < B.length := by omega
    rw [← symAt_eq_getElem _ _ ha', ← symAt_eq_getElem _ _ hb']
    exact hag i hi

theorem label_length (c : NodeT) (h1 : c.stop ≤ c.seq.length) :
    c.label.length = c.depth := by
  unfold NodeT.label NodeT.depth
  simp
  omega

theorem take_eq_of_prefix_parts {l : List GSym} {w : List GSym} {d : Nat}
    (h : l.take d = w.take d) (hd : d ≤ w.length) :
    ∀ i < d, symAt l i = symAt w i := by
  intro i hi
  have h1 : i < (w.take d).length := by simp; omega
  have h2 : i < (l.take d).length := by rw [h]; exact h1
  have hl : i < l.length := by
    have := h2
    simp at this
    omega
  have hw : i < w.length := by omega
  rw [symAt_eq_getElem _ _ hl, symAt_eq_getElem _ _ hw]
  calc l[i] = (l.take d)[i] := by rw [List.getElem_take]
    _ = (w.take d)[i] := by simp [h]
    _ = w[i] := by rw [List.getElem_take]

/-! ### The naive insertion: positions, leaf counts, shape -/

theorem insertSuffix_shape {nS : List GSym} {ns ne : Nat}
    {sl : Option (List GSym × Nat × Nat)} {ch : List (GSym × NodeT)}
    {id : Nat} {S : List GSym} {start stop : Nat} {t' : NodeT}
    (h : insertSuffix (.internal nS ns ne sl ch) id S start stop = some t') :
    ne - ns < stop - start ∧
    ∃ ch', t' = .internal nS ns ne sl ch' ∧
      insertScan ch (symAt S (start + (ne - ns))) (ne - ns) id S start stop =
        some ch' := by
  unfold insertSuffix at h
  by_cases hd : ne - ns < stop - start
  · rw [if_pos hd] at h
    refine ⟨hd, ?_⟩
    cases hsc : insertScan ch (symAt S (start + (ne - ns))) (ne - ns) id S start stop with
    | none => rw [hsc] at h; cases h
    | some ch' =>
      rw [hsc] at h
      cases h
      exact ⟨ch', rfl, rfl⟩
  · rw [if_neg hd] at h
    cases h

mutual

theorem insertSuffix_positions : (v : NodeT) → {id : Nat} → {S : List GSym} →
    {start stop : Nat} → {t' : NodeT} →
    insertSuffix v id S start stop = some t' →
    List.Perm (getPositions t') ((id, S, start, stop) :: getPositions v)
  | .leaf _ _ _ _, _, _, _, _, _, h => by cases h
  | .internal nS ns ne sl ch, id, S, start, stop, t', h => by
      obtain ⟨hd, ch', rfl, hsc⟩ := insertSuffix_shape h
      simpa [getPositions] using insertScan_positions ch hsc

theorem insertScan_positions : (ch : List (GSym × NodeT)) → {key : GSym} →
    {d id : Nat} → {S : List GSym} → {start stop : Nat} →
    {ch' : List (GSym × NodeT)} →
    insertScan ch key d id S start stop = some ch' →
    List.Perm (getPositionsList ch')
      ((id, S, start, stop) :: getPositionsList ch)
  | [], key, d, id, S, start, stop, ch', h => by
      unfold insertScan at h
      cases h
      simp [getPositionsList, getPositions]
  | (k, c) :: rest, key, d, id, S, start, stop, ch', h => by
      unfold insertScan at h
      by_cases hk : k = key
      · rw [if_pos hk] at h
        dsimp only at h
        by_cases hm : matchEdge c.seq c.start S start d (min c.depth (stop - start)) < c.depth
        · rw [if_pos hm] at h
          by_cases hdm : d < matchEdge c.seq c.start S start d (min c.depth (stop - start))
          · rw [if_pos hdm] at h
            by_cases hms : matchEdge c.seq c.start S start d (min c.depth (stop - start)) < stop - start
            · rw [if_pos hms] at h
              cases h
              simp only [getPositionsList, getPositions, List.append_nil]
              exact (List.perm_append_singleton _ _).append_right _
            · rw [if_neg hms] at h; cases h
          · rw [if_neg hdm] at h; cases h
        · rw [if_neg hm] at h
          cases hrec : insertSuffix c id S start stop with
          | none => rw [hrec] at h; cases h
          | some c' =>
            rw [hrec] at h
            cases h
            simp only [getPositionsList]
            exact (insertSuffix_positions c hrec).append_right _
      · rw [if_neg hk] at h
        cases hrec : insertScan rest key d id S start stop with
        | none => rw [hrec] at h; cases h
        | some rest' =>
          rw [hrec] at h
          cases h
          simp only [getPositionsList]
          exact ((insertScan_positions rest hrec).append_left
            (getPositions c)).trans List.perm_middle

end

mutual

theorem leafCount_eq_positions : (v : NodeT) →
    leafCount v = (getPositions v).length
  | .leaf _ _ _ _ => by simp [leafCount, getPositions]
  | .internal _ _ _ _ ch => by
      simp only [leafCount, getPositions]
      exact leafCountList_eq_positions ch

theorem leafCountList_eq_positions : (ch : List (GSym × NodeT)) →
    leafCountList ch = (getPositionsList ch).length
  | [] => by simp [leafCountList, getPositionsList]
  | (k, c) :: rest => by
      simp only [leafCountList, getPositionsList, List.length_append]
      rw [leafCount_eq_positions c, leafCountList_eq_positions rest]

end

/-! ### Restriction of invariants to children -/

theorem WF_of_child {nS : List GSym} {ns ne : Nat}
    {sl : Option (List GSym × Nat × Nat)} {ch : List (GSym × NodeT)}
    {k : GSym} {c : NodeT}
    (hwf : WF (.internal nS ns ne sl ch)) (hm : (k, c) ∈ ch) : WF c :=
  fun u hu => hwf u (List.mem_cons_of_mem _ (allNodes_subset_of_mem hm u hu))

theorem LeafTerm_of_child {nS : List GSym} {ns ne : Nat}
    {sl : Option (List GSym × Nat × Nat)} {ch : List (GSym × NodeT)}
    {k : GSym} {c : NodeT}
    (hlt : LeafTerm (.internal nS ns ne sl ch)) (hm : (k, c) ∈ ch) :
    LeafTerm c :=
  fun u hu => hlt u (List.mem_cons_of_mem _ (allNodes_subset_of_mem hm u hu))

theorem SpelledIn_of_child {nS : List GSym} {ns ne : Nat}
    {sl : Option (List GSym × Nat × Nat)} {ch : List (GSym × NodeT)}
    {k : GSym} {c : NodeT} {w : List GSym}
    (hm : (k, c) ∈ ch) (hs : SpelledIn c w) :
    SpelledIn (.internal nS ns ne sl ch) w := by
  obtain ⟨u, hu, hpre⟩ := hs
  exact ⟨u, List.mem_cons_of_mem _ (allNodes_subset_of_mem hm u hu), hpre⟩

theorem localWF_of_WF {v : NodeT} (hwf : WF v) : localWF v :=
  hwf v (mem_allNodes_self v)

/-! ### Sequence shape and terminator positions -/

theorem symAt_drop (S : List GSym) (a i : Nat) (h : a + i < S.length) :
    symAt (S.drop a) i = symAt S (a + i) := by
  have h1 : i < (S.drop a).length := by simp; omega
  rw [symAt_eq_getElem _ _ h1, symAt_eq_getElem _ _ h]
  rw [List.getElem_drop]

theorem seqShape_sym {S : List GSym} {w : List Nat} {tag : Nat}
    (hS : S = List.map GSym.sym w ++ [GSym.term tag]) {j : Nat}
    (hj : j < w.length) : ∃ a, symAt S j = GSym.sym a := by
  subst hS
  have hlen : j < (List.map GSym.sym w ++ [GSym.term tag]).length := by
    simp
    omega
  rw [symAt_eq_getElem _ _ hlen]
  have hj' : j < (List.map GSym.sym w).length := by simp [hj]
  rw [List.getElem_append_left hj']
  rw [List.getElem_map]
  exact ⟨_, rfl⟩

theorem seqShape_length {S : List GSym} {w : List Nat} {tag : Nat}
    (hS : S = List.map GSym.sym w ++ [GSym.term tag]) :
    S.length = w.length + 1 := by
  subst hS
  simp

theorem getLast?_eq_symAt {l : List GSym} (hne : l ≠ []) :
    l.getLast? = some (symAt l (l.length - 1)) := by
  have h : l.length - 1 < l.length := by
    cases l with
    | nil => cases (hne rfl)
    | cons a t => simp
  rw [symAt_eq_getElem _ _ h]
  rw [List.getLast?_eq_getElem?]
  rw [List.getElem?_eq_getElem h]

theorem symAt_take (l : List GSym) (n i : Nat) (hi : i < n)
    (hl : i < l.length) : symAt (l.take n) i = symAt l i := by
  have h1 : i < (l.take n).length := by simp; omega
  rw [symAt_eq_getElem _ _ h1, symAt_eq_getElem _ _ hl, List.getElem_take]

/-- On a hit child whose edge has been compared up to `m`, the query segment
and the child's path-label agree up to `m`. -/
theorem hit_child_segment (S : List GSym) (start stop d m : Nat) (c : NodeT)
    (hq : stop ≤ S.length)
    (hspan1 : c.start ≤ c.stop) (hspan2 : c.stop ≤ c.seq.length)
    (hds : d < stop - start)
    (hagd : c.label.take d = (S.drop start).take d)
    (hm_ge : d ≤ m) (hm_le1 : m ≤ c.depth) (hm_le2 : m ≤ stop - start)
    (hmatch : ∀ i, d ≤ i → i < m →
      symAt c.seq (c.start + i) = symAt S (start + i)) :
    (S.drop start).take m = c.label.take m := by
  have hdepth : c.depth = c.stop - c.start := rfl
  have hlab : c.label = (c.seq.drop c.start).take (c.stop - c.start) := rfl
  have hstart : start < stop := by omega
  have hcstart : c.start + m ≤ c.seq.length := by
    unfold NodeT.depth at hm_le1
    omega
  have htake : c.label.take m = (c.seq.drop c.start).take m := by
    rw [hlab, List.take_take]
    congr 1
    unfold NodeT.depth at hm_le1
    omega
  rw [htake]
  apply seg_eq_of_agree S c.seq start c.start m (by omega) hcstart
  intro i hi
  by_cases hid : i < d
  · have helem := take_eq_of_prefix_parts hagd
      (by simp; omega : d ≤ (S.drop start).length) i hid
    have h1 : symAt S (start + i) = symAt (S.drop start) i :=
      (symAt_drop S start i (by omega)).symm
    have h2 : symAt c.label i = symAt (c.seq.drop c.start) i := by
      rw [hlab]
      apply symAt_take
      · unfold NodeT.depth at hm_le1
        omega
      · simp
        unfold NodeT.depth at hm_le1
        omega
    have h3 : symAt (c.seq.drop c.start) i = symAt c.seq (c.start + i) := by
      apply symAt_drop
      unfold NodeT.depth at hm_le1
      omega
    rw [h1, ← helem, h2, h3]
  · exact (hmatch i (by omega) hi).symm

mutual

theorem insertSuffix_success : (v : NodeT) → (id : Nat) → (S : List GSym) →
    (start stop : Nat) → v.isLeaf = false → WF v → LeafTerm v →
    SeqShape S → stop ≤ S.length → v.depth < stop - start →
    (S.drop start).take v.depth = v.label →
    ¬ SpelledIn v (seg S start stop) →
    (insertSuffix v id S start stop).isSome = true
  | .leaf _ _ _ _, _, _, _, _, hleaf, _, _, _, _, _, _, _ => by cases hleaf
  | .internal nS ns ne sl ch, id, S, start, stop, _, hwf, hlt, hshape, hq,
      hd, hagree, hnosp => by
      have hd' : ne - ns < stop - start := hd
      unfold insertSuffix
      rw [if_pos hd']
      have hscan := insertScan_success ch (symAt S (start + (ne - ns)))
        (ne - ns) id S start stop rfl hshape hq hd' ?_
      · cases hs : insertScan ch (symAt S (start + (ne - ns))) (ne - ns) id S
          start stop with
        | none => rw [hs] at hscan; cases hscan
        | some ch' => rfl
      · intro kc hkc
        have hloc := localWF_of_WF hwf
        unfold localWF at hloc
        obtain ⟨hs1, hs2, hnd, hs3⟩ := hloc
        obtain ⟨hc1, hc2, hc3⟩ := hs3 kc hkc
        obtain ⟨k0, c0⟩ := kc
        refine ⟨hc1, ?_, hc3, WF_of_child hwf hkc, LeafTerm_of_child hlt hkc, ?_⟩
        · rw [hc2]
          exact hagree.symm
        · intro hsp
          exact hnosp (SpelledIn_of_child hkc hsp)

theorem insertScan_success : (ch : List (GSym × NodeT)) → (key : GSym) →
    (d : Nat) → (id : Nat) → (S : List GSym) → (start stop : Nat) →
    key = symAt S (start + d) → SeqShape S → stop ≤ S.length →
    d < stop - start →
    (∀ kc ∈ ch, d < kc.2.depth ∧
      kc.2.label.take d = (S.drop start).take d ∧
      kc.1 = symAt kc.2.seq (kc.2.start + d) ∧ WF kc.2 ∧ LeafTerm kc.2 ∧
      ¬ SpelledIn kc.2 (seg S start stop)) →
    (insertScan ch key d id S start stop).isSome = true
  | [], key, d, id, S, start, stop, hkey, hshape, hq, hd, hch => by
      unfold insertScan
      rfl
  | (k, c) :: rest, key, d, id, S, start, stop, hkey, hshape, hq, hd, hch => by
      unfold insertScan
      by_cases hk : k = key
      · rw [if_pos hk]
        dsimp only
        obtain ⟨hc1, hc2, hc3, hcwf, hclt, hcns⟩ := hch (k, c) (List.mem_cons_self _ _)
        have hc1' : d < c.depth := hc1
        have hc2' : c.label.take d = (S.drop start).take d := hc2
        have hc3' : k = symAt c.seq (c.start + d) := hc3
        have hcloc := localWF_of_WF hcwf
        have hcspan : c.start ≤ c.stop ∧ c.stop ≤ c.seq.length := by
          cases c with
          | leaf id' S' s' e' => exact hcloc
          | internal S' s' e' sl' ch' => exact ⟨hcloc.1, hcloc.2.1⟩
        set m := matchEdge c.seq c.start S start d (min c.depth (stop - start)) with hm
        have hm_ge : d ≤ m := matchEdge_ge _ _ _ _ _ _
        have hm_le : m ≤ min c.depth (stop - start) :=
          matchEdge_le _ _ _ _ _ _ (by omega)
        have hfirst : symAt c.seq (c.start + d) = symAt S (start + d) := by
          rw [← hc3', hk, hkey]
        have hm_adv : d + 1 ≤ m := by
          rw [hm]
          apply matchEdge_advance
          · omega
          · exact hfirst
        have hmatch : ∀ i, d ≤ i → i < m →
            symAt c.seq (c.start + i) = symAt S (start + i) :=
          fun i h1 h2 => matchEdge_agree _ _ _ _ _ _ i h1 h2
        have hseg : (S.drop start).take m = c.label.take m :=
          hit_child_segment S start stop d m c hq hcspan.1 hcspan.2 hd hc2'
            hm_ge (by omega) (by omega) hmatch
        have hq_spelled_of_max : m = stop - start → SpelledIn c (seg S start stop) := by
          intro hmax
          refine ⟨c, mem_allNodes_self c, ?_⟩
          show seg S start stop <+: c.label
          have : seg S start stop = c.label.take m := by
            unfold seg
            rw [← hseg, hmax]
          rw [this]
          exact List.take_prefix _ _
        by_cases hmc : m < c.depth
        · rw [if_pos hmc]
          rw [if_pos (by omega : d < m)]
          have hms : m < stop - start := by
            rcases Nat.lt_or_ge m (stop - start) with h | h
            · exact h
            · exact absurd (hq_spelled_of_max (by omega)) hcns
          rw [if_pos hms]
          rfl
        · rw [if_neg hmc]
          have hmc' : m = c.depth := by omega
          have hcd_lt : c.depth < stop - start := by
            rcases Nat.lt_or_ge c.depth (stop - start) with h | h
            · exact h
            · exact absurd (hq_spelled_of_max (by omega)) hcns
          have hlablen : c.label.length = c.depth :=
            label_length c hcspan.2
          have hlabeq : (S.drop start).take c.depth = c.label := by
            rw [← hmc', hseg, hmc']
            rw [← hlablen, List.take_length]
          cases hcleaf : c.isLeaf with
          | true =>
            exfalso
            obtain ⟨τ, hτ⟩ := hclt c (mem_allNodes_self c) hcleaf
            obtain ⟨w, tag, hS⟩ := hshape
            have hlab_ne : c.label ≠ [] := by
              intro hnil
              rw [hnil] at hlablen
              simp at hlablen
              omega
            rw [getLast?_eq_symAt hlab_ne] at hτ
            injection hτ with hτ
            rw [hlablen] at hτ
            have hidx : c.depth - 1 < c.depth := by omega
            have hterm : symAt S (start + (c.depth - 1)) = GSym.term τ := by
              rw [← hτ, ← hlabeq]
              rw [symAt_take _ _ _ hidx (by simp; omega), symAt_drop S start _ (by omega)]
            have hlen : S.length = w.length + 1 := seqShape_length hS
            obtain ⟨a, ha⟩ := seqShape_sym hS
              (show start + (c.depth - 1) < w.length by omega)
            rw [hterm] at ha
            cases ha
          | false =>
            have hrec := insertSuffix_success c id S start stop hcleaf hcwf
              hclt hshape hq (by omega) hlabeq hcns
            cases hr : insertSuffix c id S start stop with
            | none => rw [hr] at hrec; cases hrec
            | some c' => rfl
      · rw [if_neg hk]
        have hrec := insertScan_success rest key d id S start stop hkey hshape
          hq hd (fun kc hkc => hch kc (List.mem_cons_of_mem _ hkc))
        cases hr : insertScan rest key d id S start stop with
        | none => rw [hr] at hrec; cases hrec
        | some rest' => rfl

end

/-! ### More helper lemmas on sequence shapes, prefixes and keys -/

theorem take_take_eq {l : List GSym} {a b : Nat} (h : a ≤ b) :
    (l.take b).take a = l.take a := by
  rw [List.take_take, Nat.min_eq_left h]

theorem seqShape_term {S : List GSym} {w : List Nat} {tag : Nat}
    (hS : S = List.map GSym.sym w ++ [GSym.term tag]) :
    symAt S w.length = GSym.term tag := by
  subst hS
  have hlen : w.length < (List.map GSym.sym w ++ [GSym.term tag]).length := by
    simp
  rw [symAt_eq_getElem _ _ hlen]
  rw [List.getElem_append_right (by simp)]
  simp

theorem prefix_symAt {p X : List GSym} (h : p <+: X) (i : Nat)
    (hi : i < p.length) : symAt p i = symAt X i := by
  rw [symAt_eq_getElem p i hi, symAt_eq_getElem X i (lt_of_lt_of_le hi h.length_le)]
  exact List.IsPrefix.getElem h hi

theorem nodup_snoc {l : List GSym} {a : GSym} (h1 : l.Nodup) (h2 : a ∉ l) :
    (l ++ [a]).Nodup := by
  rw [List.nodup_append]
  refine ⟨h1, List.nodup_singleton a, ?_⟩
  intro x hx hx2
  simp at hx2
  subst hx2
  exact h2 hx

theorem take_full {S : List GSym} {start : Nat} :
    (S.drop start).take (S.length - start) = S.drop start := by
  rw [show S.length - start = (S.drop start).length by simp, List.take_length]

/-- A suffix of a terminated sequence still ends in the terminator. -/
theorem drop_term {S : List GSym} {w : List Nat} {tag : Nat} {start : Nat}
    (hS : S = List.map GSym.sym w ++ [GSym.term tag])
    (h : start < S.length) :
    (S.drop start).getLast? = some (GSym.term tag) := by
  have hne : S.drop start ≠ [] := by
    intro hnil
    have := congrArg List.length hnil
    simp at this
    omega
  rw [getLast?_eq_symAt hne]
  have hlen : S.length = w.length + 1 := seqShape_length hS
  have h1 : (S.drop start).length - 1 = w.length - start := by simp; omega
  rw [h1]
  have h2 : symAt (S.drop start) (w.length - start) = symAt S (start + (w.length - start)) :=
    symAt_drop S start _ (by omega)
  rw [h2, show start + (w.length - start) = w.length by omega]
  rw [seqShape_term hS]

/-- The new leaf attached for suffix `S[start:stop]` spells exactly that
segment. -/
theorem leaf_label_eq_seg (id : Nat) (S : List GSym) (start stop : Nat) :
    (NodeT.leaf id S start stop).label = seg S start stop := rfl

/-- The label of a new leaf for a full suffix ends in the terminator. -/
theorem leaf_label_term {S : List GSym} {w : List Nat} {tag : Nat}
    {id start stop : Nat} (hS : S = List.map GSym.sym w ++ [GSym.term tag])
    (hstop : stop = S.length) (hlt : start < stop) :
    ((NodeT.leaf id S start stop).label).getLast? = some (GSym.term tag) := by
  rw [leaf_label_eq_seg]
  unfold seg
  subst hstop
  rw [take_full]
  exact drop_term hS hlt

/-- In a children dict with pairwise distinct keys, a key determines its
child. -/
theorem entry_unique : (ch : List (GSym × NodeT)) →
    (ch.map Prod.fst).Nodup → {a : GSym} → {c1 c2 : NodeT} →
    (a, c1) ∈ ch → (a, c2) ∈ ch → c1 = c2
  | [], _, _, _, _, h1, _ => by cases h1
  | (k, c) :: rest, hnd, a, c1, c2, h1, h2 => by
      simp only [List.map_cons, List.nodup_cons] at hnd
      rcases List.mem_cons.mp h1 with he1 | ht1
      · rcases List.mem_cons.mp h2 with he2 | ht2
        · rw [((Prod.mk.injEq _ _ _ _).mp he1).2,
            ((Prod.mk.injEq _ _ _ _).mp he2).2]
        · exfalso
          apply hnd.1
          have ha : a = k := ((Prod.mk.injEq _ _ _ _).mp he1).1
          exact ha ▸ List.mem_map.mpr ⟨(a, c2), ht2, rfl⟩
      · rcases List.mem_cons.mp h2 with he2 | ht2
        · exfalso
          apply hnd.1
          have ha : a = k := ((Prod.mk.injEq _ _ _ _).mp he2).1
          exact ha ▸ List.mem_map.mpr ⟨(a, c1), ht1, rfl⟩
        · exact entry_unique rest hnd.2 ht1 ht2

mutual

/-- In a well-formed tree the label of the root is a prefix of the label of
every node of the tree (edge labels only extend the path). -/
theorem label_prefix_of_mem : (v : NodeT) → WF v →
    ∀ u ∈ allNodes v, v.label <+: u.label
  | .leaf id S s e, _, u, hu => by
      simp only [allNodes, List.mem_singleton] at hu
      subst hu
      exact List.prefix_refl _
  | .internal nS ns ne sl ch, hwf, u, hu => by
      rw [allNodes] at hu
      rcases List.mem_cons.mp hu with h | h
      · subst h
        exact List.prefix_refl _
      · obtain ⟨kc, hkc, hu2⟩ := mem_allNodesList_iff.mp h
        have hloc := localWF_of_WF hwf
        unfold localWF at hloc
        obtain ⟨_, _, _, hchs⟩ := hloc
        obtain ⟨hc1, hc2, _⟩ := hchs kc hkc
        have h1 : (NodeT.internal nS ns ne sl ch).label <+: kc.2.label := by
          rw [show (NodeT.internal nS ns ne sl ch).label =
            (nS.drop ns).take (ne - ns) from rfl, ← hc2]
          exact List.take_prefix _ _
        exact h1.trans
          (label_prefix_list ch (fun kc' hkc' => WF_of_child hwf hkc') kc hkc u hu2)

/-- `label_prefix_of_mem` over a children dict. -/
theorem label_prefix_list : (ch : List (GSym × NodeT)) →
    (∀ kc ∈ ch, WF kc.2) →
    ∀ kc ∈ ch, ∀ u ∈ allNodes kc.2, kc.2.label <+: u.label
  | [], _, kc, hkc, _, _ => by cases hkc
  | (k, c) :: rest, hwfs, kc, hkc, u, hu => by
      rcases List.mem_cons.mp hkc with he | ht
      · subst he
        exact label_prefix_of_mem c (hwfs (k, c) (List.mem_cons_self _ _)) u hu
      · exact label_prefix_list rest
          (fun kc' hkc' => hwfs kc' (List.mem_cons_of_mem _ hkc')) kc ht u hu

end

/-- A member of `allNodes v` is `v` itself or lies below one of its
children. -/
theorem mem_allNodes_cases {v u : NodeT} (h : u ∈ allNodes v) :
    u = v ∨ ∃ kc ∈ v.children, u ∈ allNodes kc.2 := by
  cases v with
  | leaf id S s e =>
    simp only [allNodes, List.mem_singleton] at h
    exact Or.inl h
  | internal S s e sl ch =>
    simp only [allNodes, List.mem_cons] at h
    rcases h with h | h
    · exact Or.inl h
    · exact Or.inr (mem_allNodesList_iff.mp h)

/-- A successful insertion never changes the span fields of the node it was
called on (the node is rebuilt with a new children dict only). -/
theorem insertSuffix_fields {c c' : NodeT} {id : Nat} {S : List GSym}
    {start stop : Nat} (h : insertSuffix c id S start stop = some c') :
    c'.seq = c.seq ∧ c'.start = c.start ∧ c'.stop = c.stop := by
  cases c with
  | leaf id' S' s' e' => cases h
  | internal nS ns ne sl ch =>
    obtain ⟨_, ch', rfl, _⟩ := insertSuffix_shape h
    exact ⟨rfl, rfl, rfl⟩

/-! ### Preservation of the structural invariants by one insertion -/

mutual

/-- A successful suffix insertion preserves well-formedness, the
leaf-terminator invariant and the nonemptiness of every subtree's position
list, and every node of the result either spells a prefix of a label already
in the tree or a prefix of the newly inserted suffix. -/
theorem insertSuffix_preserves : (v : NodeT) → (id : Nat) → (S : List GSym) →
    (start stop : Nat) → {t' : NodeT} →
    WF v → LeafTerm v → SeqShape S → stop = S.length →
    (S.drop start).take v.depth = v.label →
    (∀ kc ∈ v.children, ∀ u ∈ allNodes kc.2, getPositions u ≠ []) →
    insertSuffix v id S start stop = some t' →
    WF t' ∧ LeafTerm t' ∧
    (∀ kc ∈ t'.children, ∀ u ∈ allNodes kc.2, getPositions u ≠ []) ∧
    (∀ u ∈ allNodes t',
      (∃ u0 ∈ allNodes v, u.label <+: u0.label) ∨ u.label <+: seg S start stop)
  | .leaf _ _ _ _, _, _, _, _, _, _, _, _, _, _, _, h => by cases h
  | .internal nS ns ne sl ch, id, S, start, stop, t', hwf, hlt, hshape, hstop,
      hagree, hpos, h => by
      obtain ⟨hd, ch', rfl, hsc⟩ := insertSuffix_shape h
      have hloc := localWF_of_WF hwf
      unfold localWF at hloc
      obtain ⟨hs1, hs2, hnd, hs3⟩ := hloc
      have hd' : ne - ns < stop - start := hd
      have hch : ∀ kc ∈ ch, (ne - ns) < kc.2.depth ∧
          kc.2.label.take (ne - ns) = (S.drop start).take (ne - ns) ∧
          kc.1 = symAt kc.2.seq (kc.2.start + (ne - ns)) ∧ WF kc.2 ∧
          LeafTerm kc.2 ∧ (∀ u ∈ allNodes kc.2, getPositions u ≠ []) := by
        intro kc hkc
        obtain ⟨hc1, hc2, hc3⟩ := hs3 kc hkc
        refine ⟨hc1, ?_, hc3, WF_of_child hwf hkc, LeafTerm_of_child hlt hkc,
          hpos kc hkc⟩
        rw [hc2]
        exact hagree.symm
      obtain ⟨hcond, hkeys, hcov⟩ := insertScan_preserves ch
        (symAt S (start + (ne - ns))) (ne - ns) id S start stop rfl hshape
        hstop hd' hch hsc
      refine ⟨?_, ?_, ?_, ?_⟩
      · intro u hu
        simp only [allNodes, List.mem_cons] at hu
        rcases hu with rfl | h2
        · show ns ≤ ne ∧ ne ≤ nS.length ∧ (ch'.map Prod.fst).Nodup ∧ _
          refine ⟨hs1, hs2, ?_, ?_⟩
          · rcases hkeys with heq | ⟨heq, hnm⟩
            · rw [heq]; exact hnd
            · rw [heq]; exact nodup_snoc hnd hnm
          · intro kc hkc
            obtain ⟨hc1, hc2, hc3, _, _, _⟩ := hcond kc hkc
            refine ⟨hc1, ?_, hc3⟩
            rw [hc2]
            exact hagree
        · obtain ⟨kc, hkc, hu2⟩ := mem_allNodesList_iff.mp h2
          exact (hcond kc hkc).2.2.2.1 u hu2
      · intro u hu hul
        simp only [allNodes, List.mem_cons] at hu
        rcases hu with rfl | h2
        · simp [NodeT.isLeaf] at hul
        · obtain ⟨kc, hkc, hu2⟩ := mem_allNodesList_iff.mp h2
          exact (hcond kc hkc).2.2.2.2.1 u hu2 hul
      · intro kc hkc
        exact (hcond kc hkc).2.2.2.2.2
      · intro u hu
        simp only [allNodes, List.mem_cons] at hu
        rcases hu with rfl | h2
        · left
          exact ⟨.internal nS ns ne sl ch, mem_allNodes_self _,
            List.prefix_refl _⟩
        · rcases hcov u h2 with ⟨u0, hu0, hpre⟩ | hpre
          · left
            refine ⟨u0, ?_, hpre⟩
            simp only [allNodes, List.mem_cons]
            exact Or.inr hu0
          · right
            exact hpre

/-- `insertSuffix_preserves` for the children-dict scan: the rebuilt dict
again satisfies the local child conditions at depth `d`, its key list is the
old one possibly extended by the (previously absent) new key, and its node
labels are covered by the old labels and the new suffix. -/
theorem insertScan_preserves : (ch : List (GSym × NodeT)) → (key : GSym) →
    (d : Nat) → (id : Nat) → (S : List GSym) → (start stop : Nat) →
    {ch' : List (GSym × NodeT)} →
    key = symAt S (start + d) → SeqShape S → stop = S.length →
    d < stop - start →
    (∀ kc ∈ ch, d < kc.2.depth ∧
      kc.2.label.take d = (S.drop start).take d ∧
      kc.1 = symAt kc.2.seq (kc.2.start + d) ∧ WF kc.2 ∧ LeafTerm kc.2 ∧
      (∀ u ∈ allNodes kc.2, getPositions u ≠ [])) →
    insertScan ch key d id S start stop = some ch' →
    (∀ kc ∈ ch', d < kc.2.depth ∧
      kc.2.label.take d = (S.drop start).take d ∧
      kc.1 = symAt kc.2.seq (kc.2.start + d) ∧ WF kc.2 ∧ LeafTerm kc.2 ∧
      (∀ u ∈ allNodes kc.2, getPositions u ≠ [])) ∧
    (ch'.map Prod.fst = ch.map Prod.fst ∨
      (ch'.map Prod.fst = ch.map Prod.fst ++ [key] ∧
        key ∉ ch.map Prod.fst)) ∧
    (∀ u ∈ allNodesList ch',
      (∃ u0 ∈ allNodesList ch, u.label <+: u0.label) ∨
        u.label <+: seg S start stop)
  | [], key, d, id, S, start, stop, ch', hkey, hshape, hstop, hd, hch, h => by
      unfold insertScan at h
      cases h
      obtain ⟨w, tag, hS⟩ := hshape
      refine ⟨?_, ?_, ?_⟩
      · intro kc hkc
        simp only [List.mem_singleton] at hkc
        subst hkc
        refine ⟨hd, take_take_eq (show d ≤ stop - start by omega), hkey,
          ?_, ?_, ?_⟩
        · intro u hu
          simp only [allNodes, List.mem_singleton] at hu
          subst hu
          exact ⟨show start ≤ stop by omega, show stop ≤ S.length by omega⟩
        · intro u hu hul
          simp only [allNodes, List.mem_singleton] at hu
          subst hu
          exact ⟨tag, leaf_label_term hS hstop (by omega)⟩
        · intro u hu
          simp only [allNodes, List.mem_singleton] at hu
          subst hu
          simp [getPositions]
      · right
        exact ⟨rfl, by simp⟩
      · intro u hu
        simp only [allNodesList, allNodes, List.append_nil,
          List.mem_singleton] at hu
        subst hu
        right
        rw [leaf_label_eq_seg]
  | (k, c) :: rest, key, d, id, S, start, stop, ch', hkey, hshape, hstop, hd,
      hch, h => by
      unfold insertScan at h
      obtain ⟨hc1, hc2, hc3, hcwf, hclt, hcpos⟩ :=
        hch (k, c) (List.mem_cons_self _ _)
      have hc1' : d < c.depth := hc1
      have hc2' : c.label.take d = (S.drop start).take d := hc2
      have hc3' : k = symAt c.seq (c.start + d) := hc3
      have hdd : c.depth = c.stop - c.start := rfl
      have hcloc := localWF_of_WF hcwf
      have hcspan : c.start ≤ c.stop ∧ c.stop ≤ c.seq.length := by
        cases c with
        | leaf id' S' s' e' => exact hcloc
        | internal S' s' e' sl' ch' => exact ⟨hcloc.1, hcloc.2.1⟩
      have hq : stop ≤ S.length := by omega
      obtain ⟨w, tag, hS⟩ := hshape
      by_cases hk : k = key
      · rw [if_pos hk] at h
        dsimp only at h
        set m := matchEdge c.seq c.start S start d (min c.depth (stop - start))
          with hmdef
        have hm_ge : d ≤ m := matchEdge_ge _ _ _ _ _ _
        have hm_le : m ≤ min c.depth (stop - start) :=
          matchEdge_le _ _ _ _ _ _ (by omega)
        have hmatch : ∀ i, d ≤ i → i < m →
            symAt c.seq (c.start + i) = symAt S (start + i) :=
          fun i h1 h2 => matchEdge_agree _ _ _ _ _ _ i h1 h2
        by_cases hmc : m < c.depth
        · rw [if_pos hmc] at h
          by_cases hdm : d < m
          · rw [if_pos hdm] at h
            by_cases hms : m < stop - start
            · rw [if_pos hms] at h
              cases h
              have hseg : (S.drop start).take m = c.label.take m :=
                hit_child_segment S start stop d m c hq hcspan.1 hcspan.2 hd
                  hc2' hm_ge (by omega) (by omega) hmatch
              have hmis : symAt c.seq (c.start + m) ≠ symAt S (start + m) :=
                matchEdge_mismatch _ _ _ _ _ _ (by omega) (by omega)
              have hlabm : c.label.take m = (c.seq.drop c.start).take m := by
                rw [show c.label =
                  (c.seq.drop c.start).take (c.stop - c.start) from rfl]
                exact take_take_eq (by omega)
              refine ⟨?_, ?_, ?_⟩
              · intro kc hkc
                rcases List.mem_cons.mp hkc with he | ht
                · subst he
                  refine ⟨?_, ?_, rfl, ?_, ?_, ?_⟩
                  · show d < c.start + m - c.start
                    omega
                  · show ((c.seq.drop c.start).take (c.start + m - c.start)).take d
                      = (S.drop start).take d
                    rw [show c.start + m - c.start = m from by omega]
                    calc ((c.seq.drop c.start).take m).take d
                        = (c.seq.drop c.start).take d := take_take_eq (by omega)
                      _ = c.label.take d := by
                          rw [show c.label =
                            (c.seq.drop c.start).take (c.stop - c.start) from rfl]
                          exact (take_take_eq (by omega)).symm
                      _ = (S.drop start).take d := hc2'
                  · intro u hu
                    simp only [allNodes, allNodesList, List.append_nil,
                      List.mem_cons, List.mem_append,
                      List.mem_singleton, List.mem_nil_iff, or_false] at hu
                    rcases hu with rfl | hu2 | rfl
                    · show c.start ≤ c.start + m ∧
                        c.start + m ≤ c.seq.length ∧ _ ∧ _
                      refine ⟨by omega, by omega, ?_, ?_⟩
                      · simp only [List.map_cons, List.map_nil]
                        refine List.nodup_cons.mpr ⟨?_, List.nodup_singleton _⟩
                        simp only [List.mem_singleton]
                        exact hmis
                      · intro kc2 hkc2
                        rw [show c.start + m - c.start = m from by omega]
                        rcases List.mem_cons.mp hkc2 with he2 | ht2
                        · subst he2
                          refine ⟨hmc, ?_, rfl⟩
                          exact hlabm
                        · simp only [List.mem_singleton] at ht2
                          subst ht2
                          refine ⟨?_, ?_, rfl⟩
                          · show m < stop - start
                            omega
                          · show ((S.drop start).take (stop - start)).take m
                              = (c.seq.drop c.start).take m
                            rw [take_take_eq (show m ≤ stop - start by omega),
                              hseg]
                            exact hlabm
                    · exact hcwf u hu2
                    · exact ⟨show start ≤ stop by omega,
                        show stop ≤ S.length by omega⟩
                  · intro u hu hul
                    simp only [allNodes, allNodesList, List.append_nil,
                      List.mem_cons, List.mem_append,
                      List.mem_singleton, List.mem_nil_iff, or_false] at hu
                    rcases hu with rfl | hu2 | rfl
                    · simp [NodeT.isLeaf] at hul
                    · exact hclt u hu2 hul
                    · exact ⟨tag, leaf_label_term hS hstop (by omega)⟩
                  · intro u hu
                    simp only [allNodes, allNodesList, List.append_nil,
                      List.mem_cons, List.mem_append,
                      List.mem_singleton, List.mem_nil_iff, or_false] at hu
                    rcases hu with rfl | hu2 | rfl
                    · show getPositions _ ≠ []
                      simp [getPositions, getPositionsList]
                    · exact hcpos u hu2
                    · simp [getPositions]
                · exact hch kc (List.mem_cons_of_mem _ ht)
              · left
                simp only [List.map_cons]
                rw [← hc3']
              · intro u hu
                simp only [allNodesList, allNodes, List.append_nil,
                  List.mem_cons, List.mem_append, List.mem_singleton,
                  List.mem_nil_iff, or_false] at hu
                rcases hu with (rfl | hu2 | rfl) | hu4
                · left
                  refine ⟨c, ?_, ?_⟩
                  · simp only [allNodesList, List.mem_append]
                    exact Or.inl (mem_allNodes_self c)
                  · show ((c.seq.drop c.start).take (c.start + m - c.start))
                      <+: c.label
                    rw [show c.start + m - c.start = m from by omega, ← hlabm]
                    exact List.take_prefix _ _
                · left
                  refine ⟨u, ?_, List.prefix_refl _⟩
                  simp only [allNodesList, List.mem_append]
                  exact Or.inl hu2
                · right
                  rw [leaf_label_eq_seg]
                · left
                  refine ⟨u, ?_, List.prefix_refl _⟩
                  simp only [allNodesList, List.mem_append]
                  exact Or.inr hu4
            · rw [if_neg hms] at h
              cases h
          · rw [if_neg hdm] at h
            cases h
        · rw [if_neg hmc] at h
          cases hrec : insertSuffix c id S start stop with
          | none => rw [hrec] at h; cases h
          | some c' =>
            rw [hrec] at h
            cases h
            have hmz : m = c.depth := by omega
            have hcd_le : c.depth ≤ stop - start := by omega
            have hseg : (S.drop start).take m = c.label.take m :=
              hit_child_segment S start stop d m c hq hcspan.1 hcspan.2 hd
                hc2' hm_ge (by omega) (by omega) hmatch
            have hlablen : c.label.length = c.depth := label_length c hcspan.2
            have hagree_c : (S.drop start).take c.depth = c.label := by
              rw [← hmz, hseg, hmz, ← hlablen, List.take_length]
            have hposC : ∀ kc ∈ c.children, ∀ u ∈ allNodes kc.2,
                getPositions u ≠ [] := by
              intro kc hkc u hu
              apply hcpos u
              cases c with
              | leaf id' S' s' e' => cases hkc
              | internal S' s' e' sl' cch =>
                simp only [allNodes, List.mem_cons]
                exact Or.inr (mem_allNodesList_iff.mpr ⟨kc, hkc, hu⟩)
            obtain ⟨hwf', hlt', hpos', hcov'⟩ := insertSuffix_preserves c id S
              start stop hcwf hclt ⟨w, tag, hS⟩ hstop hagree_c hposC hrec
            obtain ⟨hf1, hf2, hf3⟩ := insertSuffix_fields hrec
            have hdeq : c'.depth = c.depth := by
              unfold NodeT.depth
              rw [hf2, hf3]
            have hlabeq : c'.label = c.label := by
              unfold NodeT.label
              rw [hf1, hf2, hf3]
            refine ⟨?_, ?_, ?_⟩
            · intro kc hkc
              rcases List.mem_cons.mp hkc with he | ht
              · subst he
                refine ⟨show d < c'.depth by omega, ?_, ?_, hwf', hlt', ?_⟩
                · show c'.label.take d = (S.drop start).take d
                  rw [hlabeq]
                  exact hc2'
                · show k = symAt c'.seq (c'.start + d)
                  rw [hf1, hf2]
                  exact hc3'
                · intro u hu
                  rcases mem_allNodes_cases hu with rfl | ⟨kc2, hkc2, hu2⟩
                  · intro hnil
                    have hp := (insertSuffix_positions c hrec).length_eq
                    rw [hnil] at hp
                    simp at hp
                  · exact hpos' kc2 hkc2 u hu2
              · exact hch kc (List.mem_cons_of_mem _ ht)
            · left
              rfl
            · intro u hu
              simp only [allNodesList, List.mem_append] at hu
              rcases hu with hu2 | hu3
              · rcases hcov' u hu2 with ⟨u0, hu0, hpre⟩ | hpre
                · left
                  refine ⟨u0, ?_, hpre⟩
                  simp only [allNodesList, List.mem_append]
                  exact Or.inl hu0
                · right
                  exact hpre
              · left
                refine ⟨u, ?_, List.prefix_refl _⟩
                simp only [allNodesList, List.mem_append]
                exact Or.inr hu3
      · rw [if_neg hk] at h
        cases hrec : insertScan rest key d id S start stop with
        | none => rw [hrec] at h; cases h
        | some rest' =>
          rw [hrec] at h
          cases h
          obtain ⟨hcond', hkeys', hcov'⟩ := insertScan_preserves rest key d id
            S start stop hkey ⟨w, tag, hS⟩ hstop hd
            (fun kc hkc => hch kc (List.mem_cons_of_mem _ hkc)) hrec
          refine ⟨?_, ?_, ?_⟩
          · intro kc hkc
            rcases List.mem_cons.mp hkc with he | ht
            · subst he
              exact hch (k, c) (List.mem_cons_self _ _)
            · exact hcond' kc ht
          · rcases hkeys' with heq | ⟨heq, hnm⟩
            · left
              simp only [List.map_cons, heq]
            · right
              constructor
              · simp only [List.map_cons, heq, List.cons_append]
              · simp only [List.map_cons, List.mem_cons]
                rintro (he | hm)
                · exact hk he.symm
                · exact hnm hm
          · intro u hu
            simp only [allNodesList, List.mem_append] at hu
            rcases hu with hu2 | hu3
            · left
              refine ⟨u, ?_, List.prefix_refl _⟩
              simp only [allNodesList, List.mem_append]
              exact Or.inl hu2
            · rcases hcov' u hu3 with ⟨u0, hu0, hpre⟩ | hpre
              · left
                refine ⟨u0, ?_, hpre⟩
                simp only [allNodesList, List.mem_append]
                exact Or.inr hu0
              · right
                exact hpre

end

/-! ### Freshness of the terminator: a new suffix is never already spelled -/

/-- The suffix `S[start:]` of the current sequence, whose last symbol is the
fresh terminator, is not spelled by any node of a tree whose labels are
covered by older sequences (with older terminators) and by the suffixes
`S[j:]`, `j < start`, already inserted. -/
theorem not_spelled_of_covered {t : NodeT} {past : List (List GSym)}
    {S : List GSym} {w : List Nat} {tag start : Nat}
    (hS : S = List.map GSym.sym w ++ [GSym.term tag])
    (hpast : ∀ T ∈ past, ∃ w' τ, τ ≠ tag ∧
      T = List.map GSym.sym w' ++ [GSym.term τ])
    (hcov : CoveredUpto t past S start)
    (hstart : start < S.length) :
    ¬ SpelledIn t (seg S start S.length) := by
  rintro ⟨u, hu, hpre⟩
  have hSlen : S.length = w.length + 1 := seqShape_length hS
  have hqlen : (seg S start S.length).length = S.length - start :=
    seg_length S start S.length (le_refl _)
  have hlast : symAt (seg S start S.length) (S.length - start - 1) =
      GSym.term tag := by
    rw [symAt_seg S start S.length (S.length - start - 1) (by omega)
      (le_refl _), show start + (S.length - start - 1) = w.length by omega]
    exact seqShape_term hS
  rcases hcov u hu with hnil | ⟨T, hT, j, hpre2⟩ | ⟨j, hj, hpre2⟩
  · rw [hnil] at hpre
    have := hpre.length_le
    rw [hqlen] at this
    simp at this
    omega
  · obtain ⟨w', τ, hτ, hT'⟩ := hpast T hT
    have htr : seg S start S.length <+: T.drop j := hpre.trans hpre2
    have hlen2 := htr.length_le
    rw [hqlen, List.length_drop] at hlen2
    have hidx : j + (S.length - start - 1) < T.length := by omega
    have hTlen : T.length = w'.length + 1 := seqShape_length hT'
    have heq : symAt T (j + (S.length - start - 1)) = GSym.term tag := by
      rw [← symAt_drop T j (S.length - start - 1) hidx]
      rw [← prefix_symAt htr (S.length - start - 1) (by rw [hqlen]; omega)]
      exact hlast
    rcases Nat.lt_or_ge (j + (S.length - start - 1)) w'.length with hlt | hge
    · obtain ⟨a, ha⟩ := seqShape_sym hT' hlt
      rw [heq] at ha
      cases ha
    · have hwl : j + (S.length - start - 1) = w'.length := by omega
      rw [hwl, seqShape_term hT'] at heq
      injection heq with heq2
      exact hτ heq2
  · have htr : seg S start S.length <+: S.drop j := hpre.trans hpre2
    have hlen2 := htr.length_le
    rw [hqlen, List.length_drop] at hlen2
    have hidx : j + (S.length - start - 1) < w.length := by omega
    have heq : symAt S (j + (S.length - start - 1)) = GSym.term tag := by
      rw [← symAt_drop S j (S.length - start - 1) (by omega)]
      rw [← prefix_symAt htr (S.length - start - 1) (by rw [hqlen]; omega)]
      exact hlast
    obtain ⟨a, ha⟩ := seqShape_sym hS hidx
    rw [heq] at ha
    cases ha

/-! ### The naive builder loop -/

/-- Correctness of the suffix-insertion loop of `naive.Builder.build` from
suffix `start` on: it succeeds, preserves all structural invariants,
extends the label coverage to the whole sequence and adds exactly one leaf
position per remaining suffix. -/
theorem insert_loop (id : Nat) (S : List GSym) (w : List Nat) (tag : Nat)
    (past : List (List GSym))
    (hS : S = List.map GSym.sym w ++ [GSym.term tag])
    (hpast : ∀ T ∈ past, ∃ w' τ, τ ≠ tag ∧
      T = List.map GSym.sym w' ++ [GSym.term τ]) :
    (n : Nat) → (start : Nat) → (t : NodeT) → start + n = S.length →
    RootShape t → WF t → LeafTerm t → ChildPos t →
    CoveredUpto t past S start →
    ∃ t', (List.range' start n).foldl
        (fun acc st => acc.bind (fun tt => insertSuffix tt id S st S.length))
        (some t) = some t' ∧
      RootShape t' ∧ WF t' ∧ LeafTerm t' ∧ ChildPos t' ∧
      CoveredUpto t' past S S.length ∧
      List.Perm (getPositions t')
        (((List.range' start n).map (fun j => (id, S, j, S.length)))
          ++ getPositions t)
  | 0, start, t, hsum, hroot, hwf, hlt, hcp, hcov => by
      have hse : start = S.length := by omega
      subst hse
      exact ⟨t, rfl, hroot, hwf, hlt, hcp, hcov, by simp⟩
  | n + 1, start, t, hsum, hroot, hwf, hlt, hcp, hcov => by
      have hstart : start < S.length := by omega
      obtain ⟨ch, rfl⟩ := hroot
      have hagree : (S.drop start).take
          (NodeT.depth (NodeT.internal [] 0 0 none ch)) =
          (NodeT.internal [] 0 0 none ch).label := rfl
      have hnosp := not_spelled_of_covered hS hpast hcov hstart
      have hsucc := insertSuffix_success (NodeT.internal [] 0 0 none ch) id S
        start S.length rfl hwf hlt ⟨w, tag, hS⟩ (le_refl _)
        (by
          have h0 : (0 : Nat) < S.length - start := by omega
          exact h0)
        hagree hnosp
      cases hins : insertSuffix (NodeT.internal [] 0 0 none ch) id S start
          S.length with
      | none => rw [hins] at hsucc; cases hsucc
      | some t1 =>
        obtain ⟨hwf1, hlt1, hcp1, hcov1⟩ := insertSuffix_preserves
          (NodeT.internal [] 0 0 none ch) id S start S.length hwf hlt
          ⟨w, tag, hS⟩ rfl hagree hcp hins
        obtain ⟨_, ch1, heq1, _⟩ := insertSuffix_shape hins
        have hroot1 : RootShape t1 := ⟨ch1, heq1⟩
        have hcov1' : CoveredUpto t1 past S (start + 1) := by
          intro u hu
          rcases hcov1 u hu with ⟨u0, hu0, hpre⟩ | hpre
          · rcases hcov u0 hu0 with hnil | ⟨T, hT, j, hp⟩ | ⟨j, hj, hp⟩
            · left
              rw [hnil] at hpre
              exact List.prefix_nil.mp hpre
            · exact Or.inr (Or.inl ⟨T, hT, j, hpre.trans hp⟩)
            · exact Or.inr (Or.inr ⟨j, by omega, hpre.trans hp⟩)
          · refine Or.inr (Or.inr ⟨start, by omega, ?_⟩)
            exact hpre.trans (List.take_prefix _ _)
        obtain ⟨t', hfold, hroot', hwf', hlt', hcp', hcov', hperm⟩ :=
          insert_loop id S w tag past hS hpast n (start + 1) t1 (by omega)
            hroot1 hwf1 hlt1 hcp1 hcov1'
        refine ⟨t', ?_, hroot', hwf', hlt', hcp', hcov', ?_⟩
        · show (List.range' (start + 1) n).foldl _
            (insertSuffix (NodeT.internal [] 0 0 none ch) id S start S.length)
            = some t'
          rw [hins]
          exact hfold
        · have hperm1 := insertSuffix_positions
            (NodeT.internal [] 0 0 none ch) hins
          refine hperm.trans ?_
          refine (List.Perm.append_left _ hperm1).trans ?_
          exact List.perm_middle
  termination_by n => n

/-- Correctness of `Tree.add` with the naive builder: it succeeds, keeps all
invariants, extends the coverage by the new terminated sequence and adds
`|w| + 1` leaf positions. -/
theorem addSequence_ok (t : NodeT) (id tag : Nat) (w : List Nat)
    (past : List (List GSym))
    (hpast : ∀ T ∈ past, ∃ w' τ, τ ≠ tag ∧
      T = List.map GSym.sym w' ++ [GSym.term τ])
    (hroot : RootShape t) (hwf : WF t) (hlt : LeafTerm t) (hcp : ChildPos t)
    (hcov : CoveredBy t past) :
    ∃ t', addSequence t id tag w = some t' ∧
      RootShape t' ∧ WF t' ∧ LeafTerm t' ∧ ChildPos t' ∧
      CoveredBy t' (past ++ [List.map GSym.sym w ++ [GSym.term tag]]) ∧
      (getPositions t').length = (w.length + 1) + (getPositions t).length := by
  set S := List.map GSym.sym w ++ [GSym.term tag] with hSdef
  have hcov0 : CoveredUpto t past S 0 := by
    intro u hu
    rcases hcov u hu with h | ⟨T, hT, j, hp⟩
    · exact Or.inl h
    · exact Or.inr (Or.inl ⟨T, hT, j, hp⟩)
  obtain ⟨t', hfold, hroot', hwf', hlt', hcp', hcov', hperm⟩ :=
    insert_loop id S w tag past hSdef hpast S.length 0 t (by omega) hroot
      hwf hlt hcp hcov0
  refine ⟨t', ?_, hroot', hwf', hlt', hcp', ?_, ?_⟩
  · show buildNaive t id S = some t'
    unfold buildNaive
    rw [List.range_eq_range']
    exact hfold
  · intro u hu
    rcases hcov' u hu with h | ⟨T, hT, j, hp⟩ | ⟨j, hj, hp⟩
    · exact Or.inl h
    · exact Or.inr ⟨T, List.mem_append.mpr (Or.inl hT), j, hp⟩
    · exact Or.inr ⟨S, List.mem_append.mpr (Or.inr (List.mem_singleton.mpr
        rfl)), j, hp⟩
  · have hlen := hperm.length_eq
    rw [List.length_append, List.length_map, List.length_range'] at hlen
    have hSlen : S.length = w.length + 1 := by
      rw [hSdef]
      simp
    omega

/-- Correctness of repeatedly adding sequences (`Tree.__init__`): building
always succeeds and the total number of leaf positions is the sum of the
terminated sequence lengths. -/
theorem addAll_ok : (d : List (Nat × List Nat)) → (t : NodeT) → (tag : Nat) →
    (past : List (List GSym)) → PastOf past tag →
    RootShape t → WF t → LeafTerm t → ChildPos t → CoveredBy t past →
    ∃ t', addAll t tag d = some t' ∧
      RootShape t' ∧ WF t' ∧ LeafTerm t' ∧ ChildPos t' ∧
      (getPositions t').length =
        (d.map (fun p => p.2.length + 1)).sum + (getPositions t).length
  | [], t, tag, past, hpastOf, hroot, hwf, hlt, hcp, hcov =>
      ⟨t, rfl, hroot, hwf, hlt, hcp, by simp⟩
  | (id, w) :: rest, t, tag, past, hpastOf, hroot, hwf, hlt, hcp, hcov => by
      have hpast' : ∀ T ∈ past, ∃ w' τ, τ ≠ tag ∧
          T = List.map GSym.sym w' ++ [GSym.term τ] := by
        intro T hT
        obtain ⟨w', τ, hτ, hT'⟩ := hpastOf T hT
        exact ⟨w', τ, by omega, hT'⟩
      obtain ⟨t1, hadd, hroot1, hwf1, hlt1, hcp1, hcov1, hlen1⟩ :=
        addSequence_ok t id tag w past hpast' hroot hwf hlt hcp hcov
      have hpastOf1 : PastOf
          (past ++ [List.map GSym.sym w ++ [GSym.term tag]]) (tag + 1) := by
        intro T hT
        rcases List.mem_append.mp hT with h | h
        · obtain ⟨w', τ, hτ, hT'⟩ := hpastOf T h
          exact ⟨w', τ, by omega, hT'⟩
        · rw [List.mem_singleton] at h
          exact ⟨w, tag, by omega, h⟩
      obtain ⟨t', hrest, hroot', hwf', hlt', hcp', hlen'⟩ :=
        addAll_ok rest t1 (tag + 1) _ hpastOf1 hroot1 hwf1 hlt1 hcp1 hcov1
      refine ⟨t', ?_, hroot', hwf', hlt', hcp', ?_⟩
      · show addAll t tag ((id, w) :: rest) = some t'
        unfold addAll
        rw [hadd]
        exact hrest
      · rw [hlen', hlen1]
        simp only [List.map_cons, List.sum_cons]
        omega

/-- Correctness of `buildTree`: the naive builder always succeeds on a
dictionary of sequences, produces a well-formed tree satisfying all the
structural invariants, and the number of leaves is the sum of the
`|Sᵢ| + 1` terminated lengths. -/
theorem buildTree_ok (d : List (Nat × List Nat)) :
    ∃ t', buildTree d = some t' ∧ RootShape t' ∧ WF t' ∧ LeafTerm t' ∧
      ChildPos t' ∧ leafCount t' = (d.map (fun p => p.2.length + 1)).sum := by
  have hroot : RootShape root0 := ⟨[], rfl⟩
  have hwf : WF root0 := by
    intro u hu
    simp only [root0, allNodes, allNodesList, List.mem_cons, List.mem_nil_iff,
      or_false] at hu
    subst hu
    exact ⟨le_refl 0, by simp, List.nodup_nil, by intro kc hkc; cases hkc⟩
  have hlt : LeafTerm root0 := by
    intro u hu hul
    simp only [root0, allNodes, allNodesList, List.mem_cons, List.mem_nil_iff,
      or_false] at hu
    subst hu
    simp [NodeT.isLeaf] at hul
  have hcp : ChildPos root0 := by
    intro kc hkc
    cases hkc
  have hcov : CoveredBy root0 [] := by
    intro u hu
    simp only [root0, allNodes, allNodesList, List.mem_cons, List.mem_nil_iff,
      or_false] at hu
    subst hu
    exact Or.inl rfl
  have hpastOf : PastOf [] 0 := by
    intro T hT
    cases hT
  obtain ⟨t', hb, hroot', hwf', hlt', hcp', hlen⟩ :=
    addAll_ok d root0 0 [] hpastOf hroot hwf hlt hcp hcov
  refine ⟨t', hb, hroot', hwf', hlt', hcp', ?_⟩
  rw [leafCount_eq_positions, hlen]
  simp [root0, getPositions, getPositionsList]

/-- C3 (amended): adding a single sequence of length `m` to a fresh tree
with the naive builder yields a tree with exactly `m + 1` leaves (one per
suffix of the terminated sequence, including the suffix holding only the
terminator), and a generalized tree built from sequences `S₁, …, S_N` has
exactly `Σ (|Sᵢ| + 1)` leaves. -/
theorem C3_leaf_count :
    (∀ id w, ∃ t', buildTree [(id, w)] = some t' ∧
      leafCount t' = w.length + 1) ∧
    ∀ d, ∃ t', buildTree d = some t' ∧
      leafCount t' = (d.map (fun p => p.2.length + 1)).sum := by
  constructor
  · intro id w
    obtain ⟨t', hb, _, _, _, _, hlen⟩ := buildTree_ok [(id, w)]
    refine ⟨t', hb, ?_⟩
    rw [hlen]
    simp
  · intro d
    obtain ⟨t', hb, _, _, _, _, hlen⟩ := buildTree_ok d
    exact ⟨t', hb, hlen⟩

/-- C3 counterexample: the tree of the single sequence `[0]` (length 1) has
2 leaves, not 1 — the suffix consisting of the appended terminator alone
also receives a leaf — so "exactly m leaves" and the bound "at most
`Σ |Sᵢ|`" both fail. -/
theorem C3_leaf_count_counterexample :
    (buildTree [(0, [0])]).map leafCount = some 2 ∧ (2 : Nat) ≠ 1 := by
  constructor
  · rfl
  · decide

/-! ### `find_path` and the children dict lookup -/

theorem lookupChild_none : (ch : List (GSym × NodeT)) → {key : GSym} →
    lookupChild ch key = none → ∀ kc ∈ ch, kc.1 ≠ key
  | [], _, _, kc, hkc => by cases hkc
  | (k, c) :: rest, key, h, kc, hkc => by
      unfold lookupChild at h
      by_cases hk : k = key
      · rw [if_pos hk] at h
        cases h
      · rw [if_neg hk] at h
        rcases List.mem_cons.mp hkc with he | ht
        · subst he
          exact hk
        · exact lookupChild_none rest h kc ht

theorem sizeOf_children_lt {nS : List GSym} {s e : Nat}
    {sl : Option (List GSym × Nat × Nat)} {ch : List (GSym × NodeT)} :
    sizeOf ch < sizeOf (NodeT.internal nS s e sl ch) := by
  simp

theorem sizeOf_mem_children {ch : List (GSym × NodeT)} {k : GSym} {c : NodeT}
    (h : (k, c) ∈ ch) {nS : List GSym} {s e : Nat}
    {sl : Option (List GSym × Nat × Nat)} :
    sizeOf c < sizeOf (NodeT.internal nS s e sl ch) := by
  have h1 : sizeOf (k, c) ≤ sizeOf ch := le_of_lt (List.sizeOf_lt_of_mem h)
  have h2 : sizeOf c < sizeOf (k, c) := by simp
  have h3 := @sizeOf_children_lt nS s e sl ch
  omega

mutual

/-- `allNodes` is transitively closed: the subtree of a node of the tree is
part of the tree. -/
theorem mem_allNodes_trans : (v : NodeT) → (u : NodeT) → u ∈ allNodes v →
    ∀ x ∈ allNodes u, x ∈ allNodes v
  | .leaf id S s e, u, hu, x, hx => by
      simp only [allNodes, List.mem_singleton] at hu
      subst hu
      exact hx
  | .internal nS s e sl ch, u, hu, x, hx => by
      simp only [allNodes, List.mem_cons] at hu
      rcases hu with rfl | h2
      · exact hx
      · obtain ⟨kc, hkc, hu2⟩ := mem_allNodesList_iff.mp h2
        simp only [allNodes, List.mem_cons]
        exact Or.inr (mem_allNodesList_iff.mpr
          ⟨kc, hkc, mem_allNodes_trans_list ch kc hkc u hu2 x hx⟩)

/-- `mem_allNodes_trans` over a children dict. -/
theorem mem_allNodes_trans_list : (ch : List (GSym × NodeT)) →
    ∀ kc ∈ ch, ∀ u ∈ allNodes kc.2, ∀ x ∈ allNodes u, x ∈ allNodes kc.2
  | [], kc, hkc, _, _, _, _ => by cases hkc
  | (k, c) :: rest, kc, hkc, u, hu, x, hx => by
      rcases List.mem_cons.mp hkc with he | ht
      · subst he
        exact mem_allNodes_trans c u hu x hx
      · exact mem_allNodes_trans_list rest kc ht u hu x hx

end

theorem symAt_map_sym {w : List Nat} {i : Nat} (h : i < w.length) :
    ∃ a, symAt (List.map GSym.sym w) i = GSym.sym a := by
  rw [symAt_eq_getElem _ _ (by simp [h])]
  exact ⟨w[i], by simp⟩

/-- The children scan of `findPath` is the dict lookup
`node.children.get(S[start + matched_len])` followed by the edge
comparison. -/
theorem findPathScan_eq (ch : List (GSym × NodeT)) (key : GSym)
    (self : NodeT) (S : List GSym) (start stop : Nat) :
    findPathScan ch key self S start stop =
      match lookupChild ch key with
      | none => some (self, self.depth, none)
      | some c =>
          if matchEdge c.seq c.start S start self.depth
              (min c.depth (stop - start)) < c.depth
          then some (self, matchEdge c.seq c.start S start self.depth
              (min c.depth (stop - start)), some c)
          else findPath c S start stop := by
  induction ch with
  | nil => rfl
  | cons kc rest ih =>
    obtain ⟨k, c⟩ := kc
    show (if k = key then _ else _) = _
    by_cases hk : k = key
    · rw [if_pos hk]
      show _ = (match (if k = key then some c else lookupChild rest key) with
        | none => _ | some c => _)
      rw [if_pos hk]
    · rw [if_neg hk]
      show findPathScan rest key self S start stop = _
      rw [ih]
      show _ = (match (if k = key then some c else lookupChild rest key) with
        | none => _ | some c => _)
      rw [if_neg hk]

theorem lookupChild_mem_self : (ch : List (GSym × NodeT)) → {a : GSym} →
    {c : NodeT} → lookupChild ch a = some c → (a, c) ∈ ch
  | [], _, _, h => by cases h
  | (k, c0) :: rest, a, c, h => by
      unfold lookupChild at h
      by_cases hk : k = a
      · rw [if_pos hk] at h
        injection h with h
        subst h
        subst hk
        exact List.mem_cons_self _ _
      · rw [if_neg hk] at h
        exact List.mem_cons_of_mem _ (lookupChild_mem_self rest h)

/-- A prefix of the query spelled at the node itself is no longer than the
node's string-depth. -/
theorem spelled_self_le {S : List GSym} {start j : Nat} {v : NodeT}
    (hspan : v.stop ≤ v.seq.length)
    (hpre : seg S start (start + j) <+: v.label)
    (hj : start + j ≤ S.length) : j ≤ v.depth := by
  have hlen := hpre.length_le
  rw [seg_length S start (start + j) hj, label_length v hspan] at hlen
  omega

/-- If a prefix of the query longer than the node's string-depth is spelled
below the child entry `(k0, c0)`, then `k0` is the next query symbol (the
lookup key of `find_path`). -/
theorem spelled_child_key {nS : List GSym} {ns ne : Nat}
    {sl : Option (List GSym × Nat × Nat)} {ch : List (GSym × NodeT)}
    {S : List GSym} {start stop j : Nat} {k0 : GSym} {c0 u : NodeT}
    (hwf : WF (NodeT.internal nS ns ne sl ch)) (hq : stop ≤ S.length)
    (hagree : (S.drop start).take (NodeT.internal nS ns ne sl ch).depth =
      (NodeT.internal nS ns ne sl ch).label)
    (hmem : (k0, c0) ∈ ch) (hu : u ∈ allNodes c0)
    (hpre : seg S start (start + j) <+: u.label)
    (hdj : ne - ns < j) (hj : j ≤ stop - start) :
    k0 = symAt S (start + (ne - ns)) := by
  have hloc := localWF_of_WF hwf
  unfold localWF at hloc
  obtain ⟨hs1, hs2, hnd, hs3⟩ := hloc
  obtain ⟨hc1, hc2, hc3⟩ := hs3 (k0, c0) hmem
  have hc1' : ne - ns < c0.depth := hc1
  have hc3' : k0 = symAt c0.seq (c0.start + (ne - ns)) := hc3
  have hcwf : WF c0 := WF_of_child hwf hmem
  have hcloc := localWF_of_WF hcwf
  have hcspan : c0.start ≤ c0.stop ∧ c0.stop ≤ c0.seq.length := by
    cases c0 with
    | leaf id' S' s' e' => exact hcloc
    | internal S' s' e' sl' ch' => exact ⟨hcloc.1, hcloc.2.1⟩
  have hdd : c0.depth = c0.stop - c0.start := rfl
  have hlabpre : c0.label <+: u.label := label_prefix_of_mem c0 hcwf u hu
  have hseglen : (seg S start (start + j)).length = j := by
    rw [seg_length S start (start + j) (by omega)]
    omega
  have h1 : symAt (seg S start (start + j)) (ne - ns) =
      symAt S (start + (ne - ns)) :=
    symAt_seg S start (start + j) (ne - ns) (by omega) (by omega)
  have h2 : symAt (seg S start (start + j)) (ne - ns) =
      symAt u.label (ne - ns) :=
    prefix_symAt hpre (ne - ns) (by omega)
  have hlablen : c0.label.length = c0.depth := label_length c0 hcspan.2
  have h3 : symAt c0.label (ne - ns) = symAt u.label (ne - ns) :=
    prefix_symAt hlabpre (ne - ns) (by omega)
  have h4 : symAt c0.label (ne - ns) = symAt c0.seq (c0.start + (ne - ns)) := by
    rw [show c0.label = (c0.seq.drop c0.start).take (c0.stop - c0.start)
      from rfl]
    rw [symAt_take _ _ _ (by omega) (by simp; omega)]
    exact symAt_drop _ _ _ (by omega)
  rw [hc3', ← h4, h3, ← h2, h1]

/-- Full behavioral characterization of a successful `find_path`: the
returned node lies on the path, the matched length is bracketed by the
depths, the matched prefix of the query is spelled in the tree and is the
longest spelled prefix, the returned child is non-`None` exactly for a stop
strictly inside its edge (with the mismatch or query exhaustion as cause),
and a `None` child means the query was exhausted or no edge continued it. -/
theorem findPath_spelled : (v : NodeT) → (S : List GSym) →
    (start stop : Nat) → (n : NodeT) → (m : Nat) → (c' : Option NodeT) →
    WF v → stop ≤ S.length → v.depth ≤ stop - start →
    (S.drop start).take v.depth = v.label →
    findPath v S start stop = some (n, m, c') →
    n ∈ allNodes v ∧ v.depth ≤ m ∧ n.depth ≤ m ∧ m ≤ stop - start ∧
    SpelledIn v (seg S start (start + m)) ∧
    (∀ j, j ≤ stop - start → SpelledIn v (seg S start (start + j)) → j ≤ m) ∧
    (∀ c, c' = some c → n.depth < m ∧ m < c.depth ∧
      (∃ k, (k, c) ∈ n.children) ∧
      (m = stop - start ∨ symAt c.seq (c.start + m) ≠ symAt S (start + m))) ∧
    (c' = none → m = n.depth ∨ m = stop - start)
  | .leaf id0 S0 s0 e0, S, start, stop, n, m, c', hwf, hq, hvd, hagree, h => by
    unfold findPath at h
    by_cases hlt : (NodeT.leaf id0 S0 s0 e0).depth < stop - start
    · rw [if_pos hlt] at h
      cases h
    · rw [if_neg hlt] at h
      simp only [Option.some.injEq, Prod.mk.injEq] at h
      obtain ⟨rfl, rfl, rfl⟩ := h
      refine ⟨mem_allNodes_self _, le_refl _, le_refl _, hvd, ?_, ?_, ?_, ?_⟩
      · refine ⟨NodeT.leaf id0 S0 s0 e0, mem_allNodes_self _, ?_⟩
        show seg S start (start + (NodeT.leaf id0 S0 s0 e0).depth) <+:
          (NodeT.leaf id0 S0 s0 e0).label
        unfold seg
        rw [show start + (NodeT.leaf id0 S0 s0 e0).depth - start =
          (NodeT.leaf id0 S0 s0 e0).depth by omega, hagree]
      · intro j hj hsp
        omega
      · intro c hc
        cases hc
      · intro _
        exact Or.inl rfl
  | .internal nS ns ne sl ch, S, start, stop, n, m, c', hwf, hq, hvd, hagree,
      h => by
    unfold findPath at h
    by_cases hlt : (NodeT.internal nS ns ne sl ch).depth < stop - start
    · rw [if_pos hlt] at h
      · replace h : findPathScan ch (symAt S (start + (ne - ns)))
            (NodeT.internal nS ns ne sl ch) S start stop = some (n, m, c') := h
        rw [findPathScan_eq] at h
        have hloc := localWF_of_WF hwf
        unfold localWF at hloc
        obtain ⟨hs1, hs2, hnd, hs3⟩ := hloc
        have hlt' : ne - ns < stop - start := hlt
        have hvlab : (NodeT.internal nS ns ne sl ch).label =
            (nS.drop ns).take (ne - ns) := rfl
        have hagree' : (S.drop start).take (ne - ns) =
            (nS.drop ns).take (ne - ns) := hagree
        cases hlk : lookupChild ch (symAt S (start + (ne - ns))) with
        | none =>
          rw [hlk] at h
          simp only [Option.some.injEq, Prod.mk.injEq] at h
          obtain ⟨rfl, rfl, rfl⟩ := h
          refine ⟨mem_allNodes_self _, le_refl _, le_refl _, by
            show ne - ns ≤ stop - start
            omega, ?_, ?_, ?_, ?_⟩
          · refine ⟨NodeT.internal nS ns ne sl ch, mem_allNodes_self _, ?_⟩
            show seg S start (start + (ne - ns)) <+: _
            unfold seg
            rw [show start + (ne - ns) - start = ne - ns by omega, hagree']
            rw [← hvlab]
          · intro j hj hsp
            obtain ⟨u, hu, hpre⟩ := hsp
            rcases mem_allNodes_cases hu with rfl | ⟨⟨k0, c0⟩, hkc, hu2⟩
            · have := spelled_self_le (by
                show ne ≤ nS.length
                exact hs2) hpre (by omega)
              exact this
            · by_cases hjd : j ≤ ne - ns
              · exact hjd
              · exfalso
                have hkey := spelled_child_key hwf hq hagree hkc hu2 hpre
                  (by omega) hj
                exact lookupChild_none ch hlk (k0, c0) hkc hkey
          · intro c hc
            cases hc
          · intro _
            exact Or.inl rfl
        | some c =>
          rw [hlk] at h
          have hmem : (symAt S (start + (ne - ns)), c) ∈ ch :=
            lookupChild_mem_self ch hlk
          obtain ⟨hc1, hc2, hc3⟩ := hs3 _ hmem
          have hc1' : ne - ns < c.depth := hc1
          have hc3' : symAt S (start + (ne - ns)) =
              symAt c.seq (c.start + (ne - ns)) := hc3
          have hcwf : WF c := WF_of_child hwf hmem
          have hcloc := localWF_of_WF hcwf
          have hcspan : c.start ≤ c.stop ∧ c.stop ≤ c.seq.length := by
            cases c with
            | leaf id' S' s' e' => exact hcloc
            | internal S' s' e' sl' ch' => exact ⟨hcloc.1, hcloc.2.1⟩
          have hdd : c.depth = c.stop - c.start := rfl
          have hagd : c.label.take (ne - ns) = (S.drop start).take (ne - ns) := by
            have hc2' : c.label.take (ne - ns) =
                (nS.drop ns).take (ne - ns) := hc2
            rw [hc2']
            exact hagree'.symm
          have hDd : (NodeT.internal nS ns ne sl ch).depth = ne - ns := rfl
          rw [hDd] at h
          replace h : (if matchEdge c.seq c.start S start (ne - ns)
              (min c.depth (stop - start)) < c.depth
            then some (NodeT.internal nS ns ne sl ch,
              matchEdge c.seq c.start S start (ne - ns)
                (min c.depth (stop - start)), some c)
            else findPath c S start stop) = some (n, m, c') := h
          have hge : ne - ns ≤ matchEdge c.seq c.start S start (ne - ns)
              (min c.depth (stop - start)) := matchEdge_ge _ _ _ _ _ _
          have hle : matchEdge c.seq c.start S start (ne - ns)
              (min c.depth (stop - start)) ≤ min c.depth (stop - start) :=
            matchEdge_le _ _ _ _ _ _ (by omega)
          have hmatch : ∀ i, ne - ns ≤ i →
              i < matchEdge c.seq c.start S start (ne - ns)
                (min c.depth (stop - start)) →
              symAt c.seq (c.start + i) = symAt S (start + i) :=
            fun i h1 h2 => matchEdge_agree _ _ _ _ _ _ i h1 h2
          have hsegm : (S.drop start).take (matchEdge c.seq c.start S start
              (ne - ns) (min c.depth (stop - start))) =
              c.label.take (matchEdge c.seq c.start S start (ne - ns)
                (min c.depth (stop - start))) :=
            hit_child_segment S start stop (ne - ns) _ c hq hcspan.1 hcspan.2
              (by omega) hagd hge (by omega) (by omega) hmatch
          by_cases hmc : matchEdge c.seq c.start S start (ne - ns)
              (min c.depth (stop - start)) < c.depth
          · rw [if_pos hmc] at h
            simp only [Option.some.injEq, Prod.mk.injEq] at h
            obtain ⟨rfl, rfl, rfl⟩ := h
            have hadv : ne - ns + 1 ≤ matchEdge c.seq c.start S start (ne - ns)
                (min c.depth (stop - start)) :=
              matchEdge_advance _ _ _ _ _ _ (by omega) hc3'.symm
            refine ⟨mem_allNodes_self _, hge, hge, by omega, ?_, ?_, ?_, ?_⟩
            · refine ⟨c, ?_, ?_⟩
              · simp only [allNodes, List.mem_cons]
                exact Or.inr (allNodes_subset_of_mem hmem c
                  (mem_allNodes_self c))
              · show seg S start (start + _) <+: _
                unfold seg
                rw [show start + matchEdge c.seq c.start S start (ne - ns)
                  (min c.depth (stop - start)) - start =
                  matchEdge c.seq c.start S start (ne - ns)
                  (min c.depth (stop - start)) by omega, hsegm]
                exact List.take_prefix _ _
            · intro j hj hsp
              obtain ⟨u, hu, hpre⟩ := hsp
              rcases mem_allNodes_cases hu with rfl | ⟨⟨k0, c0⟩, hkc, hu2⟩
              · have := spelled_self_le (by
                  show ne ≤ nS.length
                  exact hs2) hpre (by omega)
                omega
              · by_cases hjm : j ≤ matchEdge c.seq c.start S start (ne - ns)
                  (min c.depth (stop - start))
                · exact hjm
                · exfalso
                  have hkey := spelled_child_key hwf hq hagree hkc hu2 hpre
                    (by omega) hj
                  have hc0c : c0 = c := by
                    apply entry_unique ch hnd (hkey ▸ hkc) hmem
                  rw [hc0c] at hu2
                  rcases Nat.lt_or_ge (matchEdge c.seq c.start S start
                    (ne - ns) (min c.depth (stop - start)))
                    (stop - start) with hms | hms
                  · have hmis := matchEdge_mismatch c.seq c.start S start
                      (ne - ns) (min c.depth (stop - start)) (by omega)
                      (by omega)
                    apply hmis
                    have hlablen : c.label.length = c.depth :=
                      label_length c hcspan.2
                    have hlabpre : c.label <+: u.label :=
                      label_prefix_of_mem c hcwf u hu2
                    have h2 : symAt (seg S start (start + j))
                        (matchEdge c.seq c.start S start (ne - ns)
                          (min c.depth (stop - start))) = symAt u.label
                        (matchEdge c.seq c.start S start (ne - ns)
                          (min c.depth (stop - start))) :=
                      prefix_symAt hpre _ (by
                        rw [seg_length S start (start + j) (by omega)]
                        omega)
                    have h3 : symAt c.label (matchEdge c.seq c.start S start
                        (ne - ns) (min c.depth (stop - start))) =
                        symAt u.label (matchEdge c.seq c.start S start
                        (ne - ns) (min c.depth (stop - start))) :=
                      prefix_symAt hlabpre _ (by omega)
                    have h4 : symAt c.label (matchEdge c.seq c.start S start
                        (ne - ns) (min c.depth (stop - start))) =
                        symAt c.seq (c.start + matchEdge c.seq c.start S
                        start (ne - ns) (min c.depth (stop - start))) := by
                      rw [show c.label =
                        (c.seq.drop c.start).take (c.stop - c.start)
                        from rfl]
                      rw [symAt_take _ _ _ (by omega) (by simp; omega)]
                      exact symAt_drop _ _ _ (by omega)
                    have h1 : symAt (seg S start (start + j))
                        (matchEdge c.seq c.start S start (ne - ns)
                          (min c.depth (stop - start))) =
                        symAt S (start + matchEdge c.seq c.start S start
                          (ne - ns) (min c.depth (stop - start))) :=
                      symAt_seg S start (start + j) _ (by omega) (by omega)
                    rw [← h4, h3, ← h2, h1]
                  · omega
            · intro c2 hc2eq
              injection hc2eq with hc2eq
              subst hc2eq
              refine ⟨by
                show ne - ns < _
                omega, hmc, ⟨symAt S (start + (ne - ns)), hmem⟩, ?_⟩
              rcases Nat.lt_or_ge (matchEdge c.seq c.start S start (ne - ns)
                (min c.depth (stop - start))) (stop - start) with hms | hms
              · exact Or.inr (matchEdge_mismatch c.seq c.start S start
                  (ne - ns) (min c.depth (stop - start)) (by omega) (by omega))
              · exact Or.inl (by omega)
            · intro hn
              cases hn
          · rw [if_neg hmc] at h
            have hmz : matchEdge c.seq c.start S start (ne - ns)
                (min c.depth (stop - start)) = c.depth := by omega
            have hcd_le : c.depth ≤ stop - start := by omega
            have hlablen : c.label.length = c.depth := label_length c hcspan.2
            have hagree_c : (S.drop start).take c.depth = c.label := by
              rw [← hmz, hsegm, hmz, ← hlablen, List.take_length]
            obtain ⟨hA1, hA2, hA3, hA4, hA5, hA6, hA7, hA8⟩ :=
              findPath_spelled c S start stop n m c' hcwf hq hcd_le hagree_c h
            refine ⟨?_, by
              show ne - ns ≤ m
              omega, hA3, hA4, ?_, ?_, hA7, hA8⟩
            · simp only [allNodes, List.mem_cons]
              exact Or.inr (allNodes_subset_of_mem hmem n hA1)
            · obtain ⟨u, hu, hpre⟩ := hA5
              exact ⟨u, by
                simp only [allNodes, List.mem_cons]
                exact Or.inr (allNodes_subset_of_mem hmem u hu), hpre⟩
            · intro j hj hsp
              obtain ⟨u, hu, hpre⟩ := hsp
              rcases mem_allNodes_cases hu with rfl | ⟨⟨k0, c0⟩, hkc, hu2⟩
              · have := spelled_self_le (by
                  show ne ≤ nS.length
                  exact hs2) hpre (by omega)
                omega
              · by_cases hjd : j ≤ ne - ns
                · omega
                · have hkey := spelled_child_key hwf hq hagree hkc hu2 hpre
                    (by omega) hj
                  have hc0c : c0 = c := by
                    apply entry_unique ch hnd (hkey ▸ hkc) hmem
                  subst hc0c
                  exact hA6 j hj ⟨u, hu2, hpre⟩
    · rw [if_neg hlt] at h
      simp only [Option.some.injEq, Prod.mk.injEq] at h
      obtain ⟨rfl, rfl, rfl⟩ := h
      refine ⟨mem_allNodes_self _, le_refl _, le_refl _, hvd, ?_, ?_, ?_, ?_⟩
      · refine ⟨NodeT.internal nS ns ne sl ch, mem_allNodes_self _, ?_⟩
        show seg S start (start + (NodeT.internal nS ns ne sl ch).depth) <+:
          (NodeT.internal nS ns ne sl ch).label
        unfold seg
        rw [show start + (NodeT.internal nS ns ne sl ch).depth - start =
          (NodeT.internal nS ns ne sl ch).depth by omega, hagree]
      · intro j hj hsp
        omega
      · intro c hc
        cases hc
      · intro _
        exact Or.inl rfl
  termination_by v => sizeOf v
  decreasing_by
    exact sizeOf_mem_children hmem

/-- On a query whose symbols are all ordinary (no terminator), `find_path`
never hits the `assert isinstance(node, Internal)` failure: the loop can
only re-enter at a leaf after fully matching the leaf's label, whose last
symbol is a terminator. -/
theorem findPath_success : (v : NodeT) → (S : List GSym) →
    (start stop : Nat) → WF v → LeafTerm v → stop ≤ S.length →
    v.depth ≤ stop - start → (S.drop start).take v.depth = v.label →
    (∀ i, start ≤ i → i < stop → ∃ a, symAt S i = GSym.sym a) →
    (findPath v S start stop).isSome = true
  | .leaf id0 S0 s0 e0, S, start, stop, hwf, hlt, hq, hvd, hagree, hsym => by
      unfold findPath
      by_cases hdlt : (NodeT.leaf id0 S0 s0 e0).depth < stop - start
      · exfalso
        obtain ⟨τ, hτ⟩ := hlt _ (mem_allNodes_self _) rfl
        have hloc := localWF_of_WF hwf
        have hspan : s0 ≤ e0 ∧ e0 ≤ S0.length := hloc
        have hlablen : (NodeT.leaf id0 S0 s0 e0).label.length =
            (NodeT.leaf id0 S0 s0 e0).depth :=
          label_length _ hspan.2
        have hlab_ne : (NodeT.leaf id0 S0 s0 e0).label ≠ [] := by
          intro hnil
          rw [hnil] at hτ
          cases hτ
        rw [getLast?_eq_symAt hlab_ne] at hτ
        injection hτ with hτ
        have hd1 : 1 ≤ (NodeT.leaf id0 S0 s0 e0).depth := by
          rcases Nat.eq_zero_or_pos (NodeT.leaf id0 S0 s0 e0).depth with h0 | h1
          · rw [h0] at hlablen
            exact absurd (List.length_eq_zero.mp hlablen) hlab_ne
          · exact h1
        have hterm : symAt S (start + ((NodeT.leaf id0 S0 s0 e0).depth - 1)) =
            GSym.term τ := by
          rw [← hτ, hlablen, ← hagree]
          rw [symAt_take _ _ _ (by omega) (by simp; omega)]
          exact (symAt_drop S start _ (by omega)).symm
        obtain ⟨a, ha⟩ := hsym (start + ((NodeT.leaf id0 S0 s0 e0).depth - 1))
          (by omega) (by omega)
        rw [hterm] at ha
        cases ha
      · rw [if_neg hdlt]
        rfl
  | .internal nS ns ne sl ch, S, start, stop, hwf, hltm, hq, hvd, hagree,
      hsym => by
      unfold findPath
      by_cases hdlt : (NodeT.internal nS ns ne sl ch).depth < stop - start
      · rw [if_pos hdlt]
        show (findPathScan ch (symAt S (start + (ne - ns)))
          (NodeT.internal nS ns ne sl ch) S start stop).isSome = true
        rw [findPathScan_eq]
        have hloc := localWF_of_WF hwf
        unfold localWF at hloc
        obtain ⟨hs1, hs2, hnd, hs3⟩ := hloc
        have hlt' : ne - ns < stop - start := hdlt
        have hagree' : (S.drop start).take (ne - ns) =
            (nS.drop ns).take (ne - ns) := hagree
        cases hlk : lookupChild ch (symAt S (start + (ne - ns))) with
        | none => rfl
        | some c =>
          have hmem := lookupChild_mem_self ch hlk
          obtain ⟨hc1, hc2, hc3⟩ := hs3 _ hmem
          have hc1' : ne - ns < c.depth := hc1
          have hc3' : symAt S (start + (ne - ns)) =
              symAt c.seq (c.start + (ne - ns)) := hc3
          have hcwf : WF c := WF_of_child hwf hmem
          have hclt : LeafTerm c := LeafTerm_of_child hltm hmem
          have hcloc := localWF_of_WF hcwf
          have hcspan : c.start ≤ c.stop ∧ c.stop ≤ c.seq.length := by
            cases c with
            | leaf id' S' s' e' => exact hcloc
            | internal S' s' e' sl' ch' => exact ⟨hcloc.1, hcloc.2.1⟩
          have hdd : c.depth = c.stop - c.start := rfl
          have hagd : c.label.take (ne - ns) =
              (S.drop start).take (ne - ns) := by
            have hc2' : c.label.take (ne - ns) =
                (nS.drop ns).take (ne - ns) := hc2
            rw [hc2']
            exact hagree'.symm
          show ((if matchEdge c.seq c.start S start (ne - ns)
              (min c.depth (stop - start)) < c.depth
            then some (NodeT.internal nS ns ne sl ch,
              matchEdge c.seq c.start S start (ne - ns)
                (min c.depth (stop - start)), some c)
            else findPath c S start stop)).isSome = true
          have hle : matchEdge c.seq c.start S start (ne - ns)
              (min c.depth (stop - start)) ≤ min c.depth (stop - start) :=
            matchEdge_le _ _ _ _ _ _ (by omega)
          by_cases hmc : matchEdge c.seq c.start S start (ne - ns)
              (min c.depth (stop - start)) < c.depth
          · rw [if_pos hmc]
            rfl
          · rw [if_neg hmc]
            have hge : ne - ns ≤ matchEdge c.seq c.start S start (ne - ns)
                (min c.depth (stop - start)) := matchEdge_ge _ _ _ _ _ _
            have hmz : matchEdge c.seq c.start S start (ne - ns)
                (min c.depth (stop - start)) = c.depth := by omega
            have hcd_le : c.depth ≤ stop - start := by omega
            have hmatch : ∀ i, ne - ns ≤ i →
                i < matchEdge c.seq c.start S start (ne - ns)
                  (min c.depth (stop - start)) →
                symAt c.seq (c.start + i) = symAt S (start + i) :=
              fun i h1 h2 => matchEdge_agree _ _ _ _ _ _ i h1 h2
            have hsegm : (S.drop start).take (matchEdge c.seq c.start S start
                (ne - ns) (min c.depth (stop - start))) =
                c.label.take (matchEdge c.seq c.start S start (ne - ns)
                  (min c.depth (stop - start))) :=
              hit_child_segment S start stop (ne - ns) _ c hq hcspan.1
                hcspan.2 (by omega) hagd hge (by omega) (by omega) hmatch
            have hlablen : c.label.length = c.depth := label_length c hcspan.2
            have hagree_c : (S.drop start).take c.depth = c.label := by
              rw [← hmz, hsegm, hmz, ← hlablen, List.take_length]
            exact findPath_success c S start stop hcwf hclt hq hcd_le
              hagree_c hsym
      · rw [if_neg hdlt]
        rfl
  termination_by v => sizeOf v
  decreasing_by
    exact sizeOf_mem_children hmem

/-- C4: operational behaviour of `Internal.find_path` on a well-formed
subtree whose path-label agrees with the query so far: (i) an exhausted
query returns `(v, v.depth, None)`; (ii) a missing child entry for the next
query symbol returns `(v, v.depth, None)`; (iii) a hit child whose edge
label is left strictly inside returns `(v, matched_len, child)`, and a
fully matched edge continues the search at the child; and every successful
result `(n, m, c)` has `n` on the path, `m` between the depths and the
query length, `m` is the length of the longest prefix of the query spelled
from `v`, and `c` is non-`None` exactly for a stop strictly inside `c`'s
edge, caused by query exhaustion or a mismatch. -/
theorem C4_find_path (v : NodeT) (S : List GSym) (start stop : Nat)
    (hwf : WF v) (hleaf : v.isLeaf = false) (hq : stop ≤ S.length)
    (hvd : v.depth ≤ stop - start)
    (hagree : (S.drop start).take v.depth = v.label) :
    (stop - start ≤ v.depth →
      findPath v S start stop = some (v, v.depth, none)) ∧
    (v.depth < stop - start →
      lookupChild v.children (symAt S (start + v.depth)) = none →
      findPath v S start stop = some (v, v.depth, none)) ∧
    (∀ c, v.depth < stop - start →
      lookupChild v.children (symAt S (start + v.depth)) = some c →
      (matchEdge c.seq c.start S start v.depth (min c.depth (stop - start)) <
          c.depth →
        findPath v S start stop = some (v, matchEdge c.seq c.start S start
          v.depth (min c.depth (stop - start)), some c)) ∧
      (¬ matchEdge c.seq c.start S start v.depth
          (min c.depth (stop - start)) < c.depth →
        findPath v S start stop = findPath c S start stop)) ∧
    (∀ n m c', findPath v S start stop = some (n, m, c') →
      n ∈ allNodes v ∧ v.depth ≤ m ∧ n.depth ≤ m ∧ m ≤ stop - start ∧
      SpelledIn v (seg S start (start + m)) ∧
      (∀ j, j ≤ stop - start → SpelledIn v (seg S start (start + j)) →
        j ≤ m) ∧
      (∀ c, c' = some c → n.depth < m ∧ m < c.depth ∧
        (∃ k, (k, c) ∈ n.children) ∧
        (m = stop - start ∨ symAt c.seq (c.start + m) ≠ symAt S (start + m))) ∧
      (c' = none → m = n.depth ∨ m = stop - start)) := by
  refine ⟨?_, ?_, ?_, ?_⟩
  · intro hle
    unfold findPath
    rw [if_neg (by omega)]
  · intro hdlt hlkn
    cases v with
    | leaf id0 S0 s0 e0 => simp [NodeT.isLeaf] at hleaf
    | internal nS ns ne sl ch =>
      unfold findPath
      rw [if_pos hdlt]
      show findPathScan ch (symAt S (start + (ne - ns)))
        (NodeT.internal nS ns ne sl ch) S start stop = _
      rw [findPathScan_eq]
      have hlkn' : lookupChild ch (symAt S (start + (ne - ns))) = none := hlkn
      rw [hlkn']
  · intro c hdlt hlks
    cases v with
    | leaf id0 S0 s0 e0 => simp [NodeT.isLeaf] at hleaf
    | internal nS ns ne sl ch =>
      have hlks' : lookupChild ch (symAt S (start + (ne - ns))) = some c :=
        hlks
      constructor
      · intro hm
        unfold findPath
        rw [if_pos hdlt]
        show findPathScan ch (symAt S (start + (ne - ns)))
          (NodeT.internal nS ns ne sl ch) S start stop = _
        rw [findPathScan_eq, hlks']
        show (if matchEdge c.seq c.start S start
            (NodeT.internal nS ns ne sl ch).depth
            (min c.depth (stop - start)) < c.depth
          then some (NodeT.internal nS ns ne sl ch,
            matchEdge c.seq c.start S start
              (NodeT.internal nS ns ne sl ch).depth
              (min c.depth (stop - start)), some c)
          else findPath c S start stop) = _
        rw [if_pos hm]
      · intro hm
        have hL : findPath (NodeT.internal nS ns ne sl ch) S start stop =
            findPathScan ch (symAt S (start + (ne - ns)))
              (NodeT.internal nS ns ne sl ch) S start stop := by
          unfold findPath
          rw [if_pos hdlt]
        rw [hL, findPathScan_eq, hlks']
        show (if matchEdge c.seq c.start S start
            (NodeT.internal nS ns ne sl ch).depth
            (min c.depth (stop - start)) < c.depth
          then some (NodeT.internal nS ns ne sl ch,
            matchEdge c.seq c.start S start
              (NodeT.internal nS ns ne sl ch).depth
              (min c.depth (stop - start)), some c)
          else findPath c S start stop) = _
        rw [if_neg hm]
  · intro n m c' h
    exact findPath_spelled v S start stop n m c' hwf hq hvd hagree h

/-- C4 witness: on the tree with one leaf spelling `1 $`, the query `1 2`
descends into the leaf's edge, matches one symbol and stops inside the
edge. -/
theorem C4_find_path_witness :
    findPath (NodeT.internal [GSym.sym 1, GSym.term 0] 0 0 none
        [(GSym.sym 1, NodeT.leaf 7 [GSym.sym 1, GSym.term 0] 0 2)])
        [GSym.sym 1, GSym.sym 2] 0 2 =
      some (NodeT.internal [GSym.sym 1, GSym.term 0] 0 0 none
        [(GSym.sym 1, NodeT.leaf 7 [GSym.sym 1, GSym.term 0] 0 2)], 1,
        some (NodeT.leaf 7 [GSym.sym 1, GSym.term 0] 0 2)) := by
  have hwf : WF (NodeT.internal [GSym.sym 1, GSym.term 0] 0 0 none
      [(GSym.sym 1, NodeT.leaf 7 [GSym.sym 1, GSym.term 0] 0 2)]) := by
    intro u hu
    simp only [allNodes, allNodesList, List.append_nil, List.mem_cons,
      List.mem_nil_iff, or_false, List.mem_singleton] at hu
    rcases hu with rfl | rfl
    · exact ⟨by decide, by decide, by decide, by decide⟩
    · exact ⟨by decide, by decide⟩
  have h := C4_find_path (NodeT.internal [GSym.sym 1, GSym.term 0] 0 0 none
      [(GSym.sym 1, NodeT.leaf 7 [GSym.sym 1, GSym.term 0] 0 2)])
      [GSym.sym 1, GSym.sym 2] 0 2 hwf rfl (by decide) (by decide) rfl
  have h3 := (h.2.2.1 (NodeT.leaf 7 [GSym.sym 1, GSym.term 0] 0 2)
    (by decide) rfl).1 (by decide)
  rw [h3]
  exact rfl

/-- C9: on a tree built from a nonempty dictionary, `find` answers `True`
exactly when `find_all` returns a nonempty list; `find` of the empty query
is `True`, and `find_all` of the empty query lists the positions of all
leaves of the tree (one entry per leaf). -/
theorem C9_find_find_all (d : List (Nat × List Nat)) (w : List Nat)
    (hne : d ≠ []) :
    ∃ t', buildTree d = some t' ∧
      ((find t' w = some true) ↔ ∃ l, findAll t' w = some l ∧ l ≠ []) ∧
      find t' [] = some true ∧
      findAll t' [] = some (getPositions t') ∧
      (getPositions t').length = leafCount t' := by
  obtain ⟨t', hb, hroot, hwf, hlt, hcp, hcount⟩ := buildTree_ok d
  have hcount1 : 1 ≤ leafCount t' := by
    rw [hcount]
    cases d with
    | nil => exact absurd rfl hne
    | cons p rest =>
      simp only [List.map_cons, List.sum_cons]
      omega
  have hposall : ∀ u ∈ allNodes t', getPositions u ≠ [] := by
    intro u hu
    rcases mem_allNodes_cases hu with rfl | ⟨kc, hkc, hu2⟩
    · intro hnil
      rw [leafCount_eq_positions, hnil] at hcount1
      simp at hcount1
    · exact hcp kc hkc u hu2
  obtain ⟨ch, rfl⟩ := hroot
  refine ⟨_, hb, ?_, ?_, ?_, (leafCount_eq_positions _).symm⟩
  · have hagree0 : (((List.map GSym.sym w).drop 0)).take
        (NodeT.internal [] 0 0 none ch).depth =
        (NodeT.internal [] 0 0 none ch).label := rfl
    have hvd0 : (NodeT.internal [] 0 0 none ch).depth ≤
        (List.map GSym.sym w).length - 0 := by
      have h0 : (0 : Nat) ≤ (List.map GSym.sym w).length - 0 := by omega
      exact h0
    have hsym : ∀ i, 0 ≤ i → i < (List.map GSym.sym w).length →
        ∃ a, symAt (List.map GSym.sym w) i = GSym.sym a := by
      intro i _ hi
      exact symAt_map_sym (by simpa using hi)
    have hsucc := findPath_success (NodeT.internal [] 0 0 none ch)
      (List.map GSym.sym w) 0 (List.map GSym.sym w).length hwf hlt
      (le_refl _) hvd0 hagree0 hsym
    cases hfp : findPath (NodeT.internal [] 0 0 none ch)
        (List.map GSym.sym w) 0 (List.map GSym.sym w).length with
    | none => rw [hfp] at hsucc; cases hsucc
    | some r =>
      obtain ⟨n, m, c'⟩ := r
      obtain ⟨hA1, hA2, hA3, hA4, hA5, hA6, hA7, hA8⟩ :=
        findPath_spelled (NodeT.internal [] 0 0 none ch)
          (List.map GSym.sym w) 0 (List.map GSym.sym w).length n m c' hwf
          (le_refl _) hvd0 hagree0 hfp
      have hfind : find (NodeT.internal [] 0 0 none ch) w =
          some (decide (m = (List.map GSym.sym w).length)) := by
        show ((findPath (NodeT.internal [] 0 0 none ch) (List.map GSym.sym w)
            0 (List.map GSym.sym w).length).map
            (fun r => decide (r.2.1 = (List.map GSym.sym w).length))) =
          some (decide (m = (List.map GSym.sym w).length))
        rw [hfp]
        exact rfl
      have hfa : findAll (NodeT.internal [] 0 0 none ch) w =
          if m < (List.map GSym.sym w).length then some []
          else some (getPositions (c'.getD n)) := by
        show (match findPath (NodeT.internal [] 0 0 none ch)
            (List.map GSym.sym w) 0 (List.map GSym.sym w).length with
          | none => none
          | some (node, m, child) =>
              if m < (List.map GSym.sym w).length then some []
              else some (getPositions (child.getD node))) =
          if m < (List.map GSym.sym w).length then some []
          else some (getPositions (c'.getD n))
        rw [hfp]
      constructor
      · intro htrue
        rw [hfind] at htrue
        injection htrue with htrue
        have hm : m = (List.map GSym.sym w).length := of_decide_eq_true htrue
        refine ⟨getPositions (c'.getD n), ?_, ?_⟩
        · rw [hfa, if_neg (by omega)]
        · apply hposall
          cases c' with
          | none => exact hA1
          | some c =>
            obtain ⟨_, _, ⟨k, hkmem⟩, _⟩ := hA7 c rfl
            show c ∈ allNodes _
            apply mem_allNodes_trans _ n hA1
            cases n with
            | leaf id0 S0 s0 e0 => cases hkmem
            | internal nS2 ns2 ne2 sl2 ch2 =>
              simp only [allNodes, List.mem_cons]
              exact Or.inr (allNodes_subset_of_mem hkmem c
                (mem_allNodes_self c))
      · rintro ⟨l, hl, hlne⟩
        rw [hfa] at hl
        by_cases hm : m < (List.map GSym.sym w).length
        · rw [if_pos hm] at hl
          injection hl with hl
          exact absurd hl.symm hlne
        · rw [hfind]
          have hmeq : m = (List.map GSym.sym w).length := by omega
          rw [hmeq]
          simp
  · show find (NodeT.internal [] 0 0 none ch) [] = some true
    rfl
  · show findAll (NodeT.internal [] 0 0 none ch) [] =
      some (getPositions (NodeT.internal [] 0 0 none ch))
    rfl

/-- C9 witness: the tree of the single sequence `5` (one symbol). -/
theorem C9_find_find_all_witness :
    ∃ t', buildTree [(0, [5])] = some t' ∧
      ((find t' [5] = some true) ↔ ∃ l, findAll t' [5] = some l ∧ l ≠ []) ∧
      find t' [] = some true ∧
      findAll t' [] = some (getPositions t') ∧
      (getPositions t').length = leafCount t' :=
  C9_find_find_all [(0, [5])] [5] (by decide)

/-! ### The `V` dict of `common_substrings` -/

theorem vGet_nil (j : Nat) : vGet [] j = vDefault := rfl

theorem vGet_cons (kv : Nat × VEntry) (V : VMap) (j : Nat) :
    vGet (kv :: V) j = if kv.1 = j then kv.2 else vGet V j := by
  unfold vGet
  by_cases h : kv.1 = j
  · simp [List.find?_cons, h]
  · simp [List.find?_cons, h]

theorem vTouch_nil (k : Nat) : vTouch [] k = [(k, vDefault)] := rfl

theorem vTouch_cons (kv : Nat × VEntry) (V : VMap) (k : Nat) :
    vTouch (kv :: V) k = if kv.1 = k then kv :: V else kv :: vTouch V k := by
  by_cases h : kv.1 = k
  · rw [if_pos h]
    unfold vTouch
    rw [List.find?_cons_of_pos _ (by simp [h])]
    rfl
  · rw [if_neg h]
    unfold vTouch
    rw [List.find?_cons_of_neg _ (by simp [h])]
    by_cases h2 : ((V.find? fun kv => decide (kv.1 = k)).isSome) = true
    · rw [if_pos h2, if_pos h2]
    · rw [if_neg h2, if_neg h2]
      rfl

theorem vGet_touch (V : VMap) (k j : Nat) : vGet (vTouch V k) j = vGet V j := by
  induction V with
  | nil =>
    rw [vTouch_nil, vGet_cons]
    by_cases h : k = j
    · rw [if_pos h]
      rfl
    · rw [if_neg h]
  | cons kv V ih =>
    rw [vTouch_cons]
    by_cases h : kv.1 = k
    · rw [if_pos h]
    · rw [if_neg h, vGet_cons, vGet_cons, ih]

theorem vGet_set_self (V : VMap) (k : Nat) (e : VEntry) :
    vGet (vSet V k e) k = e := by
  induction V with
  | nil =>
    rw [show vSet [] k e = [(k, e)] from rfl, vGet_cons]
    simp
  | cons kv V ih =>
    unfold vSet
    by_cases h : kv.1 = k
    · rw [if_pos h, vGet_cons]
      simp
    · rw [if_neg h, vGet_cons, if_neg h, ih]

theorem vGet_set_other (V : VMap) (k : Nat) (e : VEntry) (j : Nat)
    (h : j ≠ k) : vGet (vSet V k e) j = vGet V j := by
  induction V with
  | nil =>
    rw [show vSet [] k e = [(k, e)] from rfl, vGet_cons]
    rw [if_neg (fun hh => h hh.symm)]
  | cons kv V ih =>
    unfold vSet
    by_cases hh : kv.1 = k
    · rw [if_pos hh, vGet_cons, vGet_cons]
      have h1 : ¬ (k, e).1 = j := fun hj => h hj.symm
      have h2 : ¬ kv.1 = j := by
        intro hj
        rw [hj] at hh
        exact h hh
      rw [if_neg h1, if_neg h2]
    · rw [if_neg hh, vGet_cons, vGet_cons, ih]

theorem keys_touch (V : VMap) (k : Nat) :
    (vTouch V k).map Prod.fst = V.map Prod.fst ∨
    (vTouch V k).map Prod.fst = V.map Prod.fst ++ [k] := by
  unfold vTouch
  by_cases h : ((V.find? fun kv => decide (kv.1 = k)).isSome) = true
  · rw [if_pos h]
    exact Or.inl rfl
  · rw [if_neg h]
    right
    simp

theorem mem_keys_touch_self (V : VMap) (k : Nat) :
    k ∈ (vTouch V k).map Prod.fst := by
  unfold vTouch
  by_cases h : ((V.find? fun kv => decide (kv.1 = k)).isSome) = true
  · rw [if_pos h]
    obtain ⟨kv, hkv⟩ := Option.isSome_iff_exists.mp h
    have hmem := List.mem_of_find?_eq_some hkv
    have hp := List.find?_some hkv
    simp at hp
    exact List.mem_map.mpr ⟨kv, hmem, hp⟩
  · rw [if_neg h]
    simp

theorem keys_set (V : VMap) (k : Nat) (e : VEntry) :
    (vSet V k e).map Prod.fst = V.map Prod.fst ∨
    (vSet V k e).map Prod.fst = V.map Prod.fst ++ [k] := by
  induction V with
  | nil =>
    right
    rfl
  | cons kv V ih =>
    unfold vSet
    by_cases h : kv.1 = k
    · rw [if_pos h]
      left
      simp [h]
    · rw [if_neg h]
      rcases ih with h2 | h2
      · left
        simp [h2]
      · right
        simp [h2]

theorem mem_keys_set_of {V : VMap} {k : Nat} {e : VEntry} {j : Nat}
    (h : j ∈ V.map Prod.fst) : j ∈ (vSet V k e).map Prod.fst := by
  rcases keys_set V k e with h2 | h2
  · rw [h2]
    exact h
  · rw [h2]
    exact List.mem_append.mpr (Or.inl h)

theorem mem_keys_touch_of {V : VMap} {k : Nat} {j : Nat}
    (h : j ∈ V.map Prod.fst) : j ∈ (vTouch V k).map Prod.fst := by
  rcases keys_touch V k with h2 | h2
  · rw [h2]
    exact h
  · rw [h2]
    exact List.mem_append.mpr (Or.inl h)

mutual

/-- The id set of a node of the subtree is contained in the id set of the
subtree's root. -/
theorem computeCset_mono : (v : NodeT) → ∀ u ∈ allNodes v,
    computeCset u ⊆ computeCset v
  | .leaf id S s e, u, hu => by
      simp only [allNodes, List.mem_singleton] at hu
      subst hu
      exact Finset.Subset.refl _
  | .internal S s e sl ch, u, hu => by
      simp only [allNodes, List.mem_cons] at hu
      rcases hu with rfl | h2
      · exact Finset.Subset.refl _
      · obtain ⟨kc, hkc, hu2⟩ := mem_allNodesList_iff.mp h2
        exact computeCset_mono_list ch kc hkc u hu2

/-- `computeCset_mono` over a children dict. -/
theorem computeCset_mono_list : (ch : List (GSym × NodeT)) →
    ∀ kc ∈ ch, ∀ u ∈ allNodes kc.2, computeCset u ⊆ computeCsetList ch
  | [], kc, hkc, _, _ => by cases hkc
  | (k, c) :: rest, kc, hkc, u, hu => by
      rcases List.mem_cons.mp hkc with he | ht
      · subst he
        exact (computeCset_mono c u hu).trans Finset.subset_union_left
      · exact (computeCset_mono_list rest kc ht u hu).trans
          Finset.subset_union_right

end

theorem computeCval_le_of_mem {v u : NodeT} (hu : u ∈ allNodes v) :
    computeCval u ≤ computeCval v :=
  Finset.card_le_card (computeCset_mono v u hu)

mutual

/-- Every `(str_id, S, start, end)` entry of `get_positions` is the field
tuple of a leaf of the subtree. -/
theorem mem_positions_leaf : (v : NodeT) →
    ∀ p ∈ getPositions v, NodeT.leaf p.1 p.2.1 p.2.2.1 p.2.2.2 ∈ allNodes v
  | .leaf id S s e, p, hp => by
      simp only [getPositions, List.mem_singleton] at hp
      subst hp
      simp [allNodes]
  | .internal S s e sl ch, p, hp => by
      simp only [allNodes, List.mem_cons]
      exact Or.inr (mem_positions_leaf_list ch p hp)

/-- `mem_positions_leaf` over a children dict. -/
theorem mem_positions_leaf_list : (ch : List (GSym × NodeT)) →
    ∀ p ∈ getPositionsList ch,
      NodeT.leaf p.1 p.2.1 p.2.2.1 p.2.2.2 ∈ allNodesList ch
  | [], p, hp => by cases hp
  | (k, c) :: rest, p, hp => by
      simp only [getPositionsList, List.mem_append] at hp
      simp only [allNodesList, List.mem_append]
      rcases hp with h | h
      · exact Or.inl (mem_positions_leaf c p h)
      · exact Or.inr (mem_positions_leaf_list rest p h)

end

/-- In a well-formed tree, a node's path-label is exactly the segment of
length `depth` of any of its stored leaf positions (the path recorded by
`common_substrings`). -/
theorem label_of_position {t u : NodeT} (hwf : WF t) (hu : u ∈ allNodes t)
    {ido : Nat} {pS : List GSym} {ps pe : Nat}
    (hp : (ido, pS, ps, pe) ∈ getPositions u) :
    u.label = seg pS ps (ps + u.depth) := by
  have hwfu : WF u := fun x hx => hwf x (mem_allNodes_trans t u hu x hx)
  have hleaf : NodeT.leaf ido pS ps pe ∈ allNodes u :=
    mem_positions_leaf u (ido, pS, ps, pe) hp
  have hpre : u.label <+: (NodeT.leaf ido pS ps pe).label :=
    label_prefix_of_mem u hwfu _ hleaf
  have hlloc : localWF (NodeT.leaf ido pS ps pe) :=
    hwfu _ hleaf
  have hlspan : ps ≤ pe ∧ pe ≤ pS.length := hlloc
  have huspan : u.stop ≤ u.seq.length := by
    have hloc := localWF_of_WF hwfu
    cases u with
    | leaf id' S' s' e' => exact hloc.2
    | internal S' s' e' sl' ch' => exact hloc.2.1
  have hulen : u.label.length = u.depth := label_length u huspan
  have hllen : (NodeT.leaf ido pS ps pe).label.length = pe - ps :=
    label_length _ hlspan.2
  have hdle : u.depth ≤ pe - ps := by
    have := hpre.length_le
    rw [hulen, hllen] at this
    exact this
  have heq : u.label = ((NodeT.leaf ido pS ps pe).label).take u.depth := by
    have h1 := List.prefix_iff_eq_take.mp hpre
    rw [h1, hulen]
  rw [heq]
  show ((pS.drop ps).take (pe - ps)).take u.depth = seg pS ps (ps + u.depth)
  rw [take_take_eq hdle]
  unfold seg
  rw [show ps + u.depth - ps = u.depth by omega]

theorem le_natListMax {l : List Nat} {j : Nat} (h : j ∈ l) :
    j ≤ natListMax l := by
  unfold natListMax
  induction l with
  | nil => cases h
  | cons a l ih =>
    rcases List.mem_cons.mp h with rfl | h2
    · exact le_max_left _ _
    · exact le_trans (ih h2) (le_max_right _ _)

theorem natListMax_mem (l : List Nat) :
    natListMax l = 0 ∨ natListMax l ∈ l := by
  unfold natListMax
  induction l with
  | nil => exact Or.inl rfl
  | cons a l ih =>
    show max a (l.foldr max 0) = 0 ∨ max a (l.foldr max 0) ∈ a :: l
    rcases le_total a (l.foldr max 0) with h | h
    · rw [max_eq_right h]
      rcases ih with h2 | h2
      · rw [h2]
        rw [h2] at h
        left
        omega
      · exact Or.inr (List.mem_cons_of_mem _ h2)
    · rw [max_eq_left h]
      exact Or.inr (List.mem_cons_self _ _)

theorem foldr_max_init (A : List Nat) (c : Nat) :
    A.foldr max c = max (A.foldr max 0) c := by
  induction A with
  | nil => simp
  | cons a A ih =>
    show max a (A.foldr max c) = max (max a (A.foldr max 0)) c
    rw [ih]
    omega

theorem natListMax_append_single (A : List Nat) (x : Nat) :
    natListMax (A ++ [x]) = max (natListMax A) x := by
  unfold natListMax
  rw [List.foldr_append]
  show A.foldr max (max x 0) = _
  rw [foldr_max_init]
  omega

theorem le_vKeysMax {V : VMap} {j : Nat} (h : j ∈ V.map Prod.fst) :
    j ≤ vKeysMax V :=
  le_natListMax h

theorem vKeysMax_mem (V : VMap) :
    vKeysMax V = 0 ∨ vKeysMax V ∈ V.map Prod.fst :=
  natListMax_mem _

/-- One visit of `Internal.common_substrings`, with the `V`-dict update
spelled out (`p` is the head of `get_positions`). -/
theorem csVisit_step (S : List GSym) (s e : Nat)
    (sl : Option (List GSym × Nat × Nat)) (ch : List (GSym × NodeT))
    (V : VMap) (p : Nat × List GSym × Nat × Nat)
    (rest : List (Nat × List GSym × Nat × Nat))
    (hgp : getPositions (NodeT.internal S s e sl ch) = p :: rest) :
    csVisit (NodeT.internal S s e sl ch) V = csVisitList ch
      (if (e - s) > (vGet (vTouch V (computeCval (NodeT.internal S s e sl ch)))
          (computeCval (NodeT.internal S s e sl ch))).1
       then vSet (vTouch V (computeCval (NodeT.internal S s e sl ch)))
          (computeCval (NodeT.internal S s e sl ch))
          (e - s, some p.1, some (p.2.1, p.2.2.1, p.2.2.1 + (e - s)))
       else vTouch V (computeCval (NodeT.internal S s e sl ch))) := by
  obtain ⟨id0, pS, ps, pe⟩ := p
  simp only [csVisit]
  rw [hgp]

mutual

/-- After visiting a subtree (whose nodes all have stored positions), the
stored depth for key `j` is the old one joined with the best depth of an
internal node of the subtree with `C = j`. -/
theorem csVisit_val : (v : NodeT) → (V : VMap) →
    (∀ u ∈ allNodes v, getPositions u ≠ []) →
    ∀ j, (vGet (csVisit v V) j).1 = max (vGet V j).1 (bestDepth v j)
  | .leaf id0 S0 s0 e0, V, hpos, j => by
      show (vGet V j).1 =
        max (vGet V j).1 (bestDepth (NodeT.leaf id0 S0 s0 e0) j)
      rw [show bestDepth (NodeT.leaf id0 S0 s0 e0) j = 0 from rfl]
      omega
  | .internal S s e sl ch, V, hpos, j => by
      have hpos0 := hpos _ (mem_allNodes_self (NodeT.internal S s e sl ch))
      cases hgp : getPositions (NodeT.internal S s e sl ch) with
      | nil => exact absurd hgp hpos0
      | cons p rest =>
        have hposch : ∀ kc ∈ ch, ∀ u ∈ allNodes kc.2,
            getPositions u ≠ [] := by
          intro kc hkc u hu
          apply hpos
          simp only [allNodes, List.mem_cons]
          exact Or.inr (mem_allNodesList_iff.mpr ⟨kc, hkc, hu⟩)
        rw [csVisit_step S s e sl ch V p rest hgp]
        rw [csVisit_val_list ch _ hposch j]
        rw [show bestDepth (NodeT.internal S s e sl ch) j =
          max (if computeCval (NodeT.internal S s e sl ch) = j then e - s
            else 0) (bestDepthList ch j) from rfl]
        by_cases hup : (e - s) >
            (vGet (vTouch V (computeCval (NodeT.internal S s e sl ch)))
              (computeCval (NodeT.internal S s e sl ch))).1
        · rw [if_pos hup]
          by_cases hj : computeCval (NodeT.internal S s e sl ch) = j
          · subst hj
            rw [vGet_set_self]
            rw [vGet_touch] at hup
            rw [show ((e - s, some p.1, some (p.2.1, p.2.2.1,
              p.2.2.1 + (e - s))) : VEntry).1 = e - s from rfl]
            rw [if_pos rfl]
            omega
          · rw [if_neg hj]
            rw [vGet_set_other _ _ _ j (fun h => hj h.symm)]
            rw [vGet_touch]
            omega
        · rw [if_neg hup]
          rw [vGet_touch]
          rw [vGet_touch] at hup
          by_cases hj : computeCval (NodeT.internal S s e sl ch) = j
          · subst hj
            rw [if_pos rfl]
            omega
          · rw [if_neg hj]
            omega

/-- `csVisit_val` over a children dict. -/
theorem csVisit_val_list : (ch : List (GSym × NodeT)) → (V : VMap) →
    (∀ kc ∈ ch, ∀ u ∈ allNodes kc.2, getPositions u ≠ []) →
    ∀ j, (vGet (csVisitList ch V) j).1 =
      max (vGet V j).1 (bestDepthList ch j)
  | [], V, _, j => by
      show (vGet V j).1 = max (vGet V j).1 (bestDepthList [] j)
      rw [show bestDepthList [] j = 0 from rfl]
      omega
  | (k, c) :: rest, V, hpos, j => by
      show (vGet (csVisitList rest (csVisit c V)) j).1 = _
      rw [csVisit_val_list rest (csVisit c V)
        (fun kc hkc => hpos kc (List.mem_cons_of_mem _ hkc)) j]
      rw [csVisit_val c V (hpos (k, c) (List.mem_cons_self _ _)) j]
      rw [show bestDepthList ((k, c) :: rest) j =
        max (bestDepth c j) (bestDepthList rest j) from rfl]
      omega

end

mutual

/-- Visiting a subtree of `t0` keeps every `V` entry well-witnessed by a
node of `t0`. -/
theorem csVisit_wit : (v : NodeT) → (V : VMap) → (t0 : NodeT) →
    (∀ u ∈ allNodes v, u ∈ allNodes t0) →
    (∀ u ∈ allNodes v, getPositions u ≠ []) →
    (∀ j, EntryWit t0 j (vGet V j)) →
    ∀ j, EntryWit t0 j (vGet (csVisit v V) j)
  | .leaf id0 S0 s0 e0, V, t0, hsub, hpos, hV, j => hV j
  | .internal S s e sl ch, V, t0, hsub, hpos, hV, j => by
      have hpos0 := hpos _ (mem_allNodes_self (NodeT.internal S s e sl ch))
      cases hgp : getPositions (NodeT.internal S s e sl ch) with
      | nil => exact absurd hgp hpos0
      | cons p rest =>
        have hposch : ∀ kc ∈ ch, ∀ u ∈ allNodes kc.2,
            getPositions u ≠ [] := by
          intro kc hkc u hu
          apply hpos
          simp only [allNodes, List.mem_cons]
          exact Or.inr (mem_allNodesList_iff.mpr ⟨kc, hkc, hu⟩)
        have hsubch : ∀ kc ∈ ch, ∀ u ∈ allNodes kc.2, u ∈ allNodes t0 := by
          intro kc hkc u hu
          apply hsub
          simp only [allNodes, List.mem_cons]
          exact Or.inr (mem_allNodesList_iff.mpr ⟨kc, hkc, hu⟩)
        rw [csVisit_step S s e sl ch V p rest hgp]
        apply csVisit_wit_list ch _ t0 hsubch hposch
        intro i
        by_cases hup : (e - s) >
            (vGet (vTouch V (computeCval (NodeT.internal S s e sl ch)))
              (computeCval (NodeT.internal S s e sl ch))).1
        · rw [if_pos hup]
          by_cases hi : computeCval (NodeT.internal S s e sl ch) = i
          · subst hi
            rw [vGet_set_self]
            constructor
            · intro _
              refine ⟨NodeT.internal S s e sl ch,
                hsub _ (mem_allNodes_self _), rfl, rfl, rfl,
                p.1, p.2.1, p.2.2.1, p.2.2.2, rfl, rfl, ?_⟩
              rw [hgp]
              exact List.mem_cons_self _ _
            · intro _
              show 0 < e - s
              rw [vGet_touch] at hup
              omega
          · rw [vGet_set_other _ _ _ i (fun h => hi h.symm), vGet_touch]
            exact hV i
        · rw [if_neg hup, vGet_touch]
          exact hV i

/-- `csVisit_wit` over a children dict. -/
theorem csVisit_wit_list : (ch : List (GSym × NodeT)) → (V : VMap) →
    (t0 : NodeT) →
    (∀ kc ∈ ch, ∀ u ∈ allNodes kc.2, u ∈ allNodes t0) →
    (∀ kc ∈ ch, ∀ u ∈ allNodes kc.2, getPositions u ≠ []) →
    (∀ j, EntryWit t0 j (vGet V j)) →
    ∀ j, EntryWit t0 j (vGet (csVisitList ch V) j)
  | [], V, t0, _, _, hV, j => hV j
  | (k, c) :: rest, V, t0, hsub, hpos, hV, j => by
      show EntryWit t0 j (vGet (csVisitList rest (csVisit c V)) j)
      exact csVisit_wit_list rest (csVisit c V) t0
        (fun kc hkc => hsub kc (List.mem_cons_of_mem _ hkc))
        (fun kc hkc => hpos kc (List.mem_cons_of_mem _ hkc))
        (fun i => csVisit_wit c V t0
          (hsub (k, c) (List.mem_cons_self _ _))
          (hpos (k, c) (List.mem_cons_self _ _)) hV i) j

end

/-- `csVisit_step` when the subtree has no stored positions: only the
`defaultdict` touch happens. -/
theorem csVisit_step_nil (S : List GSym) (s e : Nat)
    (sl : Option (List GSym × Nat × Nat)) (ch : List (GSym × NodeT))
    (V : VMap)
    (hgp : getPositions (NodeT.internal S s e sl ch) = []) :
    csVisit (NodeT.internal S s e sl ch) V = csVisitList ch
      (vTouch V (computeCval (NodeT.internal S s e sl ch))) := by
  simp only [csVisit]
  rw [hgp]
  split
  · rfl
  · rfl

theorem mem_keys_touch_inv {V : VMap} {k kk : Nat}
    (h : kk ∈ (vTouch V k).map Prod.fst) :
    kk ∈ V.map Prod.fst ∨ kk = k := by
  rcases keys_touch V k with h2 | h2
  · rw [h2] at h
    exact Or.inl h
  · rw [h2] at h
    rcases List.mem_append.mp h with h3 | h3
    · exact Or.inl h3
    · exact Or.inr (List.mem_singleton.mp h3)

theorem mem_keys_set_inv {V : VMap} {k : Nat} {e : VEntry} {kk : Nat}
    (h : kk ∈ (vSet V k e).map Prod.fst) :
    kk ∈ V.map Prod.fst ∨ kk = k := by
  rcases keys_set V k e with h2 | h2
  · rw [h2] at h
    exact Or.inl h
  · rw [h2] at h
    rcases List.mem_append.mp h with h3 | h3
    · exact Or.inl h3
    · exact Or.inr (List.mem_singleton.mp h3)

mutual

/-- Keys of the `V` dict only accumulate during the traversal. -/
theorem csVisit_keys_mono : (v : NodeT) → (V : VMap) → {j : Nat} →
    j ∈ V.map Prod.fst → j ∈ (csVisit v V).map Prod.fst
  | .leaf id0 S0 s0 e0, V, j, h => h
  | .internal S s e sl ch, V, j, h => by
      cases hgp : getPositions (NodeT.internal S s e sl ch) with
      | nil =>
        rw [csVisit_step_nil S s e sl ch V hgp]
        exact csVisit_keys_mono_list ch _ (mem_keys_touch_of h)
      | cons p rest =>
        rw [csVisit_step S s e sl ch V p rest hgp]
        apply csVisit_keys_mono_list
        by_cases hup : (e - s) >
            (vGet (vTouch V (computeCval (NodeT.internal S s e sl ch)))
              (computeCval (NodeT.internal S s e sl ch))).1
        · rw [if_pos hup]
          exact mem_keys_set_of (mem_keys_touch_of h)
        · rw [if_neg hup]
          exact mem_keys_touch_of h

/-- `csVisit_keys_mono` over a children dict. -/
theorem csVisit_keys_mono_list : (ch : List (GSym × NodeT)) → (V : VMap) →
    {j : Nat} → j ∈ V.map Prod.fst → j ∈ (csVisitList ch V).map Prod.fst
  | [], V, j, h => h
  | (k, c) :: rest, V, j, h => by
      show j ∈ (csVisitList rest (csVisit c V)).map Prod.fst
      exact csVisit_keys_mono_list rest _ (csVisit_keys_mono c V h)

end

mutual

/-- After the traversal, the `C` value of every internal node of the
subtree is a key of the `V` dict. -/
theorem csVisit_keys_covers : (v : NodeT) → (V : VMap) →
    ∀ u ∈ allNodes v, u.isLeaf = false →
      computeCval u ∈ (csVisit v V).map Prod.fst
  | .leaf id0 S0 s0 e0, V, u, hu, hul => by
      simp only [allNodes, List.mem_singleton] at hu
      subst hu
      simp [NodeT.isLeaf] at hul
  | .internal S s e sl ch, V, u, hu, hul => by
      simp only [allNodes, List.mem_cons] at hu
      cases hgp : getPositions (NodeT.internal S s e sl ch) with
      | nil =>
        rw [csVisit_step_nil S s e sl ch V hgp]
        rcases hu with rfl | h2
        · exact csVisit_keys_mono_list ch _ (mem_keys_touch_self V _)
        · obtain ⟨kc, hkc, hu2⟩ := mem_allNodesList_iff.mp h2
          exact csVisit_keys_covers_list ch _ kc hkc u hu2 hul
      | cons p rest =>
        rw [csVisit_step S s e sl ch V p rest hgp]
        rcases hu with rfl | h2
        · apply csVisit_keys_mono_list
          by_cases hup : (e - s) >
              (vGet (vTouch V (computeCval (NodeT.internal S s e sl ch)))
                (computeCval (NodeT.internal S s e sl ch))).1
          · rw [if_pos hup]
            exact mem_keys_set_of (mem_keys_touch_self V _)
          · rw [if_neg hup]
            exact mem_keys_touch_self V _
        · obtain ⟨kc, hkc, hu2⟩ := mem_allNodesList_iff.mp h2
          exact csVisit_keys_covers_list ch _ kc hkc u hu2 hul

/-- `csVisit_keys_covers` over a children dict. -/
theorem csVisit_keys_covers_list : (ch : List (GSym × NodeT)) → (V : VMap) →
    ∀ kc ∈ ch, ∀ u ∈ allNodes kc.2, u.isLeaf = false →
      computeCval u ∈ (csVisitList ch V).map Prod.fst
  | [], V, kc, hkc, _, _, _ => by cases hkc
  | (k, c) :: rest, V, kc, hkc, u, hu, hul => by
      show computeCval u ∈ (csVisitList rest (csVisit c V)).map Prod.fst
      rcases List.mem_cons.mp hkc with he | ht
      · subst he
        exact csVisit_keys_mono_list rest _
          (csVisit_keys_covers c V u hu hul)
      · exact csVisit_keys_covers_list rest _ kc ht u hu hul

end

mutual

/-- Every key of the `V` dict after the traversal is an old key or the `C`
value of an internal node of the subtree. -/
theorem csVisit_keys_src : (v : NodeT) → (V : VMap) →
    ∀ kk ∈ (csVisit v V).map Prod.fst, kk ∈ V.map Prod.fst ∨
      ∃ u ∈ allNodes v, u.isLeaf = false ∧ computeCval u = kk
  | .leaf id0 S0 s0 e0, V, kk, h => Or.inl h
  | .internal S s e sl ch, V, kk, h => by
      have hself : kk = computeCval (NodeT.internal S s e sl ch) →
          ∃ u ∈ allNodes (NodeT.internal S s e sl ch),
            u.isLeaf = false ∧ computeCval u = kk := by
        intro he
        exact ⟨NodeT.internal S s e sl ch, mem_allNodes_self _, rfl, he.symm⟩
      have hlift : (∃ u ∈ allNodesList ch, u.isLeaf = false ∧
          computeCval u = kk) →
          ∃ u ∈ allNodes (NodeT.internal S s e sl ch),
            u.isLeaf = false ∧ computeCval u = kk := by
        rintro ⟨u, hu, h1, h2⟩
        refine ⟨u, ?_, h1, h2⟩
        simp only [allNodes, List.mem_cons]
        exact Or.inr hu
      cases hgp : getPositions (NodeT.internal S s e sl ch) with
      | nil =>
        rw [csVisit_step_nil S s e sl ch V hgp] at h
        rcases csVisit_keys_src_list ch _ kk h with h2 | h2
        · rcases mem_keys_touch_inv h2 with h3 | h3
          · exact Or.inl h3
          · exact Or.inr (hself h3)
        · exact Or.inr (hlift h2)
      | cons p rest =>
        rw [csVisit_step S s e sl ch V p rest hgp] at h
        rcases csVisit_keys_src_list ch _ kk h with h2 | h2
        · by_cases hup : (e - s) >
              (vGet (vTouch V (computeCval (NodeT.internal S s e sl ch)))
                (computeCval (NodeT.internal S s e sl ch))).1
          · rw [if_pos hup] at h2
            rcases mem_keys_set_inv h2 with h3 | h3
            · rcases mem_keys_touch_inv h3 with h4 | h4
              · exact Or.inl h4
              · exact Or.inr (hself h4)
            · exact Or.inr (hself h3)
          · rw [if_neg hup] at h2
            rcases mem_keys_touch_inv h2 with h3 | h3
            · exact Or.inl h3
            · exact Or.inr (hself h3)
        · exact Or.inr (hlift h2)

/-- `csVisit_keys_src` over a children dict. -/
theorem csVisit_keys_src_list : (ch : List (GSym × NodeT)) → (V : VMap) →
    ∀ kk ∈ (csVisitList ch V).map Prod.fst, kk ∈ V.map Prod.fst ∨
      ∃ u ∈ allNodesList ch, u.isLeaf = false ∧ computeCval u = kk
  | [], V, kk, h => Or.inl h
  | (k, c) :: rest, V, kk, h => by
      have h0 : kk ∈ (csVisitList rest (csVisit c V)).map Prod.fst := h
      rcases csVisit_keys_src_list rest _ kk h0 with h2 | h2
      · rcases csVisit_keys_src c V kk h2 with h3 | h3
        · exact Or.inl h3
        · obtain ⟨u, hu, h4, h5⟩ := h3
          refine Or.inr ⟨u, ?_, h4, h5⟩
          simp only [allNodesList, List.mem_append]
          exact Or.inl hu
      · obtain ⟨u, hu, h4, h5⟩ := h2
        refine Or.inr ⟨u, ?_, h4, h5⟩
        simp only [allNodesList, List.mem_append]
        exact Or.inr hu

end

/-- The row loop `for k in range(max(V.keys()), 1, -1)`: it emits the keys
`k, k-1, …, 2` in that order, each row's length is the running maximum of
the stored depths from its key up, and each row's path is the incoming
running path or the stored path of a key above it with exactly that
stored depth. -/
theorem rowsLoop_spec (V : VMap) : (k : Nat) → (maxLen : Nat) →
    (maxPath : Option Span) →
    ((rowsLoop V k maxLen maxPath).map Prod.fst =
      (List.range' 2 (k - 1)).reverse) ∧
    ∀ r ∈ rowsLoop V k maxLen maxPath,
      (r.2.1 = max (natListMax ((List.range' r.1 (k + 1 - r.1)).map
        (fun j => (vGet V j).1))) maxLen) ∧
      ((r.2.2 = maxPath ∧ r.2.1 = maxLen) ∨
        ∃ j, r.1 ≤ j ∧ j ≤ k ∧ (vGet V j).2.2 = r.2.2 ∧
          (vGet V j).1 = r.2.1)
  | 0, maxLen, maxPath => ⟨rfl, fun r hr => absurd hr (List.not_mem_nil r)⟩
  | 1, maxLen, maxPath => ⟨rfl, fun r hr => absurd hr (List.not_mem_nil r)⟩
  | m + 2, maxLen, maxPath => by
      by_cases hup : (vGet V (m + 2)).1 > maxLen
      · have hstep : rowsLoop V (m + 2) maxLen maxPath =
            (m + 2, (vGet V (m + 2)).1, (vGet V (m + 2)).2.2) ::
              rowsLoop V (m + 1) (vGet V (m + 2)).1 (vGet V (m + 2)).2.2 := by
          simp only [rowsLoop]
          rw [if_pos hup]
        obtain ⟨ihmap, ihmem⟩ := rowsLoop_spec V (m + 1) (vGet V (m + 2)).1
          (vGet V (m + 2)).2.2
        rw [hstep]
        constructor
        · show (m + 2) :: (rowsLoop V (m + 1) _ _).map Prod.fst = _
          rw [ihmap]
          rw [show (m + 1) - 1 = m by omega, show (m + 2) - 1 = m + 1
            by omega]
          rw [List.range'_concat 2 m, show 2 + 1 * m = m + 2 by omega]
          simp
        · intro r hr
          rcases List.mem_cons.mp hr with he | ht
          · subst he
            constructor
            · show (vGet V (m + 2)).1 = _
              rw [show (m + 2) + 1 - (m + 2) = 1 by omega]
              rw [show List.range' (m + 2) 1 = [m + 2] from rfl]
              show (vGet V (m + 2)).1 = max (max (vGet V (m + 2)).1 0) maxLen
              omega
            · exact Or.inr ⟨m + 2, le_refl _, le_refl _, rfl, rfl⟩
          · obtain ⟨ih1, ih2⟩ := ihmem r ht
            have hrange : 2 ≤ r.1 ∧ r.1 ≤ m + 1 := by
              have h1 : r.1 ∈ (rowsLoop V (m + 1) (vGet V (m + 2)).1
                  (vGet V (m + 2)).2.2).map Prod.fst :=
                List.mem_map.mpr ⟨r, ht, rfl⟩
              rw [ihmap, List.mem_reverse] at h1
              have h2 := List.mem_range'_1.mp h1
              omega
            have hsplit : List.range' r.1 ((m + 2) + 1 - r.1) =
                List.range' r.1 ((m + 1) + 1 - r.1) ++ [m + 2] := by
              rw [show (m + 2) + 1 - r.1 = ((m + 1) + 1 - r.1) + 1 by omega]
              rw [List.range'_concat]
              rw [show r.1 + 1 * ((m + 1) + 1 - r.1) = m + 2 by omega]
            constructor
            · rw [ih1, hsplit, List.map_append]
              rw [show List.map (fun j => (vGet V j).1) [m + 2] =
                [(vGet V (m + 2)).1] from rfl]
              rw [natListMax_append_single]
              omega
            · rcases ih2 with ⟨hp, hv⟩ | ⟨j, hj1, hj2, hj3, hj4⟩
              · exact Or.inr ⟨m + 2, by omega, le_refl _, hp.symm, hv.symm⟩
              · exact Or.inr ⟨j, hj1, by omega, hj3, hj4⟩
      · have hstep : rowsLoop V (m + 2) maxLen maxPath =
            (m + 2, maxLen, maxPath) ::
              rowsLoop V (m + 1) maxLen maxPath := by
          simp only [rowsLoop]
          rw [if_neg hup]
        obtain ⟨ihmap, ihmem⟩ := rowsLoop_spec V (m + 1) maxLen maxPath
        rw [hstep]
        constructor
        · show (m + 2) :: (rowsLoop V (m + 1) _ _).map Prod.fst = _
          rw [ihmap]
          rw [show (m + 1) - 1 = m by omega, show (m + 2) - 1 = m + 1
            by omega]
          rw [List.range'_concat 2 m, show 2 + 1 * m = m + 2 by omega]
          simp
        · intro r hr
          rcases List.mem_cons.mp hr with he | ht
          · subst he
            constructor
            · show maxLen = _
              rw [show (m + 2) + 1 - (m + 2) = 1 by omega]
              rw [show List.range' (m + 2) 1 = [m + 2] from rfl]
              show maxLen = max (max (vGet V (m + 2)).1 0) maxLen
              omega
            · exact Or.inl ⟨rfl, rfl⟩
          · obtain ⟨ih1, ih2⟩ := ihmem r ht
            have hrange : 2 ≤ r.1 ∧ r.1 ≤ m + 1 := by
              have h1 : r.1 ∈ (rowsLoop V (m + 1) maxLen
                  maxPath).map Prod.fst :=
                List.mem_map.mpr ⟨r, ht, rfl⟩
              rw [ihmap, List.mem_reverse] at h1
              have h2 := List.mem_range'_1.mp h1
              omega
            have hsplit : List.range' r.1 ((m + 2) + 1 - r.1) =
                List.range' r.1 ((m + 1) + 1 - r.1) ++ [m + 2] := by
              rw [show (m + 2) + 1 - r.1 = ((m + 1) + 1 - r.1) + 1 by omega]
              rw [List.range'_concat]
              rw [show r.1 + 1 * ((m + 1) + 1 - r.1) = m + 2 by omega]
            constructor
            · rw [ih1, hsplit, List.map_append]
              rw [show List.map (fun j => (vGet V j).1) [m + 2] =
                [(vGet V (m + 2)).1] from rfl]
              rw [natListMax_append_single]
              have hv2 : (vGet V (m + 2)).1 ≤ maxLen := by omega
              generalize natListMax (List.map (fun j => (vGet V j).1)
                (List.range' r.1 ((m + 1) + 1 - r.1))) = X
              omega
            · rcases ih2 with ⟨hp, hv⟩ | ⟨j, hj1, hj2, hj3, hj4⟩
              · exact Or.inl ⟨hp, hv⟩
              · exact Or.inr ⟨j, hj1, by omega, hj3, hj4⟩

theorem insertRow_perm (r : Row) (l : List Row) :
    List.Perm (insertRow r l) (r :: l) := by
  induction l with
  | nil => exact List.Perm.refl _
  | cons x xs ih =>
    unfold insertRow
    by_cases h : r.1 ≤ x.1
    · rw [if_pos h]
    · rw [if_neg h]
      exact (ih.cons x).trans (List.Perm.swap r x xs)

theorem sortRows_perm (l : List Row) : List.Perm (sortRows l) l := by
  induction l with
  | nil => exact List.Perm.refl _
  | cons x xs ih =>
    show List.Perm (insertRow x (sortRows xs)) (x :: xs)
    exact (insertRow_perm x (sortRows xs)).trans (ih.cons x)

theorem insertRow_sorted (r : Row) (l : List Row)
    (h : List.Pairwise (fun a b : Row => a.1 ≤ b.1) l) :
    List.Pairwise (fun a b : Row => a.1 ≤ b.1) (insertRow r l) := by
  induction l with
  | nil => exact List.pairwise_singleton _ _
  | cons x xs ih =>
    unfold insertRow
    rcases List.pairwise_cons.mp h with ⟨hx, hxs⟩
    by_cases hle : r.1 ≤ x.1
    · rw [if_pos hle]
      refine List.pairwise_cons.mpr ⟨?_, h⟩
      intro b hb
      rcases List.mem_cons.mp hb with rfl | hb2
      · exact hle
      · exact le_trans hle (hx b hb2)
    · rw [if_neg hle]
      refine List.pairwise_cons.mpr ⟨?_, ih hxs⟩
      intro b hb
      have hb2 := (insertRow_perm r xs).mem_iff.mp hb
      rcases List.mem_cons.mp hb2 with rfl | hb3
      · omega
      · exact hx b hb3

theorem sortRows_sorted (l : List Row) :
    List.Pairwise (fun a b : Row => a.1 ≤ b.1) (sortRows l) := by
  induction l with
  | nil => exact List.Pairwise.nil
  | cons x xs ih => exact insertRow_sorted x (sortRows xs) ih

/-- C5 (amended): on a naive-built tree whose root's `C` value `K` (the
number of distinct sequence ids) is at least 2, `common_substrings` returns
one row per `k` from 2 to `K`, sorted ascending by `k`; each row's length
`l(k)` is the maximum over `j ≥ k` of the greatest string-depth of an
internal node whose subtree holds exactly `j` distinct ids; the path is
`None` exactly when `l(k) = 0`, and a non-`None` path spells the label of
an internal node of depth `l(k)` common to at least `k` sequences. -/
theorem C5_common_substrings (d : List (Nat × List Nat)) (t' : NodeT)
    (hb : buildTree d = some t') (hK : 2 ≤ computeCval t') :
    List.Perm ((commonSubstrings t').map Prod.fst)
      (List.range' 2 (computeCval t' - 1)) ∧
    List.Pairwise (fun a b => a ≤ b) ((commonSubstrings t').map Prod.fst) ∧
    ∀ r ∈ commonSubstrings t',
      (r.2.1 = natListMax ((List.range' r.1 (computeCval t' + 1 - r.1)).map
        (bestDepth t'))) ∧
      (0 < r.2.1 ↔ r.2.2 ≠ none) ∧
      ∀ sp, r.2.2 = some sp →
        ∃ u ∈ allNodes t', u.isLeaf = false ∧ r.1 ≤ computeCval u ∧
          u.depth = r.2.1 ∧ sp = (sp.1, sp.2.1, sp.2.1 + r.2.1) ∧
          seg sp.1 sp.2.1 (sp.2.1 + r.2.1) = u.label := by
  obtain ⟨t2, hb2, hroot, hwf, hlt, hcp, hcount⟩ := buildTree_ok d
  rw [hb] at hb2
  injection hb2 with hb2
  subst hb2
  have hleaf : t'.isLeaf = false := by
    obtain ⟨ch, rfl⟩ := hroot
    rfl
  have hdne : d ≠ [] := by
    intro hnil
    subst hnil
    rw [show buildTree [] = some root0 from rfl] at hb
    injection hb with hb
    rw [← hb] at hK
    exact absurd hK (by decide)
  have hcount1 : 1 ≤ leafCount t' := by
    rw [hcount]
    cases d with
    | nil => exact absurd rfl hdne
    | cons p rest =>
      simp only [List.map_cons, List.sum_cons]
      omega
  have hposall : ∀ u ∈ allNodes t', getPositions u ≠ [] := by
    intro u hu
    rcases mem_allNodes_cases hu with rfl | ⟨kc, hkc, hu2⟩
    · intro hnil
      rw [leafCount_eq_positions, hnil] at hcount1
      simp at hcount1
    · exact hcp kc hkc u hu2
  have hcs : commonSubstrings t' = sortRows (rowsLoop (csVisit t' [])
      (vKeysMax (csVisit t' [])) 0 none) := rfl
  have hVinit : ∀ j, EntryWit t' j (vGet [] j) := by
    intro j
    constructor
    · intro h0
      rw [vGet_nil] at h0
      exact absurd h0 (by decide)
    · intro hne
      exact absurd rfl hne
  have hwit : ∀ j, EntryWit t' j (vGet (csVisit t' []) j) :=
    csVisit_wit t' [] t' (fun u hu => hu) hposall hVinit
  have hval : ∀ j, (vGet (csVisit t' []) j).1 = bestDepth t' j := by
    intro j
    rw [csVisit_val t' [] hposall j]
    rw [show (vGet [] j).1 = 0 from rfl]
    omega
  have hKmem : computeCval t' ∈ (csVisit t' []).map Prod.fst :=
    csVisit_keys_covers t' [] t' (mem_allNodes_self t') hleaf
  have hKbound : ∀ kk ∈ (csVisit t' []).map Prod.fst,
      kk ≤ computeCval t' := by
    intro kk hkk
    rcases csVisit_keys_src t' [] kk hkk with h2 | ⟨u, hu, _, hC⟩
    · cases h2
    · rw [← hC]
      exact computeCval_le_of_mem hu
  have hKmax : vKeysMax (csVisit t' []) = computeCval t' := by
    have h1 : computeCval t' ≤ vKeysMax (csVisit t' []) := le_vKeysMax hKmem
    rcases vKeysMax_mem (csVisit t' []) with h2 | h2
    · omega
    · have h3 := hKbound _ h2
      omega
  obtain ⟨hmap, hmem⟩ := rowsLoop_spec (csVisit t' [])
    (vKeysMax (csVisit t' [])) 0 none
  have hm2 : ((rowsLoop (csVisit t' []) (vKeysMax (csVisit t' []))
      0 none).map Prod.fst) = (List.range' 2 (computeCval t' - 1)).reverse := by
    rw [hmap, hKmax]
  refine ⟨?_, ?_, ?_⟩
  · rw [hcs]
    have hp := (sortRows_perm (rowsLoop (csVisit t' [])
      (vKeysMax (csVisit t' [])) 0 none)).map Prod.fst
    rw [hm2] at hp
    exact hp.trans (List.reverse_perm _)
  · rw [hcs]
    rw [List.pairwise_map]
    exact sortRows_sorted _
  · intro r hr
    rw [hcs] at hr
    have hr2 : r ∈ rowsLoop (csVisit t' []) (vKeysMax (csVisit t' []))
        0 none := (sortRows_perm _).mem_iff.mp hr
    obtain ⟨hv1, hv2⟩ := hmem r hr2
    rw [hKmax] at hv1
    refine ⟨?_, ?_⟩
    · rw [hv1]
      have hmapeq : (List.range' r.1 (computeCval t' + 1 - r.1)).map
          (fun j => (vGet (csVisit t' []) j).1) =
          (List.range' r.1 (computeCval t' + 1 - r.1)).map (bestDepth t') :=
        List.map_congr_left (fun j _ => hval j)
      rw [hmapeq]
      omega
    · rcases hv2 with ⟨hp0, hv0⟩ | ⟨j, hj1, hj2, hj3, hj4⟩
      · refine ⟨?_, ?_⟩
        · constructor
          · intro h0
            rw [hv0] at h0
            cases h0
          · intro hne
            rw [hp0] at hne
            exact absurd rfl hne
        · intro sp hsp
          rw [hp0] at hsp
          cases hsp
      · have hw := hwit j
        refine ⟨?_, ?_⟩
        · constructor
          · intro h0
            rw [← hj4] at h0
            obtain ⟨u, hu, hint, hC, hdep, ido, pS, ps, pe, hid, hsp2,
              hposm⟩ := hw.1 h0
            rw [← hj3, hsp2]
            simp
          · intro hne
            rw [← hj3] at hne
            have h0 := hw.2 hne
            omega
        · intro sp hsp
          have hne : (vGet (csVisit t' []) j).2.2 ≠ none := by
            rw [hj3, hsp]
            simp
          have h0 : 0 < (vGet (csVisit t' []) j).1 := hw.2 hne
          obtain ⟨u, hu, hint, hC, hdep, ido, pS, ps, pe, hid, hsp2,
            hposm⟩ := hw.1 h0
          have hspv : sp = (pS, ps, ps + (vGet (csVisit t' []) j).1) := by
            have h3 : r.2.2 = some (pS, ps, ps + (vGet (csVisit t' []) j).1) :=
              hj3.symm.trans hsp2
            rw [hsp] at h3
            injection h3
          subst hspv
          refine ⟨u, hu, hint, ?_, ?_, ?_, ?_⟩
          · rw [hC]
            exact hj1
          · rw [hdep, hj4]
          · rw [hj4]
          · have hlab := label_of_position hwf hu hposm
            rw [hlab, hdep, hj4]

/-- C5 counterexample: on the tree built from the two disjoint one-symbol
sequences `[0]` and `[1]` (K = 2 sequences), `common_substrings` returns the
single row `(2, 0, None)`: the path component is `None` rather than a
witness path common to at least 2 of the sequences, since the two sequences
share no substring at all. -/
theorem C5_common_substrings_counterexample :
    ∃ rows, (buildTree [(0, [0]), (1, [1])]).map commonSubstrings =
        some rows ∧
      rows = [(2, 0, none)] ∧ ∀ r ∈ rows, r.2.2 = none := by
  refine ⟨[(2, 0, none)], rfl, rfl, ?_⟩
  intro r hr
  rw [List.mem_singleton] at hr
  rw [hr]

theorem C5_common_substrings_witness :
    2 ≤ computeCval ((buildTree [(0, [7]), (1, [7])]).getD root0) ∧
    List.Perm ((commonSubstrings
        ((buildTree [(0, [7]), (1, [7])]).getD root0)).map Prod.fst)
      (List.range' 2
        (computeCval ((buildTree [(0, [7]), (1, [7])]).getD root0) - 1)) := by
  have h := C5_common_substrings [(0, [7]), (1, [7])]
    ((buildTree [(0, [7]), (1, [7])]).getD root0) rfl (by decide)
  exact ⟨by decide, h.1⟩

